import Mathlib

/-! Verification of lsmvdb: versioned store, memtable lookup and query refinement.

A shallow embedding of `lsmvdb/db` (`dbformat.go`, `memtable.go`, `db.go`) together with
the part of the driver (`dataset/dataset.go`) that assembles a query.

Conventions of the embedding

* `Key`, `SequenceNumber` and `ValidTime` are Go `uint64`; they are natural numbers here and
  every arithmetic operation of the source on them is written with an explicit `% 2 ^ 64`.
* Go `int` (the field `incomplete`) is an integer wrapped to 64 bits by `wrapInt64`.
* Go `float64` values (probabilities, thresholds) are rational numbers; the routines the
  source takes from numeric libraries are parameters (`Numerics`). The conversion of a
  `uint64` to `float64`, which `ExtractKey` applies to a creationTime, is computed exactly
  (`float64OfUint64`): it rounds from 2^53 on.
* A Go map is a function into `Option` (memtable) or an association list in which a key
  occurs once (query results).
* A run-time panic of the source (nil dereference, index out of range, explicit `panic`) is a
  failure value: `none` in `Option`, or `Except.error`.
* State is passed explicitly: a method that changes its receiver returns the new value.
-/

/-! ## Data model (`dbformat.go`) -/

/-- The modulus of Go `uint64` arithmetic. -/
def uint64Mod : Nat := 2 ^ 64

/-- The type `Key` (Go `uint64`). -/
abbrev Key := Nat

/-- The type `SequenceNumber` (Go `uint64`). -/
abbrev SequenceNumber := Nat

/-- The type `ValidTime` (Go `uint64`). -/
abbrev ValidTime := Nat

/-- The type `Status` with its five constants. -/
inductive Status where
  | OK
  | ODV
  | HOLE
  | NOTFOUND
  | ERROR
deriving DecidableEq, Repr

/-- The type `Reason` with its five constants. -/
inductive Reason where
  | NotCompleted
  | nonODV
  | Timeout
  | MaybeCorrect
  | KeyNotInQuery
deriving DecidableEq, Repr

/-- The struct `Message`. -/
structure Message where
  creationTime : Nat
  sequenceNumber : Nat
  value : String
deriving DecidableEq, Repr

/-- The zero value `Message{}`. -/
def Message.empty : Message := ⟨0, 0, ""⟩

/-- The function `NewMessage`. -/
def NewMessage (creationTime : ValidTime) (sequenceNumber : SequenceNumber) (value : String) :
    Message :=
  { creationTime := creationTime, sequenceNumber := sequenceNumber, value := value }

/-- The error value `SequenceOutOfOrder{curr, next}`. -/
structure SequenceOutOfOrder where
  curr : SequenceNumber
  next : SequenceNumber
deriving DecidableEq, Repr

/-! ## The ordering key of a message -/

/-- The bound below which every `uint64` is a `float64`: 2^53. -/
def float64Bound : Nat := 2 ^ 53

/-- The number of low bits a `uint64` loses when it is converted to `float64`, whose
significand has 53 bits. -/
def float64Shift (n : Nat) : Nat :=
  if n < 2 ^ 53 then 0
  else if n < 2 ^ 54 then 1
  else if n < 2 ^ 55 then 2
  else if n < 2 ^ 56 then 3
  else if n < 2 ^ 57 then 4
  else if n < 2 ^ 58 then 5
  else if n < 2 ^ 59 then 6
  else if n < 2 ^ 60 then 7
  else if n < 2 ^ 61 then 8
  else if n < 2 ^ 62 then 9
  else if n < 2 ^ 63 then 10
  else 11

/-- Rounding `n` to a multiple of `2 ^ e`, to the nearest one and to the even multiple when
two are equally near. -/
def roundHalfEven (n e : Nat) : Nat :=
  let q := n / 2 ^ e
  let r := n % 2 ^ e
  if 2 * r < 2 ^ e then q * 2 ^ e
  else if 2 ^ e < 2 * r then (q + 1) * 2 ^ e
  else if q % 2 = 0 then q * 2 ^ e
  else (q + 1) * 2 ^ e

/-- The conversion `float64(n)` of a `uint64` (round to nearest, ties to even): the value of
the resulting `float64`, which is a whole number. -/
def float64OfUint64 (n : Nat) : Nat := roundHalfEven n (float64Shift n)

/-- The method `Message.ExtractKey`: `float64(m.creationTime)`, the key by which the skip
list orders and searches. -/
def Message.ExtractKey (m : Message) : Nat := float64OfUint64 m.creationTime

/-! ## Version store -/

/-- Modelled from the spec: the per-key VersionStore of §4.A. The source takes it from an
external skip-list package that is not among the repository sources. A store is the list of
its messages in the order of the skip list, which is ascending in the key `ExtractKey` of
the messages, and an iterator is a position in that list. -/
abbrev VersionStore := List Message

namespace VersionStore

/-- Modelled from the spec: `insert(m)` of the VersionStore (§4.A); the message is placed
behind every message whose key `ExtractKey` is not larger, so that messages of equal key
stay in the order of their insertion. -/
def Insert : VersionStore → Message → VersionStore
  | [], m => [m]
  | x :: xs, m =>
    if m.ExtractKey < x.ExtractKey then m :: x :: xs else x :: Insert xs m

/-- Auxiliary search of `FindGreaterOrEqual` for a key, counting positions from `i`. -/
def findFrom : VersionStore → Nat → Nat → Option Nat
  | [], _, _ => none
  | x :: xs, key, i => if key ≤ x.ExtractKey then some i else findFrom xs key (i + 1)

/-- Modelled from the spec: `findGreaterOrEqual` of the VersionStore (§4.A), the position
of the first message whose key is not below the key `ExtractKey` of the element `e`, or
nothing. When several messages have the key of `e` a skip list may stop at any of them; the
answer of `Get` from a given node is `Memtable.getFrom`. -/
def FindGreaterOrEqual (l : VersionStore) (e : Message) : Option Nat :=
  findFrom l e.ExtractKey 0

/-- Modelled from the spec: `smallest` of the VersionStore (§4.A); nil on an empty store. -/
def GetSmallestNode (l : VersionStore) : Option Nat :=
  if l.length = 0 then none else some 0

/-- Modelled from the spec: `largest` of the VersionStore (§4.A); nil on an empty store. -/
def GetLargestNode (l : VersionStore) : Option Nat :=
  if l.length = 0 then none else some (l.length - 1)

/-- Modelled from the spec: `next` of the VersionStore (§4.A). -/
def Next (_l : VersionStore) (elem : Nat) : Nat := elem + 1

/-- Modelled from the spec: `prev` of the VersionStore (§4.A); nil before the first node. -/
def Prev (_l : VersionStore) (elem : Nat) : Option Nat :=
  if elem = 0 then none else some (elem - 1)

/-- Reading the message of a node; a position outside the store is a nil node, whose
dereference fails. -/
def GetValue (l : VersionStore) (elem : Nat) : Option Message := l[elem]?

end VersionStore

/-! ## Memtable (`memtable.go`) -/

/-- The struct `Memtable`; `data` is the Go map from keys to version stores. -/
structure Memtable where
  creationTime : ValidTime
  archiveTime : ValidTime
  data : Key → Option VersionStore

/-- The function `NewMemtable`. -/
def NewMemtable (creationTime : ValidTime) : Memtable :=
  { creationTime := creationTime, archiveTime := 0, data := fun _ => none }

/-- The result tuple of `Get`: message, status, nextSequence, err. -/
abbrev GetResult := Message × Status × SequenceNumber × Option SequenceOutOfOrder

namespace Memtable

/-- The method `Memtable.Put`: the store of the key is created on first use and the
message is inserted; the returned error is always nil. -/
def Put (mem : Memtable) (key : Key) (sequenceNumber : SequenceNumber)
    (creationTime : ValidTime) (value : String) : Memtable × Option SequenceOutOfOrder :=
  let list : VersionStore :=
    match mem.data key with
    | some l => l
    | none => []
  let list := list.Insert
    { sequenceNumber := sequenceNumber, creationTime := creationTime, value := value }
  ({ mem with data := fun k => if k = key then some list else mem.data k }, none)

/-- The tail of `Memtable.Get` (source lines 68-79): the comparison of the successor's
sequence number with `message.sequenceNumber+1`, the sum being a `uint64` sum. -/
def classify (message next : Message) : GetResult :=
  let nextSequence := next.sequenceNumber
  if nextSequence = (message.sequenceNumber + 1) % uint64Mod then
    (message, Status.OK, nextSequence, none)
  else if nextSequence > (message.sequenceNumber + 1) % uint64Mod then
    (message, Status.HOLE, nextSequence, none)
  else
    (Message.empty, Status.ERROR, nextSequence,
      some { curr := message.sequenceNumber, next := nextSequence })

/-- The branch of `Memtable.Get` for a search that found the node `elem` (source lines
50-79): the answer computed from that node. The result is `none` when the source would
dereference a nil node. -/
def getFrom (list : VersionStore) (elem : Nat) (time : ValidTime) : Option GetResult :=
  match list.GetValue elem with
  | none => none
  | some message =>
    if time = message.creationTime then
      if some elem = list.GetLargestNode then
        some (message, Status.ODV, 0, none)
      else
        match list.GetValue (list.Next elem) with
        | none => none
        | some next => some (classify message next)
    else
      if some elem = list.GetSmallestNode then
        some (Message.empty, Status.NOTFOUND, message.sequenceNumber, none)
      else
        match list.Prev elem with
        | none => none
        | some p =>
          match list.GetValue p with
          | none => none
          | some prev => some (classify prev message)

/-- The method `Memtable.Get`. The search is for `Message{creationTime: time}`, by its key.
The result is `none` when the source would dereference a nil node (which needs an empty
store under the key). -/
def Get (mem : Memtable) (key : Key) (time : ValidTime) : Option GetResult :=
  match mem.data key with
  | none => some (Message.empty, Status.NOTFOUND, 0, none)
  | some list =>
    match list.FindGreaterOrEqual { creationTime := time, sequenceNumber := 0, value := "" } with
    | some elem => getFrom list elem time
    | none =>
      match list.GetLargestNode with
      | none => none
      | some last =>
        match list.GetValue last with
        | none => none
        | some m => some (m, Status.ODV, 0, none)

/-- The messages stored for a key (none when the key has no version store). -/
def stored (mem : Memtable) (key : Key) : List Message :=
  match mem.data key with
  | some l => l
  | none => []

end Memtable

/-! ## Database facade (`db.go`) -/

/-- The struct `DB`; `sensors` is the Go map from sensor number to its parameter slice, a
number without entry having the nil slice. -/
structure DB where
  path : String
  mem : Memtable
  sensors : Int → List Int

/-- The function `NewDB`; the memtable is created with creation time 0. -/
def NewDB (path : String) (_creationTime : ValidTime) : DB :=
  { path := path, mem := NewMemtable 0, sensors := fun _ => [] }

namespace DB

/-- The method `DB.Put`. -/
def Put (db : DB) (key : Key) (sequenceNumber : SequenceNumber) (creationTime : ValidTime)
    (value : String) : DB × Option SequenceOutOfOrder :=
  let r := db.mem.Put key sequenceNumber creationTime value
  ({ db with mem := r.1 }, r.2)

/-- The method `DB.Get`. -/
def Get (db : DB) (key : Key) (time : ValidTime) : Option GetResult :=
  db.mem.Get key time

end DB

/-- The arguments of one `Put` call. -/
structure PutCall where
  key : Key
  sequenceNumber : SequenceNumber
  creationTime : ValidTime
  value : String
deriving DecidableEq, Repr

/-- The message a `Put` call stores. -/
def PutCall.message (c : PutCall) : Message :=
  { sequenceNumber := c.sequenceNumber, creationTime := c.creationTime, value := c.value }

/-- A sequence of `Memtable.Put` calls, applied in order. -/
def Memtable.PutAll (mem : Memtable) (calls : List PutCall) : Memtable :=
  calls.foldl (fun m c => (m.Put c.key c.sequenceNumber c.creationTime c.value).1) mem

/-- A sequence of `DB.Put` calls, applied in order. -/
def DB.PutAll (db : DB) (calls : List PutCall) : DB :=
  calls.foldl (fun d c => (d.Put c.key c.sequenceNumber c.creationTime c.value).1) db

/-! ## Queries (`dbformat.go`) -/

/-- The numeric routines the source takes from outside the repository, as parameters.
`normalCDF mean stddev x` stands for `distuv.Normal{Mu: mean, Sigma: stddev}.CDF(float64(x))`
and `minFloat a b` for `SequenceNumber(math.Min(float64(a), float64(b)))`. Go `float64`
values are rational numbers in this embedding; rounding and NaN are not modelled. -/
structure Numerics where
  normalCDF : Int → Int → Nat → ℚ
  minFloat : Nat → Nat → Nat

/-- The ways the source stops without returning: the explicit `panic` of `updateKey`, a nil
pointer dereference, an index outside a slice, and `log.Fatalln` of the driver. -/
inductive Failure where
  | sequenceOutOfOrder (e : SequenceOutOfOrder)
  | nilDereference
  | indexOutOfRange
  | fatal
deriving DecidableEq, Repr

/-- Wrapping an integer to the range of Go `int` (64 bits). -/
def wrapInt64 (x : Int) : Int := (x + 2 ^ 63) % 2 ^ 64 - 2 ^ 63

/-- The conversion `int(key)` of a `uint64`. -/
def intOfKey (key : Key) : Int := wrapInt64 (key : Int)

/-- Indexing a Go slice; an index outside the slice panics. -/
def sliceIndex (s : List Int) (i : Nat) : Except Failure Int :=
  match s[i]? with
  | some v => Except.ok v
  | none => Except.error Failure.indexOutOfRange

/-- The function `ProbTemporalCorrect`; the difference `requestTime-creationTime` is a
`uint64` difference. -/
def ProbTemporalCorrect (env : Numerics) (mean stddev : Int) (creationTime requestTime : Nat) :
    ℚ :=
  1 - env.normalCDF mean stddev ((requestTime + uint64Mod - creationTime) % uint64Mod)

/-- The struct `Result`. -/
structure Result where
  message : Message
  status : Status
  nextSequence : Nat
  probTemporalCorrect : ℚ
deriving DecidableEq

/-- Lookup in the Go map `currentResults`, an association list. -/
def resultsGet : List (Key × Result) → Key → Option Result
  | [], _ => none
  | (k', r) :: rest, k => if k' = k then some r else resultsGet rest k

/-- Assignment `currentResults[key] = r` in the Go map: an existing entry is replaced, a new
key is added. -/
def resultsSet : List (Key × Result) → Key → Result → List (Key × Result)
  | [], k, r => [(k, r)]
  | (k', r') :: rest, k, r =>
    if k' = k then (k, r) :: rest else (k', r') :: resultsSet rest k r

/-- The struct `Query`. The field `pool` is the back-reference to the query pool, of which
only the sensor table is read (`none` is the nil pointer); a sensor number without entry has
the nil slice. -/
structure Query where
  arrivalTime : Nat
  requestTime : Nat
  incomplete : Int
  probTemporalCorrect : ℚ
  currentResults : List (Key × Result)
  pool : Option (Int → List Int)

/-- The function `NewQuery`. -/
def NewQuery (arrivalTime requestTime : Nat) (incomplete : Int) : Query :=
  { arrivalTime := arrivalTime, requestTime := requestTime, incomplete := incomplete,
    probTemporalCorrect := 0, currentResults := [], pool := none }

namespace Query

/-- The method `Query.SetPool`. -/
def SetPool (q : Query) (pool : Int → List Int) : Query :=
  { q with pool := some pool }

/-- The method `Query.CompleteOneKey`. -/
def CompleteOneKey (q : Query) : Query :=
  { q with incomplete := wrapInt64 (q.incomplete - 1) }

/-- The method `Query.AllKeysOK`. -/
def AllKeysOK (q : Query) : Bool := decide (q.incomplete = 0)

/-- The method `Query.updateProbTemporalCorrect`: the product over all results. The source
multiplies `float64` values in the order of the range over the map; here the factors are
rational numbers and the product is exact, so it depends on no order and is not rounded. -/
def updateProbTemporalCorrect (q : Query) : Query :=
  { q with probTemporalCorrect :=
      (q.currentResults.map (fun e => e.2.probTemporalCorrect)).prod }

/-- The method `Query.NewResult`. -/
def NewResult (q : Query) (key : Key) (message : Message) (status : Status)
    (nextSequence : Nat) (prob : ℚ) : Query :=
  let r : Result :=
    { message := message, status := status, nextSequence := nextSequence,
      probTemporalCorrect := prob }
  updateProbTemporalCorrect { q with currentResults := resultsSet q.currentResults key r }

/-- The method `Query.MaybeCorrect`. -/
def MaybeCorrect (q : Query) (ck : ℚ) : Bool := decide (q.probTemporalCorrect ≥ ck)

/-- The method `Query.updateKey`. The result record is returned instead of being changed in
place. Sums and differences of sequence numbers are `uint64` operations. -/
def updateKey (env : Numerics) (q : Query) (key : Key) (currentResult : Result)
    (newMessage : Message) : Except Failure (Result × Bool × Bool × Reason) :=
  let currentMessage := currentResult.message
  if newMessage.creationTime > q.requestTime then
    if currentResult.status = Status.NOTFOUND then
      if newMessage.sequenceNumber < currentResult.nextSequence
          ∨ currentResult.nextSequence < 1 then
        Except.ok ({ currentResult with nextSequence := newMessage.sequenceNumber },
          false, false, Reason.NotCompleted)
      else
        Except.ok (currentResult, false, false, Reason.NotCompleted)
    else if newMessage.sequenceNumber = (currentMessage.sequenceNumber + 1) % uint64Mod then
      Except.ok ({ currentResult with
          nextSequence := newMessage.sequenceNumber, status := Status.OK },
        true, false, Reason.nonODV)
    else if newMessage.sequenceNumber > (currentMessage.sequenceNumber + 1) % uint64Mod then
      if currentResult.status = Status.ODV then
        Except.ok ({ currentResult with
            nextSequence := newMessage.sequenceNumber, status := Status.HOLE },
          false, false, Reason.NotCompleted)
      else
        Except.ok ({ currentResult with
            nextSequence := env.minFloat currentResult.nextSequence newMessage.sequenceNumber,
            status := Status.HOLE },
          false, false, Reason.NotCompleted)
    else
      Except.error (Failure.sequenceOutOfOrder
        { curr := newMessage.sequenceNumber, next := currentMessage.sequenceNumber })
  else
    if newMessage.sequenceNumber < currentMessage.sequenceNumber then
      Except.ok (currentResult, false, false, Reason.NotCompleted)
    else
      match q.pool with
      | none => Except.error Failure.nilDereference
      | some sensors =>
        match sliceIndex (sensors (intOfKey key)) 0 with
        | Except.error e => Except.error e
        | Except.ok mean =>
          match sliceIndex (sensors (intOfKey key)) 1 with
          | Except.error e => Except.error e
          | Except.ok std =>
            let r : Result := { currentResult with
              message := newMessage,
              probTemporalCorrect :=
                ProbTemporalCorrect env mean std currentMessage.creationTime q.requestTime }
            if currentResult.status = Status.ODV then
              Except.ok (r, false, true, Reason.NotCompleted)
            else if newMessage.sequenceNumber
                = (currentResult.nextSequence + uint64Mod - 1) % uint64Mod then
              Except.ok ({ r with status := Status.OK }, true, true, Reason.nonODV)
            else
              Except.ok ({ r with status := Status.HOLE }, false, true, Reason.NotCompleted)

/-- The method `Query.Update`; the sum `arrivalTime+deadline` is a `uint64` sum. The changed
query is returned together with (completed, updated, finalReason). -/
def Update (env : Numerics) (q : Query) (clock : Nat) (key : Key) (newMessage : Message)
    (deadline : Nat) (ck : ℚ) : Except Failure (Query × Bool × Bool × Reason) :=
  match resultsGet q.currentResults key with
  | none => Except.ok (q, false, false, Reason.KeyNotInQuery)
  | some currentResult =>
    if clock > (q.arrivalTime + deadline) % uint64Mod then
      Except.ok (q, true, false, Reason.Timeout)
    else
      match updateKey env q key currentResult newMessage with
      | Except.error e => Except.error e
      | Except.ok (r, keyCompleted, keyUpdated, reason) =>
        let q1 : Query := { q with currentResults := resultsSet q.currentResults key r }
        let q2 : Query := if keyUpdated then updateProbTemporalCorrect q1 else q1
        if keyUpdated ∧ q2.probTemporalCorrect ≥ ck then
          Except.ok (q2, true, keyUpdated, Reason.MaybeCorrect)
        else if keyCompleted then
          let q3 : Query := { q2 with incomplete := wrapInt64 (q2.incomplete - 1) }
          if AllKeysOK q3 then
            Except.ok (q3, true, keyUpdated, reason)
          else
            Except.ok (q3, false, keyUpdated, Reason.NotCompleted)
        else
          Except.ok (q2, false, keyUpdated, Reason.NotCompleted)

end Query

/-! ## The driver's handling of a Get instruction (`dataset.go`) -/

/-- One pass of the loop over the requested keys in `executeInstructions` (source lines
380-392): the lookup, the probability of the returned message, `NewResult`, and
`CompleteOneKey` when the status is OK. -/
def assembleKey (env : Numerics) (sampleDB : DB) (sensors : Int → List Int)
    (validTime : Nat) (query : Query) (k : Key) : Except Failure Query :=
  match sampleDB.Get k validTime with
  | none => Except.error Failure.nilDereference
  | some (message, status, nextSequence, err) =>
    match err with
    | some _ => Except.error Failure.fatal
    | none =>
      match sliceIndex (sensors (intOfKey k)) 0 with
      | Except.error e => Except.error e
      | Except.ok mean =>
        match sliceIndex (sensors (intOfKey k)) 1 with
        | Except.error e => Except.error e
        | Except.ok std =>
          let prob := ProbTemporalCorrect env mean std message.creationTime validTime
          let query := query.NewResult k message status nextSequence prob
          if status = Status.OK then Except.ok query.CompleteOneKey else Except.ok query

/-- The loop over the requested keys, continued from the query built so far. -/
def assembleKeys (env : Numerics) (sampleDB : DB) (sensors : Int → List Int)
    (validTime : Nat) : Query → List Key → Except Failure Query
  | query, [] => Except.ok query
  | query, k :: ks =>
    match assembleKey env sampleDB sensors validTime query k with
    | Except.error e => Except.error e
    | Except.ok query => assembleKeys env sampleDB sensors validTime query ks

/-- The Get case of `executeInstructions` up to the end of the loop (source lines 369-392):
`NewQuery(clock, validTime, numberOfKeys)` followed by the loop over the requested keys. -/
def assembleQuery (env : Numerics) (sampleDB : DB) (sensors : Int → List Int)
    (clock validTime : Nat) (requestedKeys : List Key) : Except Failure Query :=
  assembleKeys env sampleDB sensors validTime
    (NewQuery clock validTime (requestedKeys.length : Int)) requestedKeys

/-- The arguments of one `Query.Update` call. -/
structure UpdateCall where
  clock : Nat
  key : Key
  newMessage : Message
  deadline : Nat
  ck : ℚ

/-- The number of results whose status is not OK. -/
def countNotOK (results : List (Key × Result)) : Int :=
  ((results.filter (fun e => decide (e.2.status ≠ Status.OK))).length : Int)

/-- Ascending creation times along a store. -/
def VersionStore.Ordered (l : VersionStore) : Prop :=
  l.Pairwise (fun a b => a.creationTime ≤ b.creationTime)

/-- Every creationTime of the store is below 2^53, where the key `ExtractKey` is the
creationTime itself. -/
def VersionStore.Bounded (l : VersionStore) : Prop :=
  ∀ x ∈ l, x.creationTime < float64Bound

instance (l : VersionStore) : Decidable (VersionStore.Bounded l) :=
  inferInstanceAs (Decidable (∀ x ∈ l, x.creationTime < float64Bound))

/-- The version store of the key, when there is one, is non-empty, in ascending creationTime
order and holds creation times below 2^53 only. -/
def Memtable.WF (mem : Memtable) (k : Key) : Prop :=
  ∀ l, mem.data k = some l → l ≠ [] ∧ VersionStore.Ordered l ∧ VersionStore.Bounded l

/-- What `Get` computes when the first message not below `time` is `e`, with `lo` before it
and `hi` behind it. -/
def Memtable.getAt (lo : List Message) (e : Message) (hi : List Message) (time : Nat) :
    GetResult :=
  if time = e.creationTime then
    match hi with
    | [] => (e, Status.ODV, 0, none)
    | n :: _ => Memtable.classify e n
  else
    match lo.getLast? with
    | none => (Message.empty, Status.NOTFOUND, e.sequenceNumber, none)
    | some p => Memtable.classify p e

/-- A memtable obtained from `NewMemtable` by a sequence of `Put` calls. -/
def Memtable.Reachable (mem : Memtable) : Prop :=
  ∃ c calls, mem = (NewMemtable c).PutAll calls

/-- No two of the messages share a creationTime. -/
def DistinctCreationTimes (l : List Message) : Prop :=
  l.Pairwise (fun a b => a.creationTime ≠ b.creationTime)

/-- No two of the messages share a sequenceNumber. -/
def DistinctSequenceNumbers (l : List Message) : Prop :=
  l.Pairwise (fun a b => a.sequenceNumber ≠ b.sequenceNumber)

/-- Monotone agreement: a later creationTime implies a larger sequenceNumber. -/
def MonotoneAgreement (l : List Message) : Prop :=
  ∀ a ∈ l, ∀ b ∈ l, a.creationTime < b.creationTime → a.sequenceNumber < b.sequenceNumber

/-- Every sequence number fits the type `uint64`. -/
def SequenceNumbersInRange (l : List Message) : Prop :=
  ∀ a ∈ l, a.sequenceNumber < uint64Mod

instance (l : List Message) : Decidable (DistinctCreationTimes l) :=
  inferInstanceAs (Decidable (l.Pairwise (fun (a b : Message) => a.creationTime ≠ b.creationTime)))

instance (l : List Message) : Decidable (DistinctSequenceNumbers l) :=
  inferInstanceAs (Decidable (l.Pairwise
    (fun (a b : Message) => a.sequenceNumber ≠ b.sequenceNumber)))

instance (l : List Message) : Decidable (MonotoneAgreement l) :=
  inferInstanceAs (Decidable (∀ a ∈ l, ∀ b ∈ l,
    a.creationTime < b.creationTime → a.sequenceNumber < b.sequenceNumber))

instance (l : List Message) : Decidable (SequenceNumbersInRange l) :=
  inferInstanceAs (Decidable (∀ a ∈ l, a.sequenceNumber < uint64Mod))

/-- The Put calls of the first concrete scenario of the spec (§8): key 1 receives the
messages (creationTime 10, seq 1), (20, seq 2), (40, seq 4). -/
def scenarioCalls : List PutCall :=
  [⟨1, 1, 10, "value: 1"⟩, ⟨1, 2, 20, "value: 2"⟩, ⟨1, 4, 40, "value: 4"⟩]

/-- The memtable of the first concrete scenario. -/
def scenarioMem : Memtable := (NewMemtable 0).PutAll scenarioCalls

/-- The Put calls of the second concrete scenario: key 100 receives the single message
(creationTime 10, seq 1) while key 1 holds the data of the first scenario. -/
def singleCalls : List PutCall := scenarioCalls ++ [⟨100, 1, 10, "value 10"⟩]

/-- The first concrete scenario on the database facade: an empty DB into which the three
messages of key 1 are Put, with arbitrary values. -/
def scenarioDB (path : String) (c : Nat) (v1 v2 v4 : String) : DB :=
  (NewDB path c).PutAll [⟨1, 1, 10, v1⟩, ⟨1, 2, 20, v2⟩, ⟨1, 4, 40, v4⟩]

/-- Two messages for key 1 whose sequence numbers wrap around: (creationTime 10,
seq 2^64 - 1) followed by (creationTime 20, seq `next`). -/
def wrapMem (next : Nat) : Memtable :=
  (NewMemtable 0).PutAll [⟨1, 2 ^ 64 - 1, 10, "a"⟩, ⟨1, next, 20, "b"⟩]

/-- Key 1 with the messages (creationTime 2^53, seq 1) and (2^53 + 2, seq 2): creation
times at which `float64` no longer holds every whole number. -/
def roundedMem : Memtable :=
  (NewMemtable 0).PutAll [⟨1, 1, 2 ^ 53, "a"⟩, ⟨1, 2, 2 ^ 53 + 2, "b"⟩]

/-- Key 1 after Put of (creationTime 2^53 + 1, seq 2) and then of (2^53, seq 1): two
creation times with the same key 2^53. -/
def tiedMem : Memtable :=
  (NewMemtable 0).PutAll [⟨1, 2, 2 ^ 53 + 1, "b"⟩, ⟨1, 1, 2 ^ 53, "a"⟩]

/-- Key 1 with the messages (creationTime 10, seq 1) and (2^53, seq `next`). -/
def lateMem (next : Nat) : Memtable :=
  (NewMemtable 0).PutAll [⟨1, 1, 10, "a"⟩, ⟨1, next, 2 ^ 53, "b"⟩]

/-! ## Sample queries -/

/-- A sample of the external numeric routines: a normal CDF that is 1/2 everywhere and the
exact minimum. -/
def sampleEnv : Numerics :=
  { normalCDF := fun _ _ _ => 1 / 2, minFloat := fun a b => min a b }

/-- The expression `SequenceNumber(math.Min(float64(a), float64(b)))` of `updateKey`: both
sequence numbers are converted to `float64` and the smaller value is converted back (the
conversion back is exact for a value below 2^64; for 2^64 itself the language leaves it
open). -/
def minFloat64 (a b : Nat) : Nat := min (float64OfUint64 a) (float64OfUint64 b)

/-- The external numeric routines with the minimum as the source computes it: a normal CDF
that is 1/2 everywhere and the minimum taken in `float64`. -/
def float64Env : Numerics :=
  { normalCDF := fun _ _ _ => 1 / 2, minFloat := minFloat64 }

/-- Sensor parameters (mean 1000, stddev 400) for the sensors 1 and 2. -/
def sampleSensors : Int → List Int :=
  fun i => if i = 1 ∨ i = 2 then [1000, 400] else []

/-- The database of the first concrete scenario. -/
def sampleDB : DB := (NewDB "" 0).PutAll scenarioCalls

/-- The query the driver assembles at clock 30 for the keys 1 and 2 and requested time 25
on the scenario database: key 1 has the result (seq 2, HOLE, 4), key 2 is NOTFOUND. -/
def sampleQuery : Query :=
  match assembleQuery sampleEnv sampleDB sampleSensors 30 25 [1, 2] with
  | Except.ok q => q
  | Except.error _ => NewQuery 30 25 2

/-- The single-key query of key 1 at requested time 25 (result (seq 2, HOLE, 4)) together
with its sensor table. -/
def holeQuery : Query :=
  match assembleQuery sampleEnv sampleDB sampleSensors 30 25 [1] with
  | Except.ok q => q.SetPool sampleSensors
  | Except.error _ => NewQuery 30 25 1

/-- The single-key query of the third and fourth concrete scenarios of the spec (§8): key 1,
requestTime 25, arrivalTime 30, result (message `m`, HOLE, nextSequence 4) with per-key
probability `p`, joint probability `P`, one incomplete key, and the sensor table `sensors`
behind its pool reference. -/
def parkedQuery (m : Message) (p P : ℚ) (sensors : Int → List Int) : Query :=
  { arrivalTime := 30, requestTime := 25, incomplete := 1, probTemporalCorrect := P,
    currentResults := [(1, ⟨m, Status.HOLE, 4, p⟩)], pool := some sensors }

/-- A single-key query on key 1 (requestTime 25, arrivalTime 30) whose current message has
the largest `uint64` sequence number, with status ODV. -/
def wrapQuery : Query :=
  { arrivalTime := 30, requestTime := 25, incomplete := 1, probTemporalCorrect := 1 / 2,
    currentResults := [(1, ⟨⟨20, 2 ^ 64 - 1, "a"⟩, Status.ODV, 0, 1 / 2⟩)],
    pool := some sampleSensors }

/-! ## Histories of a query -/

/-- One step in the life of a query: a call of `NewResult`, `CompleteOneKey`, `SetPool` or
`Update`. -/
inductive QueryOp where
  | newResult (key : Key) (message : Message) (status : Status) (nextSequence : Nat) (prob : ℚ)
  | completeOneKey
  | setPool (pool : Int → List Int)
  | update (c : UpdateCall)

/-- The query after one step; a failing `Update` ends the run. -/
def Query.step (env : Numerics) (q : Query) : QueryOp → Except Failure Query
  | QueryOp.newResult key message status nextSequence prob =>
    Except.ok (q.NewResult key message status nextSequence prob)
  | QueryOp.completeOneKey => Except.ok q.CompleteOneKey
  | QueryOp.setPool pool => Except.ok (q.SetPool pool)
  | QueryOp.update c =>
    match q.Update env c.clock c.key c.newMessage c.deadline c.ck with
    | Except.error e => Except.error e
    | Except.ok (q', _, _, _) => Except.ok q'

/-- The query after a sequence of steps. -/
def Query.steps (env : Numerics) : Query → List QueryOp → Except Failure Query
  | q, [] => Except.ok q
  | q, op :: ops =>
    match q.step env op with
    | Except.error e => Except.error e
    | Except.ok q' => Query.steps env q' ops

/-- The product of the per-key probabilities of a query. -/
def Query.productOfResults (q : Query) : ℚ :=
  (q.currentResults.map (fun e => e.2.probTemporalCorrect)).prod

/-! ## Query pool (`dbformat.go`) -/

/-- Lookup in a Go map held as an association list. -/
def mapGet {κ α : Type} [DecidableEq κ] : List (κ × α) → κ → Option α
  | [], _ => none
  | (k', v) :: rest, k => if k' = k then some v else mapGet rest k

/-- Assignment `m[k] = v` in a Go map: an existing entry is replaced, a new key is added. -/
def mapSet {κ α : Type} [DecidableEq κ] : List (κ × α) → κ → α → List (κ × α)
  | [], k, v => [(k, v)]
  | (k', v') :: rest, k, v =>
    if k' = k then (k, v) :: rest else (k', v') :: mapSet rest k v

/-- The builtin `delete(m, k)` of a Go map. -/
def mapDelete {κ α : Type} [DecidableEq κ] : List (κ × α) → κ → List (κ × α)
  | [], _ => []
  | (k', v) :: rest, k =>
    if k' = k then mapDelete rest k else (k', v) :: mapDelete rest k

/-- A pointer to a `Query`. -/
abbrev QueryRef := Nat

/-- The queries on the heap: what each pointer refers to (`none` for a nil pointer). -/
abbrev QueryHeap := QueryRef → Option Query

/-- The struct `QueryPool`. The index `pool` maps a key to the map from arrival times to
query pointers; `sensors` is the Go map of sensor parameters (a number without entry has the
nil slice). -/
structure QueryPool where
  size : Int
  pool : List (Key × List (Nat × QueryRef))
  sensors : Int → List Int
  updateCount : Int
  updateTotalTime : Int

/-- The function `NewQueryPool`. -/
def NewQueryPool : QueryPool :=
  { size := 0, pool := [], sensors := fun _ => [], updateCount := 0, updateTotalTime := 0 }

/-- The index entry `pool[key][arrivalTime]` of a pool index, if present. -/
def poolEntry (pool : List (Key × List (Nat × QueryRef))) (key : Key) (arrivalTime : Nat) :
    Option QueryRef :=
  match mapGet pool key with
  | none => none
  | some queries => mapGet queries arrivalTime

/-- The keys of the map `currentResults` of a query. -/
def Query.keys (q : Query) : List Key := q.currentResults.map Prod.fst

namespace QueryPool

/-- The index entry `qp.pool[key][arrivalTime]`, if present. -/
def entry (qp : QueryPool) (key : Key) (arrivalTime : Nat) : Option QueryRef :=
  poolEntry qp.pool key arrivalTime

/-- The method `QueryPool.UpdateCount`. -/
def UpdateCount (qp : QueryPool) : Int := qp.updateCount

/-- The method `QueryPool.UpdateTotalTime`. -/
def UpdateTotalTime (qp : QueryPool) : Int := qp.updateTotalTime

/-- The method `QueryPool.SetSensors`. -/
def SetSensors (qp : QueryPool) (sensors : Int → List Int) : QueryPool :=
  { qp with sensors := sensors }

/-- The body of the loop of `QueryPool.Add` for one key: the map of the key is created when
absent and the query is stored under its arrival time. -/
def addKey (arrivalTime : Nat) (query : QueryRef) (pool : List (Key × List (Nat × QueryRef)))
    (key : Key) : List (Key × List (Nat × QueryRef)) :=
  let queries : List (Nat × QueryRef) :=
    match mapGet pool key with
    | some m => m
    | none => []
  mapSet pool key (mapSet queries arrivalTime query)

/-- The method `QueryPool.Add`. `order` is the order in which the range over the map
`query.currentResults` produces its keys; a nil query pointer fails. -/
def Add (qp : QueryPool) (heap : QueryHeap) (query : QueryRef) (order : List Key) :
    Except Failure QueryPool :=
  match heap query with
  | none => Except.error Failure.nilDereference
  | some q =>
    Except.ok { qp with
      pool := order.foldl (addKey q.arrivalTime query) qp.pool,
      size := wrapInt64 (qp.size + 1) }

/-- The inner loop of `QueryPool.Update` for a completed query: `delete(qp.pool[key],
arrivalTime)` for every key of the query, a key without map being left alone. -/
def removeQuery (arrivalTime : Nat) (pool : List (Key × List (Nat × QueryRef)))
    (keys : List Key) : List (Key × List (Nat × QueryRef)) :=
  keys.foldl (fun pool k =>
    match mapGet pool k with
    | none => pool
    | some queries => mapSet pool k (mapDelete queries arrivalTime)) pool

end QueryPool

/-- The state of the loop of `QueryPool.Update`: the pool, the heap of queries and the two
result slices. -/
structure PoolVisit where
  qp : QueryPool
  heap : QueryHeap
  completedQueries : List QueryRef
  updatedQueries : List QueryRef

namespace QueryPool

/-- One pass of the loop of `QueryPool.Update`, for the entry of `pool[key]` stored under
`arrivalTime`. An entry deleted from the map before the range reaches it is not produced.
`elapsed` is the measured duration of the call of `Query.Update`. -/
def visit (env : Numerics) (clock : Nat) (key : Key) (newMessage : Message) (deadline : Nat)
    (ck : ℚ) (elapsed : Int) (st : PoolVisit) (arrivalTime : Nat) : Except Failure PoolVisit :=
  match st.qp.entry key arrivalTime with
  | none => Except.ok st
  | some query =>
    match st.heap query with
    | none => Except.error Failure.nilDereference
    | some q =>
      match q.Update env clock key newMessage deadline ck with
      | Except.error e => Except.error e
      | Except.ok (q', completed, updated, _) =>
        let heap : QueryHeap := fun r => if r = query then some q' else st.heap r
        let qp : QueryPool := { st.qp with
          updateTotalTime := wrapInt64 (st.qp.updateTotalTime + elapsed),
          updateCount := wrapInt64 (st.qp.updateCount + 1) }
        if completed then
          Except.ok
            { qp := { qp with
                pool := removeQuery arrivalTime qp.pool q'.keys,
                size := wrapInt64 (qp.size - 1) },
              heap := heap,
              completedQueries := st.completedQueries ++ [query],
              updatedQueries := st.updatedQueries }
        else if updated then
          Except.ok
            { qp := qp, heap := heap,
              completedQueries := st.completedQueries,
              updatedQueries := st.updatedQueries ++ [query] }
        else
          Except.ok
            { qp := qp, heap := heap,
              completedQueries := st.completedQueries,
              updatedQueries := st.updatedQueries }

/-- The loop of `QueryPool.Update` over the arrival times in the given order. -/
def visitAll (env : Numerics) (clock : Nat) (key : Key) (newMessage : Message)
    (deadline : Nat) (ck : ℚ) (elapsed : Nat → Int) :
    PoolVisit → List Nat → Except Failure PoolVisit
  | st, [] => Except.ok st
  | st, a :: rest =>
    match visit env clock key newMessage deadline ck (elapsed a) st a with
    | Except.error e => Except.error e
    | Except.ok st' => visitAll env clock key newMessage deadline ck elapsed st' rest

/-- The method `QueryPool.Update`. `order` is the order in which the range over the map
`qp.pool[key]` produces its keys (arrival times) and `elapsed` gives the duration measured
for each call of `Query.Update`. The final state holds the changed pool and heap and the
slices completedQueries and updatedQueries. -/
def Update (env : Numerics) (qp : QueryPool) (heap : QueryHeap) (clock : Nat) (key : Key)
    (newMessage : Message) (deadline : Nat) (ck : ℚ) (elapsed : Nat → Int)
    (order : List Nat) : Except Failure PoolVisit :=
  match mapGet qp.pool key with
  | none =>
    Except.ok { qp := qp, heap := heap, completedQueries := [], updatedQueries := [] }
  | some _ =>
    visitAll env clock key newMessage deadline ck elapsed
      { qp := qp, heap := heap, completedQueries := [], updatedQueries := [] } order

/-- The orders in which a range over the map `qp.pool[key]` can produce its keys: every
arrival time of the map once. -/
def RangeOrder (qp : QueryPool) (key : Key) (order : List Nat) : Prop :=
  order.Nodup ∧ ∀ a, a ∈ order ↔ (qp.entry key a).isSome

end QueryPool

namespace QueryPool

/-- What the pass of the loop of `Update` for the entry under arrival time `a` does, read off
the pool and the heap: the query visited, its state after `Query.Update`, and the flags
completed and updated. -/
def outcome (env : Numerics) (clock : Nat) (key : Key) (newMessage : Message) (deadline : Nat)
    (ck : ℚ) (qp : QueryPool) (heap : QueryHeap) (a : Nat) :
    Option (QueryRef × Query × Bool × Bool) :=
  match qp.entry key a with
  | none => none
  | some query =>
    match heap query with
    | none => none
    | some q =>
      match q.Update env clock key newMessage deadline ck with
      | Except.error _ => none
      | Except.ok (q', completed, updated, _) => some (query, q', completed, updated)

/-- The query a pass of the loop appends to completedQueries, if any. -/
def completedRef (o : Option (QueryRef × Query × Bool × Bool)) : Option QueryRef :=
  match o with
  | some (query, _, true, _) => some query
  | _ => none

/-- The query a pass of the loop appends to updatedQueries, if any. -/
def updatedRef (o : Option (QueryRef × Query × Bool × Bool)) : Option QueryRef :=
  match o with
  | some (query, _, false, true) => some query
  | _ => none

/-- Every entry of `pool[key]` holds a query on the heap whose arrival time is the arrival
time it is stored under. -/
def Indexed (qp : QueryPool) (heap : QueryHeap) (key : Key) : Prop :=
  ∀ a ref, qp.entry key a = some ref → ∃ q, heap ref = some q ∧ q.arrivalTime = a

/-- A pool whose index is the work of `Add`, with pairwise distinct arrival times: every
entry `pool[k][a]` holds a query on the heap that has arrival time `a` and requests `k`,
and no two queries of the index share an arrival time. -/
def WellIndexed (qp : QueryPool) (heap : QueryHeap) : Prop :=
  (∀ k a ref, qp.entry k a = some ref →
    ∃ q, heap ref = some q ∧ q.arrivalTime = a ∧ k ∈ q.keys) ∧
  (∀ k1 k2 a r1 r2, qp.entry k1 a = some r1 → qp.entry k2 a = some r2 → r1 = r2)

/-- The effect of the loop of `Update` over `order`, told from the state `st` before the
loop. -/
structure Summary (env : Numerics) (clock : Nat) (key : Key) (newMessage : Message)
    (deadline : Nat) (ck : ℚ) (st : PoolVisit) (order : List Nat) (st' : PoolVisit) :
    Prop where
  completed : st'.completedQueries = st.completedQueries ++ order.filterMap
    (fun a => completedRef (outcome env clock key newMessage deadline ck st.qp st.heap a))
  updated : st'.updatedQueries = st.updatedQueries ++ order.filterMap
    (fun a => updatedRef (outcome env clock key newMessage deadline ck st.qp st.heap a))
  returned : ∀ a ∈ order,
    (outcome env clock key newMessage deadline ck st.qp st.heap a).isSome
  heapVisited : ∀ a ∈ order, ∀ ref q' c u,
    outcome env clock key newMessage deadline ck st.qp st.heap a = some (ref, q', c, u) →
    st'.heap ref = some q'
  heapOther : ∀ r,
    (∀ a ∈ order, ∀ ref q' c u,
      outcome env clock key newMessage deadline ck st.qp st.heap a = some (ref, q', c, u) →
      ref ≠ r) →
    st'.heap r = st.heap r
  entryRemoved : ∀ a ∈ order, ∀ ref q' u,
    outcome env clock key newMessage deadline ck st.qp st.heap a = some (ref, q', true, u) →
    ∀ k ∈ q'.keys, st'.qp.entry k a = none
  entryKept : ∀ k b,
    (b ∈ order → ∀ ref q' u,
      outcome env clock key newMessage deadline ck st.qp st.heap b = some (ref, q', true, u) →
      k ∉ q'.keys) →
    st'.qp.entry k b = st.qp.entry k b
  size : st'.qp.size =
    if (order.filterMap (fun a => completedRef
        (outcome env clock key newMessage deadline ck st.qp st.heap a))).length = 0
    then st.qp.size
    else wrapInt64 (st.qp.size - ((order.filterMap (fun a => completedRef
        (outcome env clock key newMessage deadline ck st.qp st.heap a))).length : Int))
  updateCount : st'.qp.updateCount =
    if order.length = 0 then st.qp.updateCount
    else wrapInt64 (st.qp.updateCount + (order.length : Int))
  sensors : st'.qp.sensors = st.qp.sensors

end QueryPool

/-- A heap with one query: pointer 0 refers to the sample query. -/
def sampleHeap : QueryHeap := fun r => if r = 0 then some sampleQuery else none

/-- A single-key query on key 1 that arrived at 200 for the time 25: the result is the
message with sequence number 2 with a hole after it (nextSequence 4). -/
def lateQuery : Query :=
  { arrivalTime := 200, requestTime := 25, incomplete := 1, probTemporalCorrect := 1 / 2,
    currentResults := [(1, ⟨⟨20, 2, "value: 2"⟩, Status.HOLE, 4, 1 / 2⟩)],
    pool := some sampleSensors }

/-- A heap with two queries: pointer 0 refers to the sample query (keys 1 and 2, arrival time
30), pointer 1 to the late query (key 1, arrival time 200). -/
def twoHeap : QueryHeap := fun r =>
  if r = 0 then some sampleQuery else if r = 1 then some lateQuery else none

/-- The pool that holds the two queries of `twoHeap`. -/
def twoPool : QueryPool :=
  { size := 2, pool := [(1, [(30, 0), (200, 1)]), (2, [(30, 0)])],
    sensors := sampleSensors, updateCount := 0, updateTotalTime := 0 }

/-- The state after `Update` on `twoPool` at clock 131 for key 1 with a message of sequence
number 9 created at 50, deadline 100, ranging over the arrival times 30 and 200 in this
order: the sample query has timed out, the late query only widens its hole. -/
def twoAfter : PoolVisit :=
  match twoPool.Update sampleEnv twoHeap 131 1 ⟨50, 9, "value: 9"⟩ 100 1 (fun _ => 7)
      [30, 200] with
  | Except.ok st => st
  | Except.error _ => ⟨twoPool, twoHeap, [], []⟩

/-! ## Histories of a query pool -/

/-- A call on a query pool: `Add(query)` with the order of the range over the results of
the query, or `Update(clock, key, newMessage, deadline, ck)` with the measured durations and
the order of the range over `pool[key]`. -/
inductive PoolOp where
  | add (query : QueryRef) (order : List Key)
  | update (clock : Nat) (key : Key) (newMessage : Message) (deadline : Nat) (ck : ℚ)
      (elapsed : Nat → Int) (order : List Nat)

/-- A pool in use: the pool, the heap of queries, and the history of the calls made so far,
namely the queries passed to `Add` and the queries returned in completed lists. -/
structure PoolState where
  qp : QueryPool
  heap : QueryHeap
  added : List QueryRef
  retired : List QueryRef

/-- One call on the pool. -/
def PoolState.step (env : Numerics) (s : PoolState) : PoolOp → Except Failure PoolState
  | PoolOp.add query order =>
    match s.qp.Add s.heap query order with
    | Except.error e => Except.error e
    | Except.ok qp => Except.ok { s with qp := qp, added := s.added ++ [query] }
  | PoolOp.update clock key newMessage deadline ck elapsed order =>
    match s.qp.Update env s.heap clock key newMessage deadline ck elapsed order with
    | Except.error e => Except.error e
    | Except.ok st =>
      Except.ok { qp := st.qp, heap := st.heap, added := s.added,
                  retired := s.retired ++ st.completedQueries }

/-- A sequence of calls on the pool; the run stops at the first call that fails. -/
def PoolState.run (env : Numerics) : PoolState → List PoolOp → Except Failure PoolState
  | s, [] => Except.ok s
  | s, op :: ops =>
    match s.step env op with
    | Except.error e => Except.error e
    | Except.ok s' => PoolState.run env s' ops

/-- The query an `Add` call is made with. -/
def PoolOp.addedRef : PoolOp → Option QueryRef
  | PoolOp.add query _ => some query
  | PoolOp.update _ _ _ _ _ _ _ => none

/-- The queries passed to `Add` in a sequence of calls. -/
def addedRefs (ops : List PoolOp) : List QueryRef := ops.filterMap PoolOp.addedRef

/-- What a query keeps for life: its arrival time and the keys it requests. -/
def Query.identity (q : Query) : Nat × List Key := (q.arrivalTime, q.keys)

/-- The pool accounting: with `heap0` the heap before any call, every query keeps its
arrival time and keys; an entry `pool[k][a]` holds a query that was added and not retired,
has arrival time `a` and requests `k`; a query added and not retired has an entry under
each of its keys; the retired queries are distinct and were added; and `size` is the number
of queries added and not retired. -/
structure QueryPool.Accounted (heap0 : QueryHeap) (qp : QueryPool) (heap : QueryHeap)
    (added retired : List QueryRef) : Prop where
  same : ∀ r, (heap r).map Query.identity = (heap0 r).map Query.identity
  sound : ∀ k a ref, qp.entry k a = some ref →
    ref ∈ added ∧ ref ∉ retired ∧
      ∃ q0, heap0 ref = some q0 ∧ q0.arrivalTime = a ∧ k ∈ q0.keys
  complete : ∀ ref ∈ added, ref ∉ retired → ∀ q0, heap0 ref = some q0 →
    ∀ k ∈ q0.keys, qp.entry k q0.arrivalTime = some ref
  retiredNodup : retired.Nodup
  retiredSub : ∀ r ∈ retired, r ∈ added
  size : qp.size = ((added.filter (fun r => decide (r ∉ retired))).length : Int)

/-- A heap with one query that requests no key. -/
def idleHeap : QueryHeap := fun r => if r = 0 then some (NewQuery 30 25 0) else none

/-- The calls of the sample history: both queries of `twoHeap` are added, then key 1
receives at clock 131 a message of sequence number 9 created at 50 (deadline 100). -/
def twoOps : List PoolOp :=
  [PoolOp.add 0 [1, 2], PoolOp.add 1 [1],
   PoolOp.update 131 1 ⟨50, 9, "value: 9"⟩ 100 1 (fun _ => 7) [30, 200]]

/-- The pool after the sample history. -/
def twoFinal : PoolState :=
  match PoolState.run sampleEnv ⟨NewQueryPool, twoHeap, [], []⟩ twoOps with
  | Except.ok s => s
  | Except.error _ => ⟨NewQueryPool, twoHeap, [], []⟩

/-! ## Intervals of results (`dbformat.go`) -/

/-- The struct `ResultWithInterval`; the field `end` of the source is `endTime` here, `end`
being a reserved word. The message pointer may be nil. -/
structure ResultWithInterval where
  message : Option Message
  start : Nat
  endTime : Nat

/-- The method `ResultWithInterval.Start`. -/
def ResultWithInterval.Start (r : ResultWithInterval) : Nat := r.start

/-- The method `ResultWithInterval.End`. -/
def ResultWithInterval.End (r : ResultWithInterval) : Nat := r.endTime

/-- The function `OverlappingInterval`. The named results `lo` and `hi` start at the zero
value of `ValidTime`; `results` lists the entries of the map in the order of the range. -/
def OverlappingInterval (results : List (Key × ResultWithInterval)) : Nat × Nat × Bool :=
  let r := results.foldl (fun (b : Nat × Nat) e =>
    (if e.2.Start > b.1 then e.2.Start else b.1,
     if e.2.End < b.2 then e.2.End else b.2)) (0, 0)
  (r.1, r.2, decide (r.1 ≤ r.2))

/-! ## Samples for the refinement of a result -/

/-- A heap with one query whose pool has no sensor parameters at all: the single-key query
on key 1 (requestTime 25, arrivalTime 30, result (seq 2, HOLE, 4)). -/
def bareHeap : QueryHeap := fun r =>
  if r = 0 then some (parkedQuery ⟨20, 2, "value: 2"⟩ (1 / 2) (1 / 2) (fun _ => [])) else none

/-- Key 1 with the messages (creationTime 10, seq 1), (20, seq 2) and (50, seq 3): at the
requested time 25 the message seq 2 is followed by its immediate successor. -/
def settledMem : Memtable :=
  (NewMemtable 0).PutAll [⟨1, 1, 10, "value: 1"⟩, ⟨1, 2, 20, "value: 2"⟩, ⟨1, 3, 50, "value: 3"⟩]

/-! ## The generator and the parser of instructions (`dataset.go`) -/

/-- The loop of `mergeTwoSortedSlices` with the two appends behind it: `a` and `b` are the
inputs from the indices `i` and `j` on, `result` is the slice built so far. Reading the first
element of an empty row panics. -/
def mergeLoop : List (List Int) → List (List Int) → List (List Int) →
    Except Failure (List (List Int))
  | [], b, result => Except.ok (result ++ b)
  | x :: a, [], result => Except.ok (result ++ (x :: a))
  | x :: a, y :: b, result =>
    match sliceIndex x 0 with
    | Except.error e => Except.error e
    | Except.ok x0 =>
      match sliceIndex y 0 with
      | Except.error e => Except.error e
      | Except.ok y0 =>
        if x0 < y0 then mergeLoop a (y :: b) (result ++ [x])
        else mergeLoop (x :: a) b (result ++ [y])
termination_by a b _ => a.length + b.length

/-- The function `mergeTwoSortedSlices`. -/
def mergeTwoSortedSlices (a b : List (List Int)) : Except Failure (List (List Int)) :=
  mergeLoop a b []

/-- Rows in ascending (non-decreasing) order of their first element. -/
def SortedRows (l : List (List Int)) : Prop :=
  l.Pairwise (fun r s => r.headD 0 ≤ s.headD 0)

/-- The function `mergeKSortedSlices`. `fuel` bounds the depth of the recursion and `none`
says that the recursion has not ended within it: on an empty list the source calls itself
without end. -/
def mergeKSortedSlices : Nat → List (List (List Int)) →
    Option (Except Failure (List (List Int)))
  | 0, _ => none
  | fuel + 1, arr =>
    if arr.length = 1 then
      match arr[0]? with
      | some s => some (Except.ok s)
      | none => some (Except.error Failure.indexOutOfRange)
    else
      match mergeKSortedSlices fuel (arr.take (arr.length / 2)) with
      | none => none
      | some (Except.error e) => some (Except.error e)
      | some (Except.ok left) =>
        match mergeKSortedSlices fuel (arr.drop (arr.length / 2)) with
        | none => none
        | some (Except.error e) => some (Except.error e)
        | some (Except.ok right) => some (mergeTwoSortedSlices left right)

/-- The decimal digits of `n`, most significant first; `fuel` bounds the number of digits. -/
def decimalDigits : Nat → Nat → List Char
  | 0, _ => []
  | fuel + 1, n =>
    if n < 10 then [Nat.digitChar n]
    else decimalDigits fuel (n / 10) ++ [Nat.digitChar (n % 10)]

/-- The library function `strconv.Itoa`: the decimal representation of a Go `int`, with a
leading minus sign for a negative number. -/
def Itoa (v : Int) : String :=
  String.mk (if v < 0 then '-' :: decimalDigits (v.natAbs + 1) v.natAbs
    else decimalDigits (v.natAbs + 1) v.natAbs)

/-- Reading decimal digits from the left, continuing from the number read so far. -/
def parseDigits : List Char → Nat → Option Nat
  | [], acc => some acc
  | c :: cs, acc =>
    if c.isDigit then parseDigits cs (acc * 10 + (c.toNat - '0'.toNat)) else none

/-- The function `Atoi`, a wrapper of the library function `strconv.Atoi` that ends the
program (`log.Fatalln`) when the string is not the decimal representation, with an optional
sign, of a number in the range of a Go `int`. -/
def Atoi (s : String) : Except Failure Int :=
  let parsed : Option Int :=
    match s.data with
    | [] => none
    | c :: ds =>
      if c = '-' then
        if ds = [] then none else Option.map (fun (n : Nat) => -Int.ofNat n) (parseDigits ds 0)
      else if c = '+' then
        if ds = [] then none else Option.map (fun (n : Nat) => Int.ofNat n) (parseDigits ds 0)
      else Option.map (fun (n : Nat) => Int.ofNat n) (parseDigits (c :: ds) 0)
  match parsed with
  | some v => if -(2 ^ 63) ≤ v ∧ v < 2 ^ 63 then Except.ok v else Except.error Failure.fatal
  | none => Except.error Failure.fatal

/-- The function `convertIntArrayToStringArray`. -/
def convertIntArrayToStringArray (arr : List Int) : List String := arr.map Itoa

/-- The library function `slices.Insert(s, i, v)`: the value is put at index `i`; an index
beyond the length panics. -/
def slicesInsert (s : List String) (i : Nat) (v : String) : Except Failure (List String) :=
  if i ≤ s.length then Except.ok (s.take i ++ v :: s.drop i)
  else Except.error Failure.indexOutOfRange

/-- The function `assembleRow`. -/
def assembleRow (arr : List Int) : Except Failure (List String) :=
  match sliceIndex arr 3 with
  | Except.error e => Except.error e
  | Except.ok v =>
    let op : String := if v = 0 then "0" else "1"
    slicesInsert (convertIntArrayToStringArray arr) 1 op

/-- The type `Operation` (Go `uint8`). -/
abbrev Operation := Nat

/-- The constant `Get`. -/
def Operation.Get : Operation := 0

/-- The constant `Put`. -/
def Operation.Put : Operation := 1

/-- The struct `instruction`. -/
structure instruction where
  op : Operation
  key : Key
  validTime : Nat
  sequenceNumber : Nat
  numberOfKeys : Int
  additionalKeys : List Key
deriving DecidableEq, Repr

/-- The conversion of a Go `int` to `uint64`. -/
def uint64OfInt (v : Int) : Nat := (v % (uint64Mod : Int)).toNat

/-- The conversion of a Go `int` to `uint8`. -/
def uint8OfInt (v : Int) : Nat := (v % 256).toNat

/-- The expression `Atoi(row[i])`: an index outside the row panics. -/
def atoiField (row : List String) (i : Nat) : Except Failure Int :=
  match row[i]? with
  | none => Except.error Failure.indexOutOfRange
  | some s => Atoi s

/-- The loop of `parseInstruction` over the additional keys: `count` keys are read from the
fields `j`, `j+1`, ... of the row. -/
def parseKeysFrom (row : List String) : Nat → Nat → Except Failure (List Key)
  | _, 0 => Except.ok []
  | j, count + 1 =>
    match atoiField row j with
    | Except.error e => Except.error e
    | Except.ok v =>
      match parseKeysFrom row (j + 1) count with
      | Except.error e => Except.error e
      | Except.ok ks => Except.ok (uint64OfInt v :: ks)

/-- The function `parseInstruction`; the new value of `*clock` is returned with the
instruction. -/
def parseInstruction (row : List String) : Except Failure (Nat × instruction) :=
  match atoiField row 0 with
  | Except.error e => Except.error e
  | Except.ok c =>
    match atoiField row 1 with
    | Except.error e => Except.error e
    | Except.ok o =>
      match atoiField row 2 with
      | Except.error e => Except.error e
      | Except.ok k =>
        match atoiField row 3 with
        | Except.error e => Except.error e
        | Except.ok t =>
          match atoiField row 4 with
          | Except.error e => Except.error e
          | Except.ok s =>
            let numberOfKeys : Int := (row.length : Int) - 4
            let inst : instruction :=
              { op := uint8OfInt o, key := uint64OfInt k, validTime := uint64OfInt t,
                sequenceNumber := uint64OfInt s, numberOfKeys := numberOfKeys,
                additionalKeys := [] }
            if inst.op = Operation.Get ∧ numberOfKeys > 1 then
              match parseKeysFrom row 5 (numberOfKeys - 1).toNat with
              | Except.error e => Except.error e
              | Except.ok ks => Except.ok (uint64OfInt c, { inst with additionalKeys := ks })
            else
              Except.ok (uint64OfInt c, inst)

instance (l : List (List Int)) : Decidable (SortedRows l) :=
  inferInstanceAs (Decidable (l.Pairwise (fun (r s : List Int) => r.headD 0 ≤ s.headD 0)))

/-- Three streams sorted by arrival time: two data streams and a stream of queries. -/
def sampleStreams : List (List (List Int)) :=
  [[[12, 0, 5, 1], [30, 0, 20, 2]], [[15, 1, 7, 1]], [[20, 3, 10, 0], [40, 2, 25, 0, 3]]]

/-! ## Lookups told from the stored messages, and the fold of `updateKey` -/

/-- The messages of a store created no later than `t`. -/
def VersionStore.upTo (l : List Message) (t : Nat) : List Message :=
  l.filter (fun x => decide (x.creationTime ≤ t))

/-- The messages of a store created after `t`. -/
def VersionStore.after (l : List Message) (t : Nat) : List Message :=
  l.filter (fun x => decide (t < x.creationTime))

/-- The answer to a lookup at time `t` told from the stored messages: the last message
created no later than `t` and the first message created after `t` decide it. -/
def Memtable.answer (l : List Message) (t : Nat) : GetResult :=
  match (VersionStore.upTo l t).getLast?, (VersionStore.after l t).head? with
  | none, none => (Message.empty, Status.NOTFOUND, 0, none)
  | none, some e => (Message.empty, Status.NOTFOUND, e.sequenceNumber, none)
  | some m, none => (m, Status.ODV, 0, none)
  | some m, some x => Memtable.classify m x

/-- The message of the answer: the last message created no later than `t`, or the empty
message. -/
def VersionStore.floorAt (l : List Message) (t : Nat) : Message :=
  ((VersionStore.upTo l t).getLast?).getD Message.empty

/-- The messages of a key folded into its result one after another by `updateKey`; the
run stops at the first call that fails. -/
def Query.foldKey (env : Numerics) (q : Query) (key : Key) :
    Result → List Message → Except Failure Result
  | r, [] => Except.ok r
  | r, n :: ns =>
    match Query.updateKey env q key r n with
    | Except.error e => Except.error e
    | Except.ok (r', _, _, _) => Query.foldKey env q key r' ns

/-- The `Put` call that stores a message under a key. -/
def PutCall.ofMessage (key : Key) (n : Message) : PutCall :=
  { key := key, sequenceNumber := n.sequenceNumber, creationTime := n.creationTime,
    value := n.value }

/-- Two later messages for key 1 of the first scenario: (creationTime 22, seq 3), which
fills the hole behind the message seq 2, and (creationTime 50, seq 5). -/
def laterMessages : List Message := [⟨22, 3, "value: 3"⟩, ⟨50, 5, "value: 5"⟩]

/-! # Theorems -/

/-! ## The ordering key: exact below 2^53 -/

/-- Below 2^53 the conversion to `float64` is exact. -/
theorem float64OfUint64_of_lt (n : Nat) (h : n < float64Bound) : float64OfUint64 n = n := by
  unfold float64Bound at h
  have hs : float64Shift n = 0 := by
    unfold float64Shift
    rw [if_pos h]
  unfold float64OfUint64 roundHalfEven
  rw [hs]
  simp [Nat.mod_one]

theorem roundHalfEven_ge (n e : Nat) : n / 2 ^ e * 2 ^ e ≤ roundHalfEven n e := by
  unfold roundHalfEven
  have h : n / 2 ^ e * 2 ^ e ≤ (n / 2 ^ e + 1) * 2 ^ e :=
    Nat.mul_le_mul_right _ (Nat.le_succ _)
  simp only []
  split_ifs <;> first | exact Nat.le_refl _ | exact h

theorem float64Shift_spec (n : Nat) (h : 2 ^ 53 ≤ n) :
    1 ≤ float64Shift n ∧ 2 ^ 52 * 2 ^ float64Shift n ≤ n := by
  have h53 : ¬ n < 2 ^ 53 := by omega
  by_cases h54 : n < 2 ^ 54
  · have hs : float64Shift n = 1 := by
      unfold float64Shift
      rw [if_neg h53, if_pos h54]
    rw [hs]
    exact ⟨by decide, by omega⟩
  by_cases h55 : n < 2 ^ 55
  · have hs : float64Shift n = 2 := by
      unfold float64Shift
      rw [if_neg h53, if_neg h54, if_pos h55]
    rw [hs]
    exact ⟨by decide, by omega⟩
  by_cases h56 : n < 2 ^ 56
  · have hs : float64Shift n = 3 := by
      unfold float64Shift
      rw [if_neg h53, if_neg h54, if_neg h55, if_pos h56]
    rw [hs]
    exact ⟨by decide, by omega⟩
  by_cases h57 : n < 2 ^ 57
  · have hs : float64Shift n = 4 := by
      unfold float64Shift
      rw [if_neg h53, if_neg h54, if_neg h55, if_neg h56, if_pos h57]
    rw [hs]
    exact ⟨by decide, by omega⟩
  by_cases h58 : n < 2 ^ 58
  · have hs : float64Shift n = 5 := by
      unfold float64Shift
      rw [if_neg h53, if_neg h54, if_neg h55, if_neg h56, if_neg h57, if_pos h58]
    rw [hs]
    exact ⟨by decide, by omega⟩
  by_cases h59 : n < 2 ^ 59
  · have hs : float64Shift n = 6 := by
      unfold float64Shift
      rw [if_neg h53, if_neg h54, if_neg h55, if_neg h56, if_neg h57, if_neg h58, if_pos h59]
    rw [hs]
    exact ⟨by decide, by omega⟩
  by_cases h60 : n < 2 ^ 60
  · have hs : float64Shift n = 7 := by
      unfold float64Shift
      rw [if_neg h53, if_neg h54, if_neg h55, if_neg h56, if_neg h57, if_neg h58, if_neg h59, if_pos h60]
    rw [hs]
    exact ⟨by decide, by omega⟩
  by_cases h61 : n < 2 ^ 61
  · have hs : float64Shift n = 8 := by
      unfold float64Shift
      rw [if_neg h53, if_neg h54, if_neg h55, if_neg h56, if_neg h57, if_neg h58, if_neg h59, if_neg h60, if_pos h61]
    rw [hs]
    exact ⟨by decide, by omega⟩
  by_cases h62 : n < 2 ^ 62
  · have hs : float64Shift n = 9 := by
      unfold float64Shift
      rw [if_neg h53, if_neg h54, if_neg h55, if_neg h56, if_neg h57, if_neg h58, if_neg h59, if_neg h60, if_neg h61, if_pos h62]
    rw [hs]
    exact ⟨by decide, by omega⟩
  by_cases h63 : n < 2 ^ 63
  · have hs : float64Shift n = 10 := by
      unfold float64Shift
      rw [if_neg h53, if_neg h54, if_neg h55, if_neg h56, if_neg h57, if_neg h58, if_neg h59, if_neg h60, if_neg h61, if_neg h62, if_pos h63]
    rw [hs]
    exact ⟨by decide, by omega⟩
  have hs : float64Shift n = 11 := by
    unfold float64Shift
    rw [if_neg h53, if_neg h54, if_neg h55, if_neg h56, if_neg h57, if_neg h58, if_neg h59, if_neg h60, if_neg h61, if_neg h62, if_neg h63]
  rw [hs]
  exact ⟨by decide, by omega⟩

/-- From 2^53 on the conversion to `float64` stays at or above 2^53. -/
theorem float64OfUint64_of_ge (n : Nat) (h : float64Bound ≤ n) :
    float64Bound ≤ float64OfUint64 n := by
  unfold float64Bound at h ⊢
  obtain ⟨h1, h2⟩ := float64Shift_spec n h
  unfold float64OfUint64
  refine Nat.le_trans ?_ (roundHalfEven_ge n (float64Shift n))
  have hq : 2 ^ 52 ≤ n / 2 ^ float64Shift n :=
    (Nat.le_div_iff_mul_le (Nat.pos_pow_of_pos _ (by decide))).mpr h2
  have hp : 2 ^ 1 ≤ 2 ^ float64Shift n := Nat.pow_le_pow_right (by decide) h1
  calc 2 ^ 53 = 2 ^ 52 * 2 ^ 1 := by norm_num
    _ ≤ n / 2 ^ float64Shift n * 2 ^ float64Shift n := Nat.mul_le_mul hq hp

/-- Below 2^53 the key of a message is its creationTime. -/
theorem Message.ExtractKey_of_lt (m : Message) (h : m.creationTime < float64Bound) :
    m.ExtractKey = m.creationTime :=
  float64OfUint64_of_lt _ h

/-- Against a creationTime below 2^53 the key of a time compares as the time itself. -/
theorem float64OfUint64_le_iff (t c : Nat) (hc : c < float64Bound) :
    float64OfUint64 t ≤ c ↔ t ≤ c := by
  by_cases ht : t < float64Bound
  · rw [float64OfUint64_of_lt t ht]
  · have h1 := float64OfUint64_of_ge t (by omega)
    constructor <;> intro h <;> omega

/-- Below 2^53 the minimum taken in `float64` is the minimum of the two numbers. -/
theorem minFloat64_of_lt (a b : Nat) (ha : a < float64Bound) (hb : b < float64Bound) :
    minFloat64 a b = min a b := by
  unfold minFloat64
  rw [float64OfUint64_of_lt a ha, float64OfUint64_of_lt b hb]

/-! ## The version store: insertion keeps the order -/

theorem VersionStore.mem_Insert (l : VersionStore) (m x : Message) :
    x ∈ l.Insert m ↔ x = m ∨ x ∈ l := by
  induction l with
  | nil => simp [VersionStore.Insert]
  | cons y ys ih =>
    unfold VersionStore.Insert
    split
    · simp
    · simp only [List.mem_cons, ih]
      tauto

theorem VersionStore.Insert_perm (l : VersionStore) (m : Message) :
    List.Perm (l.Insert m) (m :: l) := by
  induction l with
  | nil => simp [VersionStore.Insert]
  | cons y ys ih =>
    unfold VersionStore.Insert
    split
    · exact List.Perm.refl _
    · exact (List.Perm.cons y ih).trans (List.Perm.swap m y ys)

theorem VersionStore.Insert_ne_nil (l : VersionStore) (m : Message) : l.Insert m ≠ [] := by
  cases l with
  | nil => simp [VersionStore.Insert]
  | cons y ys =>
    unfold VersionStore.Insert
    split <;> simp

theorem VersionStore.Insert_bounded (l : VersionStore) (m : Message) (hb : l.Bounded)
    (hm : m.creationTime < float64Bound) : (l.Insert m).Bounded := by
  intro x hx
  rcases (VersionStore.mem_Insert l m x).mp hx with rfl | hx
  · exact hm
  · exact hb x hx

/-- With creation times below 2^53 insertion keeps the ascending creationTime order. -/
theorem VersionStore.Insert_ordered (l : VersionStore) (m : Message) (h : l.Ordered)
    (hb : l.Bounded) (hm : m.creationTime < float64Bound) : (l.Insert m).Ordered := by
  induction l with
  | nil => simp [VersionStore.Insert, VersionStore.Ordered]
  | cons y ys ih =>
    have hy : y.creationTime < float64Bound := hb y (List.mem_cons_self _ _)
    have hbs : VersionStore.Bounded ys := fun x hx => hb x (List.mem_cons_of_mem _ hx)
    unfold VersionStore.Ordered at h ih ⊢
    rw [List.pairwise_cons] at h
    unfold VersionStore.Insert
    rw [Message.ExtractKey_of_lt m hm, Message.ExtractKey_of_lt y hy]
    split
    · rename_i hlt
      rw [List.pairwise_cons, List.pairwise_cons]
      refine ⟨?_, h⟩
      intro a ha
      rcases List.mem_cons.mp ha with rfl | ha
      · omega
      · have := h.1 a ha
        omega
    · rename_i hlt
      rw [List.pairwise_cons]
      refine ⟨?_, ih h.2 hbs⟩
      intro a ha
      rcases (VersionStore.mem_Insert ys m a).mp ha with rfl | ha
      · omega
      · exact h.1 a ha

theorem VersionStore.getElem?_split (lo : List Message) (e : Message) (hi : List Message) :
    (lo ++ e :: hi)[lo.length]? = some e := by
  induction lo with
  | nil => simp
  | cons y ys ih => simpa using ih

theorem VersionStore.getElem?_split_next (lo : List Message) (e n : Message)
    (hi : List Message) : (lo ++ e :: n :: hi)[lo.length + 1]? = some n := by
  induction lo with
  | nil => simp
  | cons y ys ih => simpa using ih

theorem VersionStore.getElem?_split_prev (lo : List Message) (p e : Message)
    (hi : List Message) : ((lo ++ [p]) ++ e :: hi)[lo.length]? = some p := by
  induction lo with
  | nil => simp
  | cons y ys ih => simpa using ih

theorem VersionStore.findFrom_split (lo : VersionStore) (e : Message) (hi : VersionStore)
    (t : Nat) (i : Nat) (hb : VersionStore.Bounded (lo ++ e :: hi))
    (hlo : ∀ x ∈ lo, x.creationTime < t) (he : t ≤ e.creationTime) :
    VersionStore.findFrom (lo ++ e :: hi) (float64OfUint64 t) i = some (i + lo.length) := by
  induction lo generalizing i with
  | nil =>
    have hbe : e.creationTime < float64Bound := hb e (by simp)
    have hk : float64OfUint64 t ≤ e.ExtractKey := by
      rw [Message.ExtractKey_of_lt e hbe]
      exact (float64OfUint64_le_iff t _ hbe).mpr he
    simp [VersionStore.findFrom, hk]
  | cons y ys ih =>
    have hby : y.creationTime < float64Bound := hb y (by simp)
    have hy : ¬ float64OfUint64 t ≤ y.ExtractKey := by
      rw [Message.ExtractKey_of_lt y hby, float64OfUint64_le_iff t _ hby]
      have := hlo y (List.mem_cons_self _ _)
      omega
    have h := ih (i + 1) (fun x hx => hb x (List.mem_cons_of_mem _ hx))
      (fun x hx => hlo x (List.mem_cons_of_mem _ hx))
    show VersionStore.findFrom (y :: (ys ++ e :: hi)) (float64OfUint64 t) i = _
    simp only [VersionStore.findFrom, hy, if_false, h, List.length_cons]
    congr 1
    omega

theorem VersionStore.findFrom_none (l : VersionStore) (t : Nat) (i : Nat)
    (hb : VersionStore.Bounded l)
    (hl : ∀ x ∈ l, x.creationTime < t) :
    VersionStore.findFrom l (float64OfUint64 t) i = none := by
  induction l generalizing i with
  | nil => rfl
  | cons y ys ih =>
    have hby : y.creationTime < float64Bound := hb y (by simp)
    have hy : ¬ float64OfUint64 t ≤ y.ExtractKey := by
      rw [Message.ExtractKey_of_lt y hby, float64OfUint64_le_iff t _ hby]
      have := hl y (List.mem_cons_self _ _)
      omega
    simp only [VersionStore.findFrom, hy, if_false]
    exact ih (i + 1) (fun x hx => hb x (List.mem_cons_of_mem _ hx))
      (fun x hx => hl x (List.mem_cons_of_mem _ hx))

/-- Every store either lies wholly below `t` or splits at its first message not below `t`. -/
theorem VersionStore.split_at (l : VersionStore) (t : Nat) :
    (∀ x ∈ l, x.creationTime < t) ∨
    ∃ lo e hi, l = lo ++ e :: hi ∧ (∀ x ∈ lo, x.creationTime < t) ∧ t ≤ e.creationTime := by
  induction l with
  | nil => left; simp
  | cons y ys ih =>
    by_cases hy : t ≤ y.creationTime
    · right
      exact ⟨[], y, ys, rfl, by simp, hy⟩
    · rcases ih with h | ⟨lo, e, hi, rfl, hlo, he⟩
      · left
        intro x hx
        rcases List.mem_cons.mp hx with rfl | hx
        · omega
        · exact h x hx
      · right
        refine ⟨y :: lo, e, hi, rfl, ?_, he⟩
        intro x hx
        rcases List.mem_cons.mp hx with rfl | hx
        · omega
        · exact hlo x hx

/-! ## `Get` on a store split at the requested time -/

theorem Memtable.Get_split (mem : Memtable) (key : Key) (time : Nat)
    (lo : List Message) (e : Message) (hi : List Message)
    (hd : mem.data key = some (lo ++ e :: hi))
    (hb : VersionStore.Bounded (lo ++ e :: hi))
    (hlo : ∀ x ∈ lo, x.creationTime < time) (he : time ≤ e.creationTime) :
    mem.Get key time = some (Memtable.getAt lo e hi time) := by
  have hfind : VersionStore.FindGreaterOrEqual (lo ++ e :: hi)
      { creationTime := time, sequenceNumber := 0, value := "" } = some lo.length := by
    unfold VersionStore.FindGreaterOrEqual
    show VersionStore.findFrom (lo ++ e :: hi) (float64OfUint64 time) 0 = some lo.length
    rw [VersionStore.findFrom_split lo e hi time 0 hb hlo he]
    simp
  have hval : VersionStore.GetValue (lo ++ e :: hi) lo.length = some e :=
    VersionStore.getElem?_split lo e hi
  unfold Memtable.Get Memtable.getFrom
  simp only [hd, hfind, hval]
  unfold Memtable.getAt
  by_cases ht : time = e.creationTime
  · simp only [ht, if_true]
    cases hi with
    | nil => simp [VersionStore.GetLargestNode]
    | cons n ns =>
      have h1 : ¬ (some lo.length = VersionStore.GetLargestNode (lo ++ e :: n :: ns)) := by
        simp [VersionStore.GetLargestNode]
      have h2 : VersionStore.GetValue (lo ++ e :: n :: ns)
          (VersionStore.Next (lo ++ e :: n :: ns) lo.length) = some n :=
        VersionStore.getElem?_split_next lo e n ns
      simp only [h1, if_false, h2]
  · simp only [ht, if_false]
    rcases List.eq_nil_or_concat lo with rfl | ⟨lo', p, hlop⟩
    · simp [VersionStore.GetSmallestNode]
    · rw [List.concat_eq_append] at hlop
      subst hlop
      have h1 : ¬ (some (lo' ++ [p]).length =
          VersionStore.GetSmallestNode ((lo' ++ [p]) ++ e :: hi)) := by
        simp [VersionStore.GetSmallestNode]
      have h2 : VersionStore.Prev ((lo' ++ [p]) ++ e :: hi) (lo' ++ [p]).length
          = some lo'.length := by
        simp [VersionStore.Prev]
      have h3 : VersionStore.GetValue ((lo' ++ [p]) ++ e :: hi) lo'.length = some p :=
        VersionStore.getElem?_split_prev lo' p e hi
      simp only [h1, if_false, h2, h3]
      simp

theorem Memtable.Get_above (mem : Memtable) (key : Key) (time : Nat)
    (l : List Message) (hne : l ≠ []) (hd : mem.data key = some l)
    (hb : VersionStore.Bounded l)
    (hl : ∀ x ∈ l, x.creationTime < time) :
    mem.Get key time = some (l.getLast hne, Status.ODV, 0, none) := by
  have hfind : VersionStore.FindGreaterOrEqual l
      { creationTime := time, sequenceNumber := 0, value := "" } = none :=
    VersionStore.findFrom_none l time 0 hb hl
  have hlen : l.length ≠ 0 := by
    intro h
    exact hne (List.length_eq_zero.mp h)
  have hval : VersionStore.GetValue l (l.length - 1) = some (l.getLast hne) := by
    unfold VersionStore.GetValue
    rw [List.getLast_eq_getElem]
    exact List.getElem?_eq_getElem _
  unfold Memtable.Get
  simp only [hd, hfind, VersionStore.GetLargestNode, hlen, if_false, hval]

/-- The five ways `Get` answers on a non-empty store. -/
theorem Memtable.Get_cases (mem : Memtable) (key : Key) (time : Nat) (l : List Message)
    (hne : l ≠ []) (hd : mem.data key = some l) (hb : VersionStore.Bounded l) :
    ((∀ x ∈ l, x.creationTime < time) ∧
        mem.Get key time = some (l.getLast hne, Status.ODV, 0, none)) ∨
    (∃ lo e, l = lo ++ [e] ∧ (∀ x ∈ lo, x.creationTime < time) ∧ e.creationTime = time ∧
        mem.Get key time = some (e, Status.ODV, 0, none)) ∨
    (∃ lo e n hi, l = lo ++ e :: n :: hi ∧ (∀ x ∈ lo, x.creationTime < time) ∧
        e.creationTime = time ∧ mem.Get key time = some (Memtable.classify e n)) ∨
    (∃ e hi, l = e :: hi ∧ time < e.creationTime ∧
        mem.Get key time = some (Message.empty, Status.NOTFOUND, e.sequenceNumber, none)) ∨
    (∃ lo p e hi, l = lo ++ p :: e :: hi ∧ (∀ x ∈ lo, x.creationTime < time) ∧
        p.creationTime < time ∧ time < e.creationTime ∧
        mem.Get key time = some (Memtable.classify p e)) := by
  rcases VersionStore.split_at l time with h | ⟨lo, e, hi, rfl, hlo, he⟩
  · exact Or.inl ⟨h, Memtable.Get_above mem key time l hne hd hb h⟩
  · have hg := Memtable.Get_split mem key time lo e hi hd hb hlo he
    unfold Memtable.getAt at hg
    by_cases ht : time = e.creationTime
    · rw [if_pos ht] at hg
      cases hi with
      | nil => exact Or.inr (Or.inl ⟨lo, e, rfl, hlo, ht.symm, hg⟩)
      | cons n ns =>
        exact Or.inr (Or.inr (Or.inl ⟨lo, e, n, ns, rfl, hlo, ht.symm, hg⟩))
    · simp only [ht, if_false] at hg
      have hlt : time < e.creationTime := by omega
      rcases List.eq_nil_or_concat lo with rfl | ⟨lo', p, hlop⟩
      · exact Or.inr (Or.inr (Or.inr (Or.inl ⟨e, hi, rfl, hlt, by simpa using hg⟩)))
      · rw [List.concat_eq_append] at hlop
        subst hlop
        refine Or.inr (Or.inr (Or.inr (Or.inr ⟨lo', p, e, hi, by simp, ?_, ?_, hlt, ?_⟩)))
        · intro x hx
          exact hlo x (by simp [hx])
        · exact hlo p (by simp)
        · simpa using hg

/-! ## Memtables built by `Put` -/

theorem Memtable.NewMemtable_WF (c : Nat) (k : Key) : (NewMemtable c).WF k := by
  intro l h
  simp [NewMemtable] at h

theorem Memtable.Put_data (mem : Memtable) (key : Key) (s c : Nat) (v : String) (k : Key) :
    (mem.Put key s c v).1.data k =
      if k = key then some (VersionStore.Insert (mem.stored key) ⟨c, s, v⟩) else mem.data k := by
  unfold Memtable.Put Memtable.stored
  by_cases hk : k = key
  · simp only [hk, if_true]
  · simp only [hk, if_false]

/-- A `Put` with a creationTime below 2^53 keeps the store of the key well formed. -/
theorem Memtable.Put_WF (mem : Memtable) (key : Key) (s c : Nat) (v : String) (k : Key)
    (h : mem.WF k) (hc : key = k → c < float64Bound) : (mem.Put key s c v).1.WF k := by
  intro l hl
  rw [Memtable.Put_data] at hl
  by_cases hk : k = key
  · simp only [hk, if_true, Option.some.injEq] at hl
    subst hl
    subst hk
    have hst : VersionStore.Ordered (mem.stored k) ∧ VersionStore.Bounded (mem.stored k) := by
      unfold Memtable.stored
      cases hd : mem.data k with
      | none => exact ⟨by simp [VersionStore.Ordered], by simp [VersionStore.Bounded]⟩
      | some l0 => exact (h l0 hd).2
    exact ⟨VersionStore.Insert_ne_nil _ _,
      VersionStore.Insert_ordered _ _ hst.1 hst.2 (hc rfl),
      VersionStore.Insert_bounded _ _ hst.2 (hc rfl)⟩
  · simp only [hk, if_false] at hl
    exact h l hl

theorem Memtable.PutAll_WF (mem : Memtable) (calls : List PutCall) (k : Key) (h : mem.WF k)
    (hc : ∀ c ∈ calls, c.key = k → c.creationTime < float64Bound) :
    (mem.PutAll calls).WF k := by
  induction calls generalizing mem with
  | nil => exact h
  | cons c cs ih =>
    exact ih _ (Memtable.Put_WF mem c.key c.sequenceNumber c.creationTime c.value k h
      (hc c (List.mem_cons_self _ _))) (fun c' hc' => hc c' (List.mem_cons_of_mem _ hc'))

theorem Memtable.stored_Put (mem : Memtable) (key : Key) (s c : Nat) (v : String) (k : Key) :
    (mem.Put key s c v).1.stored k =
      if k = key then VersionStore.Insert (mem.stored key) ⟨c, s, v⟩ else mem.stored k := by
  have h := Memtable.Put_data mem key s c v k
  by_cases hk : k = key
  · simp only [hk, if_true] at h ⊢
    simp only [Memtable.stored, h]
  · simp only [hk, if_false] at h ⊢
    simp only [Memtable.stored, h]

/-- The messages stored for a key are exactly the messages Put for it. -/
theorem Memtable.stored_PutAll (mem : Memtable) (calls : List PutCall) (k : Key) :
    List.Perm ((mem.PutAll calls).stored k)
      (((calls.filter (fun c => c.key = k)).map PutCall.message).reverse ++ mem.stored k) := by
  induction calls generalizing mem with
  | nil => simp [Memtable.PutAll]
  | cons c cs ih =>
    have h := ih (mem.Put c.key c.sequenceNumber c.creationTime c.value).1
    refine List.Perm.trans h ?_
    rw [Memtable.stored_Put]
    by_cases hk : c.key = k
    · have hk' : k = c.key := hk.symm
      simp only [hk', if_true, List.filter_cons, decide_True, List.map_cons,
        List.reverse_cons, List.append_assoc, List.singleton_append]
      refine List.Perm.append_left _ ?_
      exact VersionStore.Insert_perm _ _
    · have hk' : ¬ k = c.key := fun h => hk h.symm
      simp [hk', hk]

/-- In a well-formed memtable a key without stored messages has no version store. -/
theorem Memtable.data_of_stored (mem : Memtable) (k : Key) (h : mem.WF k) :
    (mem.data k = none ∧ mem.stored k = []) ∨
    (∃ l, mem.data k = some l ∧ mem.stored k = l ∧ l ≠ [] ∧ VersionStore.Ordered l ∧
      VersionStore.Bounded l) := by
  unfold Memtable.stored
  cases hd : mem.data k with
  | none => exact Or.inl ⟨rfl, rfl⟩
  | some l => exact Or.inr ⟨l, rfl, rfl, h l hd⟩

/-- A memtable built by `Put` calls is well formed at every key whose stored creation times
are below 2^53. -/
theorem Memtable.Reachable_WF (mem : Memtable) (h : mem.Reachable) (k : Key)
    (hb : VersionStore.Bounded (mem.stored k)) : mem.WF k := by
  obtain ⟨c, calls, rfl⟩ := h
  refine Memtable.PutAll_WF _ calls k (Memtable.NewMemtable_WF c k) ?_
  intro c' hc' hk
  have hperm := Memtable.stored_PutAll (NewMemtable c) calls k
  apply hb c'.message
  rw [hperm.mem_iff]
  simp only [List.mem_append, List.mem_reverse, List.mem_map, List.mem_filter,
    decide_eq_true_eq]
  exact Or.inl ⟨c', ⟨hc', hk⟩, rfl⟩

/-- The three outcomes of the sequence-number comparison that ends `Get`. -/
theorem Memtable.classify_cases (a b : Message) :
    (b.sequenceNumber = (a.sequenceNumber + 1) % uint64Mod ∧
        Memtable.classify a b = (a, Status.OK, b.sequenceNumber, none)) ∨
    ((a.sequenceNumber + 1) % uint64Mod < b.sequenceNumber ∧
        Memtable.classify a b = (a, Status.HOLE, b.sequenceNumber, none)) ∨
    (b.sequenceNumber < (a.sequenceNumber + 1) % uint64Mod ∧
        Memtable.classify a b = (Message.empty, Status.ERROR, b.sequenceNumber,
          some { curr := a.sequenceNumber, next := b.sequenceNumber })) := by
  unfold Memtable.classify
  by_cases h1 : b.sequenceNumber = (a.sequenceNumber + 1) % uint64Mod
  · left
    exact ⟨h1, by simp only [← h1, if_true]⟩
  · by_cases h2 : b.sequenceNumber > (a.sequenceNumber + 1) % uint64Mod
    · right; left
      exact ⟨h2, by simp only [h1, h2, if_false, if_true]⟩
    · right; right
      refine ⟨by omega, by simp only [h1, h2, if_false]⟩

/-- With the successor's sequence number larger, the comparison never ends in ERROR. -/
theorem Memtable.classify_of_lt (a b : Message) (h : a.sequenceNumber < b.sequenceNumber) :
    Memtable.classify a b = (a, Status.OK, b.sequenceNumber, none) ∨
    Memtable.classify a b = (a, Status.HOLE, b.sequenceNumber, none) := by
  have hle : (a.sequenceNumber + 1) % uint64Mod ≤ a.sequenceNumber + 1 := Nat.mod_le _ _
  rcases Memtable.classify_cases a b with ⟨_, h1⟩ | ⟨_, h1⟩ | ⟨h0, _⟩
  · exact Or.inl h1
  · exact Or.inr h1
  · omega

theorem VersionStore.le_getLast (l : List Message) (hne : l ≠ []) (h : VersionStore.Ordered l)
    (x : Message) (hx : x ∈ l) : x.creationTime ≤ (l.getLast hne).creationTime := by
  induction l with
  | nil => exact absurd rfl hne
  | cons y ys ih =>
    unfold VersionStore.Ordered at h ih
    rw [List.pairwise_cons] at h
    cases ys with
    | nil =>
      simp only [List.mem_singleton] at hx
      subst hx
      simp
    | cons z zs =>
      rw [List.getLast_cons (by simp)]
      rcases List.mem_cons.mp hx with rfl | hx
      · exact h.1 _ (List.getLast_mem _)
      · exact ih (by simp) h.2 hx

/-- Floor lookup: under distinct creation times and monotone agreement `Get` answers
NOTFOUND exactly when nothing is stored at or before `t`, and otherwise OK, ODV or HOLE with
the stored message of largest creationTime ≤ t; the error is nil. -/
theorem Memtable.Get_floor (mem : Memtable) (k : Key) (t : Nat) (hr : mem.Reachable)
    (hb : VersionStore.Bounded (mem.stored k))
    (hct : DistinctCreationTimes (mem.stored k)) (hmono : MonotoneAgreement (mem.stored k)) :
    ∃ m st s, mem.Get k t = some (m, st, s, none) ∧
      (st = Status.NOTFOUND ↔ ∀ x ∈ mem.stored k, t < x.creationTime) ∧
      (st ≠ Status.NOTFOUND →
        (st = Status.OK ∨ st = Status.ODV ∨ st = Status.HOLE) ∧
        m ∈ mem.stored k ∧ m.creationTime ≤ t ∧
        ∀ x ∈ mem.stored k, x.creationTime ≤ t → x.creationTime ≤ m.creationTime) := by
  rcases Memtable.data_of_stored mem k (Memtable.Reachable_WF mem hr k hb) with
    ⟨hd, hs⟩ | ⟨l, hd, hs, hne, hord, hbl⟩
  · refine ⟨Message.empty, Status.NOTFOUND, 0, ?_, ?_, ?_⟩
    · simp [Memtable.Get, hd]
    · simp [hs]
    · intro h; exact absurd rfl h
  · rw [hs] at hct hmono ⊢
    rcases Memtable.Get_cases mem k t l hne hd hbl with
      ⟨hall, hg⟩ | ⟨lo, e, rfl, hlo, he, hg⟩ | ⟨lo, e, n, hi, rfl, hlo, he, hg⟩ |
      ⟨e, hi, rfl, he, hg⟩ | ⟨lo, p, e, hi, rfl, hlo, hp, he, hg⟩
    · refine ⟨_, Status.ODV, 0, hg, ?_, ?_⟩
      · constructor
        · intro h; cases h
        · intro h
          have h1 := h _ (List.getLast_mem hne)
          have h2 := hall _ (List.getLast_mem hne)
          omega
      · intro _
        refine ⟨Or.inr (Or.inl rfl), List.getLast_mem hne, ?_, ?_⟩
        · exact Nat.le_of_lt (hall _ (List.getLast_mem hne))
        · intro x hx _
          exact VersionStore.le_getLast l hne hord x hx
    · refine ⟨e, Status.ODV, 0, hg, ?_, ?_⟩
      · constructor
        · intro h; cases h
        · intro h
          have h1 := h e (by simp)
          omega
      · intro _
        refine ⟨Or.inr (Or.inl rfl), by simp, by omega, ?_⟩
        intro x _ hxt
        omega
    · have hn : e.creationTime < n.creationTime := by
        unfold VersionStore.Ordered at hord
        unfold DistinctCreationTimes at hct
        rw [List.pairwise_append, List.pairwise_cons] at hord hct
        have h1 := hord.2.1.1 n (by simp)
        have h2 := hct.2.1.1 n (by simp)
        omega
      have hseq := hmono e (by simp) n (by simp) hn
      have hfloor : (∀ x ∈ lo ++ e :: n :: hi, x.creationTime ≤ t →
          x.creationTime ≤ e.creationTime) := by
        intro x _ hxt
        omega
      have hnf : ¬ ∀ x ∈ lo ++ e :: n :: hi, t < x.creationTime := by
        intro h
        have h1 := h e (by simp)
        omega
      rcases Memtable.classify_of_lt e n hseq with hc | hc
      · rw [hc] at hg
        refine ⟨e, Status.OK, _, hg, ?_, ?_⟩
        · exact ⟨fun h => (by cases h), fun h => absurd h hnf⟩
        · intro _
          exact ⟨Or.inl rfl, by simp, by omega, hfloor⟩
      · rw [hc] at hg
        refine ⟨e, Status.HOLE, _, hg, ?_, ?_⟩
        · exact ⟨fun h => (by cases h), fun h => absurd h hnf⟩
        · intro _
          exact ⟨Or.inr (Or.inr rfl), by simp, by omega, hfloor⟩
    · refine ⟨Message.empty, Status.NOTFOUND, e.sequenceNumber, hg, ?_, ?_⟩
      · constructor
        · intro _ x hx
          unfold VersionStore.Ordered at hord
          rw [List.pairwise_cons] at hord
          rcases List.mem_cons.mp hx with rfl | hx
          · exact he
          · have := hord.1 x hx
            omega
        · intro _; rfl
      · intro h; exact absurd rfl h
    · have hpe : p.creationTime < e.creationTime := by omega
      have hseq := hmono p (by simp) e (by simp) hpe
      have hfloor : (∀ x ∈ lo ++ p :: e :: hi, x.creationTime ≤ t →
          x.creationTime ≤ p.creationTime) := by
        intro x hx hxt
        unfold VersionStore.Ordered at hord
        rw [List.pairwise_append, List.pairwise_cons, List.pairwise_cons] at hord
        rcases List.mem_append.mp hx with hx | hx
        · exact hord.2.2 x hx p (by simp)
        · rcases List.mem_cons.mp hx with rfl | hx
          · exact Nat.le_refl _
          · rcases List.mem_cons.mp hx with rfl | hx
            · omega
            · have := hord.2.1.2.1 x hx
              omega
      have hnf : ¬ ∀ x ∈ lo ++ p :: e :: hi, t < x.creationTime := by
        intro h
        have h1 := h p (by simp)
        omega
      rcases Memtable.classify_of_lt p e hseq with hc | hc
      · rw [hc] at hg
        refine ⟨p, Status.OK, _, hg, ?_, ?_⟩
        · exact ⟨fun h => (by cases h), fun h => absurd h hnf⟩
        · intro _
          exact ⟨Or.inl rfl, by simp, by omega, hfloor⟩
      · rw [hc] at hg
        refine ⟨p, Status.HOLE, _, hg, ?_, ?_⟩
        · exact ⟨fun h => (by cases h), fun h => absurd h hnf⟩
        · intro _
          exact ⟨Or.inr (Or.inr rfl), by simp, by omega, hfloor⟩

/-- The comparison that ends `Get` answers OK, HOLE or ERROR only. -/
theorem Memtable.classify_status (a b m : Message) (st : Status) (s : Nat)
    (err : Option SequenceOutOfOrder) (h : Memtable.classify a b = (m, st, s, err)) :
    (st = Status.OK ∨ st = Status.HOLE ∨ st = Status.ERROR) ∧ s = b.sequenceNumber ∧
    (st ≠ Status.ERROR → m = a ∧ err = none) := by
  rcases Memtable.classify_cases a b with ⟨_, h1⟩ | ⟨_, h1⟩ | ⟨_, h1⟩ <;>
    · rw [h1] at h
      simp only [Prod.mk.injEq] at h
      obtain ⟨hm, hst, hs, he⟩ := h
      subst hm hst hs he
      simp

/-- When `Get` answers OK or HOLE, the returned message and the message whose sequence
number is returned are stored neighbours around `t`. -/
theorem Memtable.Get_successor (mem : Memtable) (k : Key) (t : Nat) (hr : mem.Reachable)
    (hb : VersionStore.Bounded (mem.stored k))
    (hct : DistinctCreationTimes (mem.stored k)) (m : Message) (st : Status) (s : Nat)
    (err : Option SequenceOutOfOrder) (hg : mem.Get k t = some (m, st, s, err))
    (hst : st = Status.OK ∨ st = Status.HOLE) :
    ∃ n ∈ mem.stored k, m ∈ mem.stored k ∧ m.creationTime ≤ t ∧ t < n.creationTime ∧
      Memtable.classify m n = (m, st, s, err) := by
  have hne : st ≠ Status.ERROR := by rcases hst with h | h <;> simp [h]
  rcases Memtable.data_of_stored mem k (Memtable.Reachable_WF mem hr k hb) with
    ⟨hd, _⟩ | ⟨l, hd, hs, hnil, hord, hbl⟩
  · simp only [Memtable.Get, hd, Option.some.injEq, Prod.mk.injEq] at hg
    rcases hst with h | h <;> simp [h] at hg
  · rw [hs] at hct ⊢
    rcases Memtable.Get_cases mem k t l hnil hd hbl with
      ⟨_, hg'⟩ | ⟨lo, e, rfl, _, _, hg'⟩ | ⟨lo, e, n, hi, rfl, hlo, he, hg'⟩ |
      ⟨e, hi, rfl, _, hg'⟩ | ⟨lo, p, e, hi, rfl, hlo, hp, he, hg'⟩
    · rw [hg'] at hg
      simp only [Option.some.injEq, Prod.mk.injEq] at hg
      rcases hst with h | h <;> simp [h] at hg
    · rw [hg'] at hg
      simp only [Option.some.injEq, Prod.mk.injEq] at hg
      rcases hst with h | h <;> simp [h] at hg
    · rw [hg'] at hg
      have hc : Memtable.classify e n = (m, st, s, err) := Option.some.inj hg
      have hm := ((Memtable.classify_status e n m st s err hc).2.2 hne).1
      subst hm
      have hn : m.creationTime < n.creationTime := by
        unfold VersionStore.Ordered at hord
        unfold DistinctCreationTimes at hct
        rw [List.pairwise_append, List.pairwise_cons] at hord hct
        have h1 := hord.2.1.1 n (by simp)
        have h2 := hct.2.1.1 n (by simp)
        omega
      exact ⟨n, by simp, by simp, by omega, by omega, hc⟩
    · rw [hg'] at hg
      simp only [Option.some.injEq, Prod.mk.injEq] at hg
      rcases hst with h | h <;> simp [h] at hg
    · rw [hg'] at hg
      have hc : Memtable.classify p e = (m, st, s, err) := Option.some.inj hg
      have hm := ((Memtable.classify_status p e m st s err hc).2.2 hne).1
      subst hm
      exact ⟨e, by simp, by simp, by omega, he, hc⟩

/-- With pairwise distinct sequence numbers a stored message is determined by its sequence
number. -/
theorem DistinctSequenceNumbers.eq_of_seq (l : List Message) (h : DistinctSequenceNumbers l)
    (x y : Message) (hx : x ∈ l) (hy : y ∈ l) (hxy : x.sequenceNumber = y.sequenceNumber) :
    x = y := by
  by_contra hne
  have hsym : Symmetric (fun (a b : Message) => a.sequenceNumber ≠ b.sequenceNumber) :=
    fun a b hab => fun h' => hab h'.symm
  exact List.Pairwise.forall hsym h hx hy hne hxy

/-- When `Get` answers ODV, nextSequence is 0 and the returned message is the stored message
of largest creationTime, which is not after `t`. -/
theorem Memtable.Get_odv (mem : Memtable) (k : Key) (t : Nat) (hr : mem.Reachable)
    (hb : VersionStore.Bounded (mem.stored k))
    (m : Message) (s : Nat) (hg : mem.Get k t = some (m, Status.ODV, s, none)) :
    s = 0 ∧ m ∈ mem.stored k ∧ (∀ x ∈ mem.stored k, x.creationTime ≤ m.creationTime) ∧
    m.creationTime ≤ t := by
  rcases Memtable.data_of_stored mem k (Memtable.Reachable_WF mem hr k hb) with
    ⟨hd, _⟩ | ⟨l, hd, hs, hnil, hord, hbl⟩
  · simp [Memtable.Get, hd] at hg
  · rw [hs]
    rcases Memtable.Get_cases mem k t l hnil hd hbl with
      ⟨hall, hg'⟩ | ⟨lo, e, rfl, hlo, he, hg'⟩ | ⟨lo, e, n, hi, rfl, _, _, hg'⟩ |
      ⟨e, hi, rfl, _, hg'⟩ | ⟨lo, p, e, hi, rfl, _, _, _, hg'⟩
    · rw [hg'] at hg
      simp only [Option.some.injEq, Prod.mk.injEq] at hg
      obtain ⟨hm, _, hs0, _⟩ := hg
      subst hm
      refine ⟨hs0.symm, List.getLast_mem hnil, ?_, Nat.le_of_lt (hall _ (List.getLast_mem hnil))⟩
      intro x hx
      exact VersionStore.le_getLast l hnil hord x hx
    · rw [hg'] at hg
      simp only [Option.some.injEq, Prod.mk.injEq] at hg
      obtain ⟨hm, _, hs0, _⟩ := hg
      subst hm
      refine ⟨hs0.symm, by simp, ?_, by omega⟩
      intro x hx
      rcases List.mem_append.mp hx with hx | hx
      · have := hlo x hx
        omega
      · simp only [List.mem_singleton] at hx
        subst hx
        exact Nat.le_refl _
    · rw [hg'] at hg
      have h := (Memtable.classify_status e n m _ s none (Option.some.inj hg)).1
      simp at h
    · rw [hg'] at hg
      simp at hg
    · rw [hg'] at hg
      have h := (Memtable.classify_status p e m _ s none (Option.some.inj hg)).1
      simp at h


/-- With pairwise distinct creation times a stored message is determined by its
creationTime. -/
theorem DistinctCreationTimes.eq_of_ct (l : List Message) (h : DistinctCreationTimes l)
    (x y : Message) (hx : x ∈ l) (hy : y ∈ l) (hxy : x.creationTime = y.creationTime) :
    x = y := by
  by_contra hne
  have hsym : Symmetric (fun (a b : Message) => a.creationTime ≠ b.creationTime) :=
    fun a b hab => fun h' => hab h'.symm
  exact List.Pairwise.forall hsym h hx hy hne hxy

theorem DB.PutAll_mem (db : DB) (calls : List PutCall) :
    (db.PutAll calls).mem = db.mem.PutAll calls := by
  induction calls generalizing db with
  | nil => rfl
  | cons c cs ih =>
    exact ih (db.Put c.key c.sequenceNumber c.creationTime c.value).1

/-! ## `Memtable.Get` on creation times below 2^53 -/

/-- Below 2^53, under pairwise distinct creation times and sequence numbers: if `Get(k, t)`
returns (m, OK, s, nil) then m.creationTime ≤ t, s is m.sequenceNumber + 1 computed in
`uint64`, and the stored message with sequence number s has creationTime > t. -/
theorem Memtable.Get_ok_sound (mem : Memtable) (k : Key) (t : Nat) (hr : mem.Reachable)
    (hb : VersionStore.Bounded (mem.stored k))
    (hct : DistinctCreationTimes (mem.stored k))
    (hseq : DistinctSequenceNumbers (mem.stored k))
    (m : Message) (s : Nat) (hg : mem.Get k t = some (m, Status.OK, s, none)) :
    m.creationTime ≤ t ∧ s = (m.sequenceNumber + 1) % uint64Mod ∧
    (m.sequenceNumber + 1 < uint64Mod → s = m.sequenceNumber + 1) ∧
    (∃ x ∈ mem.stored k, x.sequenceNumber = s) ∧
    (∀ x ∈ mem.stored k, x.sequenceNumber = s → t < x.creationTime) := by
  obtain ⟨n, hn, _, hmt, hnt, hc⟩ :=
    Memtable.Get_successor mem k t hr hb hct m Status.OK s none hg (Or.inl rfl)
  have hs : s = n.sequenceNumber := (Memtable.classify_status m n m _ s none hc).2.1
  have hmod : s = (m.sequenceNumber + 1) % uint64Mod := by
    rcases Memtable.classify_cases m n with ⟨h0, _⟩ | ⟨_, h1⟩ | ⟨_, h1⟩
    · omega
    · rw [h1] at hc
      simp at hc
    · rw [h1] at hc
      simp at hc
  refine ⟨hmt, hmod, ?_, ⟨n, hn, hs.symm⟩, ?_⟩
  · intro hlt
    rw [hmod, Nat.mod_eq_of_lt hlt]
  · intro x hx hxs
    have : x = n := DistinctSequenceNumbers.eq_of_seq _ hseq x n hx hn (by omega)
    subst this
    exact hnt

/-- Below 2^53, under pairwise distinct creation times and sequence numbers: if `Get(k, t)`
returns (m, HOLE, s, nil) then m.creationTime ≤ t, the stored message with sequence number s
has creationTime > t, and s exceeds m.sequenceNumber + 1 computed in `uint64`. -/
theorem Memtable.Get_hole_sound (mem : Memtable) (k : Key) (t : Nat) (hr : mem.Reachable)
    (hb : VersionStore.Bounded (mem.stored k))
    (hct : DistinctCreationTimes (mem.stored k))
    (hseq : DistinctSequenceNumbers (mem.stored k))
    (m : Message) (s : Nat) (hg : mem.Get k t = some (m, Status.HOLE, s, none)) :
    m.creationTime ≤ t ∧
    (∃ x ∈ mem.stored k, x.sequenceNumber = s) ∧
    (∀ x ∈ mem.stored k, x.sequenceNumber = s → t < x.creationTime) ∧
    (m.sequenceNumber + 1) % uint64Mod < s ∧
    (m.sequenceNumber + 1 < uint64Mod → m.sequenceNumber + 1 < s) := by
  obtain ⟨n, hn, _, hmt, hnt, hc⟩ :=
    Memtable.Get_successor mem k t hr hb hct m Status.HOLE s none hg (Or.inr rfl)
  have hs : s = n.sequenceNumber := (Memtable.classify_status m n m _ s none hc).2.1
  have hmod : (m.sequenceNumber + 1) % uint64Mod < s := by
    rcases Memtable.classify_cases m n with ⟨_, h1⟩ | ⟨h0, _⟩ | ⟨_, h1⟩
    · rw [h1] at hc
      simp at hc
    · omega
    · rw [h1] at hc
      simp at hc
  refine ⟨hmt, ⟨n, hn, hs.symm⟩, ?_, hmod, ?_⟩
  · intro x hx hxs
    have : x = n := DistinctSequenceNumbers.eq_of_seq _ hseq x n hx hn (by omega)
    subst this
    exact hnt
  · intro hlt
    rw [Nat.mod_eq_of_lt hlt] at hmod
    exact hmod

/-- Below 2^53: if `Get(k, t)` returns status NOTFOUND then the returned message is the
empty message and the error is nil; nextSequence is 0 when k has no version store, and
otherwise it is the sequence number of a stored message for k whose creationTime is the
smallest. -/
theorem Memtable.Get_notfound_sound (mem : Memtable) (k : Key) (t : Nat)
    (hr : mem.Reachable) (hb : VersionStore.Bounded (mem.stored k))
    (m : Message) (s : Nat) (err : Option SequenceOutOfOrder)
    (hg : mem.Get k t = some (m, Status.NOTFOUND, s, err)) :
    m = Message.empty ∧ err = none ∧ (mem.data k = none → s = 0) ∧
    (∀ l, mem.data k = some l →
      ∃ m0 ∈ l, (∀ x ∈ l, m0.creationTime ≤ x.creationTime) ∧ s = m0.sequenceNumber) := by
  rcases Memtable.data_of_stored mem k (Memtable.Reachable_WF mem hr k hb) with
    ⟨hd, _⟩ | ⟨l, hd, _, hnil, hord, hbl⟩
  · simp only [Memtable.Get, hd, Option.some.injEq, Prod.mk.injEq] at hg
    obtain ⟨hm, _, hs0, he⟩ := hg
    refine ⟨hm.symm, he.symm, fun _ => hs0.symm, ?_⟩
    intro l hl
    rw [hd] at hl
    cases hl
  · rcases Memtable.Get_cases mem k t l hnil hd hbl with
      ⟨_, hg'⟩ | ⟨lo, e, rfl, _, _, hg'⟩ | ⟨lo, e, n, hi, rfl, _, _, hg'⟩ |
      ⟨e, hi, rfl, _, hg'⟩ | ⟨lo, p, e, hi, rfl, _, _, _, hg'⟩
    · rw [hg'] at hg
      simp at hg
    · rw [hg'] at hg
      simp at hg
    · rw [hg'] at hg
      have h := (Memtable.classify_status e n m _ s err (Option.some.inj hg)).1
      simp at h
    · rw [hg'] at hg
      simp only [Option.some.injEq, Prod.mk.injEq] at hg
      obtain ⟨hm, _, hs0, he⟩ := hg
      refine ⟨hm.symm, he.symm, ?_, ?_⟩
      · intro h
        rw [hd] at h
        cases h
      · intro l' hl'
        rw [hd] at hl'
        cases hl'
        refine ⟨e, by simp, ?_, hs0.symm⟩
        intro x hx
        unfold VersionStore.Ordered at hord
        rw [List.pairwise_cons] at hord
        rcases List.mem_cons.mp hx with rfl | hx
        · exact Nat.le_refl _
        · exact hord.1 x hx
    · rw [hg'] at hg
      have h := (Memtable.classify_status p e m _ s err (Option.some.inj hg)).1
      simp at h

/-- Below 2^53, under pairwise distinct creation times and monotone agreement, `Get` returns
(it does not fail), its status is never ERROR and its error is nil. -/
theorem Memtable.Get_no_error (mem : Memtable) (k : Key) (t : Nat) (hr : mem.Reachable)
    (hb : VersionStore.Bounded (mem.stored k))
    (hct : DistinctCreationTimes (mem.stored k)) (hmono : MonotoneAgreement (mem.stored k)) :
    ∃ m st s, mem.Get k t = some (m, st, s, none) ∧ st ≠ Status.ERROR := by
  obtain ⟨m, st, s, hg, hnf, hrest⟩ := Memtable.Get_floor mem k t hr hb hct hmono
  refine ⟨m, st, s, hg, ?_⟩
  intro he
  subst he
  have h := (hrest (by simp)).1
  simp at h

/-- Below 2^53: when the message m is the only message ever Put for key k, other keys
holding arbitrary data, `DB.Get(k, t)` returns (empty message, NOTFOUND, s, nil) when
t < c and (m, ODV, 0, nil) when t ≥ c. -/
theorem DB.Get_single_message (path : String) (c0 : Nat) (calls : List PutCall) (k : Key)
    (p : PutCall) (honly : calls.filter (fun q => q.key = k) = [p])
    (hb : p.creationTime < float64Bound) (t : Nat) :
    (t < p.creationTime →
      ((NewDB path c0).PutAll calls).Get k t
        = some (Message.empty, Status.NOTFOUND, p.sequenceNumber, none)) ∧
    (p.creationTime ≤ t →
      ((NewDB path c0).PutAll calls).Get k t = some (p.message, Status.ODV, 0, none)) := by
  have hmem : ((NewDB path c0).PutAll calls).mem = (NewMemtable 0).PutAll calls :=
    DB.PutAll_mem _ calls
  have hwf : ((NewMemtable 0).PutAll calls).WF k := by
    refine Memtable.PutAll_WF _ calls k (Memtable.NewMemtable_WF 0 k) ?_
    intro c hc hk
    have hmemp : c ∈ calls.filter (fun q => q.key = k) := by
      simp [List.mem_filter, hc, hk]
    rw [honly, List.mem_singleton] at hmemp
    rw [hmemp]
    exact hb
  have hbd : VersionStore.Bounded [p.message] := by
    intro x hx
    rw [List.mem_singleton] at hx
    rw [hx]
    exact hb
  have hperm := Memtable.stored_PutAll (NewMemtable 0) calls k
  rw [honly] at hperm
  have hst : ((NewMemtable 0).PutAll calls).stored k = [p.message] := by
    have h0 : (NewMemtable 0).stored k = [] := rfl
    rw [h0] at hperm
    simpa using hperm
  have hd : ((NewMemtable 0).PutAll calls).data k = some [p.message] := by
    rcases Memtable.data_of_stored _ k hwf with ⟨_, h2⟩ | ⟨l, h1, h2, _, _, _⟩
    · rw [hst] at h2
      cases h2
    · rw [hst] at h2
      rw [h1, ← h2]
  unfold DB.Get
  rw [hmem]
  constructor
  · intro hlt
    have hle : t ≤ p.message.creationTime := Nat.le_of_lt hlt
    have hne : ¬ t = p.message.creationTime := Nat.ne_of_lt hlt
    rw [Memtable.Get_split _ k t [] p.message [] hd hbd (by simp) hle]
    have hne' : ¬ t = p.creationTime := Nat.ne_of_lt hlt
    simp [Memtable.getAt, hne', PutCall.message]
  · intro hge
    have hge' : p.message.creationTime ≤ t := hge
    by_cases heq : t = p.message.creationTime
    · rw [Memtable.Get_split _ k t [] p.message [] hd hbd (by simp) (Nat.le_of_eq heq)]
      simp [Memtable.getAt, heq]
    · have hlt : p.message.creationTime < t := by omega
      rw [Memtable.Get_above _ k t [p.message] (by simp) hd hbd (by simpa using hlt)]
      simp

/-- The second concrete scenario: key 100 holds the single message (creationTime 10, seq 1)
while key 1 holds the data of the first scenario; the lookups at the times 9, 10 and 11. -/
theorem DB.Get_single_message_example :
    ((NewDB "" 0).PutAll singleCalls).Get 100 9
      = some (Message.empty, Status.NOTFOUND, 1, none) ∧
    ((NewDB "" 0).PutAll singleCalls).Get 100 10
      = some (⟨10, 1, "value 10"⟩, Status.ODV, 0, none) ∧
    ((NewDB "" 0).PutAll singleCalls).Get 100 11
      = some (⟨10, 1, "value 10"⟩, Status.ODV, 0, none) :=
  ⟨(DB.Get_single_message "" 0 singleCalls 100 ⟨100, 1, 10, "value 10"⟩ (by decide)
      (by decide) 9).1 (by decide),
    (DB.Get_single_message "" 0 singleCalls 100 ⟨100, 1, 10, "value 10"⟩ (by decide)
      (by decide) 10).2 (by decide),
    (DB.Get_single_message "" 0 singleCalls 100 ⟨100, 1, 10, "value 10"⟩ (by decide)
      (by decide) 11).2 (by decide)⟩

/-! ## The claims on `Memtable.Get` -/

/-- C1 fails on the code: the store with the messages (creationTime 2^53, seq 1) and
(2^53 + 2, seq 2) has pairwise distinct creation times and satisfies monotone agreement, and
the first message has creationTime ≤ 2^53 + 1; yet `Get(1, 2^53 + 1)` returns NOTFOUND. The
key of the time 2^53 + 1 is `float64(2^53 + 1)` = 2^53, so the search stops at the first
message, whose creationTime is not the time, and the first node is taken as not yet
generated. -/
theorem C1_rounded_key :
    roundedMem.Reachable ∧ DistinctCreationTimes (roundedMem.stored 1) ∧
    MonotoneAgreement (roundedMem.stored 1) ∧
    (⟨2 ^ 53, 1, "a"⟩ : Message) ∈ roundedMem.stored 1 ∧
    (Message.mk (2 ^ 53) 1 "a").creationTime ≤ 2 ^ 53 + 1 ∧
    float64OfUint64 (2 ^ 53 + 1) = 2 ^ 53 ∧
    roundedMem.Get 1 (2 ^ 53 + 1) = some (Message.empty, Status.NOTFOUND, 1, none) :=
  ⟨⟨0, _, rfl⟩, by decide, by decide, by decide, by decide, by decide, by decide⟩

/-- C2 fails on the code: with the messages (creationTime 10, seq 2^64 - 1) and
(creationTime 20, seq 0), which have distinct creation times and sequence numbers,
`Get(1, 10)` returns status OK with nextSequence 0, which is not the returned message's
sequence number plus one: the sum `message.sequenceNumber+1` wraps to 0. A second input:
with the messages (10, seq 1) and (2^53, seq 2), `Get(1, 2^53 + 1)` returns
((10, seq 1), OK, 2) although the message with sequence number 2 has creationTime
≤ 2^53 + 1. -/
theorem C2_successor_wraps :
    ((wrapMem 0).Reachable ∧ DistinctCreationTimes ((wrapMem 0).stored 1) ∧
      DistinctSequenceNumbers ((wrapMem 0).stored 1) ∧
      SequenceNumbersInRange ((wrapMem 0).stored 1) ∧
      (wrapMem 0).Get 1 10 = some (⟨10, 2 ^ 64 - 1, "a"⟩, Status.OK, 0, none) ∧
      ¬ (0 = (Message.mk 10 (2 ^ 64 - 1) "a").sequenceNumber + 1)) ∧
    ((lateMem 2).Reachable ∧ DistinctCreationTimes ((lateMem 2).stored 1) ∧
      DistinctSequenceNumbers ((lateMem 2).stored 1) ∧
      (lateMem 2).Get 1 (2 ^ 53 + 1) = some (⟨10, 1, "a"⟩, Status.OK, 2, none) ∧
      (⟨2 ^ 53, 2, "b"⟩ : Message) ∈ (lateMem 2).stored 1 ∧
      (Message.mk (2 ^ 53) 2 "b").creationTime ≤ 2 ^ 53 + 1) :=
  ⟨⟨⟨0, _, rfl⟩, by decide, by decide, by decide, by decide, by decide⟩,
    ⟨⟨0, _, rfl⟩, by decide, by decide, by decide, by decide, by decide⟩⟩

/-- C3 fails on the code: with the messages (creationTime 10, seq 2^64 - 1) and
(creationTime 20, seq 5), which have distinct creation times and sequence numbers,
`Get(1, 10)` returns status HOLE with nextSequence 5, which is not larger than the returned
message's sequence number plus one: the sum `message.sequenceNumber+1` wraps to 0. A second
input: with the messages (10, seq 1) and (2^53, seq 5), `Get(1, 2^53 + 1)` returns
((10, seq 1), HOLE, 5) although the message with sequence number 5 has creationTime
≤ 2^53 + 1. -/
theorem C3_successor_wraps :
    ((wrapMem 5).Reachable ∧ DistinctCreationTimes ((wrapMem 5).stored 1) ∧
      DistinctSequenceNumbers ((wrapMem 5).stored 1) ∧
      SequenceNumbersInRange ((wrapMem 5).stored 1) ∧
      (wrapMem 5).Get 1 10 = some (⟨10, 2 ^ 64 - 1, "a"⟩, Status.HOLE, 5, none) ∧
      ¬ (5 > (Message.mk 10 (2 ^ 64 - 1) "a").sequenceNumber + 1)) ∧
    ((lateMem 5).Reachable ∧ DistinctCreationTimes ((lateMem 5).stored 1) ∧
      DistinctSequenceNumbers ((lateMem 5).stored 1) ∧
      (lateMem 5).Get 1 (2 ^ 53 + 1) = some (⟨10, 1, "a"⟩, Status.HOLE, 5, none) ∧
      (⟨2 ^ 53, 5, "b"⟩ : Message) ∈ (lateMem 5).stored 1 ∧
      (Message.mk (2 ^ 53) 5 "b").creationTime ≤ 2 ^ 53 + 1) :=
  ⟨⟨⟨0, _, rfl⟩, by decide, by decide, by decide, by decide, by decide⟩,
    ⟨⟨0, _, rfl⟩, by decide, by decide, by decide, by decide, by decide⟩⟩

/-- C4 fails on the code: after Put of (creationTime 2^53 + 1, seq 2) and then of
(2^53, seq 1), two messages of distinct creation times and the same key 2^53,
`Get(1, 2^53 + 2)` returns ((2^53, seq 1), ODV, 0): the largest node of the skip list, which
is the message inserted last, not the stored message of largest creationTime. -/
theorem C4_largest_node :
    tiedMem.Reachable ∧ DistinctCreationTimes (tiedMem.stored 1) ∧
    tiedMem.Get 1 (2 ^ 53 + 2) = some (⟨2 ^ 53, 1, "a"⟩, Status.ODV, 0, none) ∧
    (⟨2 ^ 53 + 1, 2, "b"⟩ : Message) ∈ tiedMem.stored 1 ∧
    (Message.mk (2 ^ 53) 1 "a").creationTime < (Message.mk (2 ^ 53 + 1) 2 "b").creationTime :=
  ⟨⟨0, _, rfl⟩, by decide, by decide, by decide, by decide⟩

/-- C5 fails on the code: after Put of (creationTime 2^53 + 1, seq 2) and then of
(2^53, seq 1), `Get(1, 5)` returns (empty, NOTFOUND, 2): the sequence number of the first
node of the skip list, while the stored message of smallest creationTime has sequence
number 1. -/
theorem C5_smallest_node :
    tiedMem.Reachable ∧
    tiedMem.Get 1 5 = some (Message.empty, Status.NOTFOUND, 2, none) ∧
    (⟨2 ^ 53, 1, "a"⟩ : Message) ∈ tiedMem.stored 1 ∧
    (∀ x ∈ tiedMem.stored 1, (Message.mk (2 ^ 53) 1 "a").creationTime ≤ x.creationTime) ∧
    (Message.mk (2 ^ 53) 1 "a").sequenceNumber ≠ 2 :=
  ⟨⟨0, _, rfl⟩, by decide, by decide, by decide, by decide⟩

/-- C6 fails on the code: after Put of (creationTime 2^53 + 1, seq 2) and then of
(2^53, seq 1) the store has pairwise distinct creation times and satisfies monotone
agreement, yet `Get(1, 2^53 + 1)` returns status ERROR with SequenceOutOfOrder{2, 1}. Both
messages have the key 2^53 of the time; whichever of the two nodes the search returns, the
answer is the same. -/
theorem C6_error_reached :
    tiedMem.Reachable ∧ DistinctCreationTimes (tiedMem.stored 1) ∧
    MonotoneAgreement (tiedMem.stored 1) ∧
    tiedMem.Get 1 (2 ^ 53 + 1)
      = some (Message.empty, Status.ERROR, 1, some { curr := 2, next := 1 }) ∧
    (∀ x ∈ tiedMem.stored 1, x.ExtractKey = float64OfUint64 (2 ^ 53 + 1)) ∧
    Memtable.getFrom (tiedMem.stored 1) 0 (2 ^ 53 + 1)
      = some (Message.empty, Status.ERROR, 1, some { curr := 2, next := 1 }) ∧
    Memtable.getFrom (tiedMem.stored 1) 1 (2 ^ 53 + 1)
      = some (Message.empty, Status.ERROR, 1, some { curr := 2, next := 1 }) :=
  ⟨⟨0, _, rfl⟩, by decide, by decide, by decide, by decide, by decide, by decide⟩

/-- C7 (as amended): for creation times below 2^53 and under the data-model invariants
(pairwise distinct creation times and sequence numbers, monotone agreement), for every
stored message m of key k, `Get(k, m.creationTime)` returns m with status OK, HOLE or ODV,
and the status is OK or HOLE if and only if some stored message for k has a strictly later
creationTime than m. -/
theorem C7_get_at_creation_time (mem : Memtable) (k : Key) (hr : mem.Reachable)
    (hb : VersionStore.Bounded (mem.stored k))
    (hct : DistinctCreationTimes (mem.stored k))
    (_hseq : DistinctSequenceNumbers (mem.stored k))
    (hmono : MonotoneAgreement (mem.stored k))
    (m : Message) (hm : m ∈ mem.stored k) :
    ∃ st s, mem.Get k m.creationTime = some (m, st, s, none) ∧
      (st = Status.OK ∨ st = Status.HOLE ∨ st = Status.ODV) ∧
      ((st = Status.OK ∨ st = Status.HOLE) ↔
        ∃ x ∈ mem.stored k, m.creationTime < x.creationTime) := by
  obtain ⟨m', st, s, hg, hnf, hrest⟩ := Memtable.Get_floor mem k m.creationTime hr hb hct hmono
  have hst : st ≠ Status.NOTFOUND := by
    intro h
    have := (hnf.mp h) m hm
    omega
  obtain ⟨hcases, hm', hle, hmax⟩ := hrest hst
  have heq : m' = m := by
    apply DistinctCreationTimes.eq_of_ct _ hct m' m hm' hm
    have := hmax m hm (Nat.le_refl _)
    omega
  subst heq
  refine ⟨st, s, hg, by tauto, ?_⟩
  constructor
  · intro h
    obtain ⟨n, hn, _, _, hnt, _⟩ := Memtable.Get_successor mem k _ hr hb hct m' st s none hg h
    exact ⟨n, hn, hnt⟩
  · rintro ⟨x, hx, hlt⟩
    rcases hcases with h | h | h
    · exact Or.inl h
    · subst h
      have := (Memtable.Get_odv mem k _ hr hb m' s hg).2.2.1 x hx
      omega
    · exact Or.inr h

/-- Witness of C7 on the scenario store for the message (creationTime 20, seq 2). -/
theorem C7_get_at_creation_time_witness :
    VersionStore.Bounded (scenarioMem.stored 1) ∧
    (⟨20, 2, "value: 2"⟩ : Message) ∈ scenarioMem.stored 1 ∧
    ∃ st s, scenarioMem.Get 1 20 = some (⟨20, 2, "value: 2"⟩, st, s, none) ∧
      (st = Status.OK ∨ st = Status.HOLE ∨ st = Status.ODV) ∧
      ((st = Status.OK ∨ st = Status.HOLE) ↔
        ∃ x ∈ scenarioMem.stored 1, 20 < x.creationTime) :=
  ⟨by decide, by decide,
    C7_get_at_creation_time scenarioMem 1 ⟨0, scenarioCalls, rfl⟩ (by decide) (by decide)
      (by decide) (by decide) ⟨20, 2, "value: 2"⟩ (by decide)⟩

/-- C7 as stated fails: the scenario store satisfies the data-model invariants and holds the
message (creationTime 20, seq 2), yet `Get(1, 20)` returns it with status HOLE, neither OK
nor ODV, although a strictly later message is stored. And from 2^53 on the lookup at a stored
creation time can miss the message: after Put of (2^53 + 1, seq 2) and (2^53, seq 1), which
satisfy the invariants, `Get(1, 2^53 + 1)` returns status ERROR, from either node that has
the key of the time. -/
theorem C7_counterexample :
    (scenarioMem.Reachable ∧ DistinctCreationTimes (scenarioMem.stored 1) ∧
      DistinctSequenceNumbers (scenarioMem.stored 1) ∧
      MonotoneAgreement (scenarioMem.stored 1) ∧
      SequenceNumbersInRange (scenarioMem.stored 1) ∧
      (⟨20, 2, "value: 2"⟩ : Message) ∈ scenarioMem.stored 1 ∧
      (∃ x ∈ scenarioMem.stored 1, 20 < x.creationTime) ∧
      scenarioMem.Get 1 20 = some (⟨20, 2, "value: 2"⟩, Status.HOLE, 4, none) ∧
      Status.HOLE ≠ Status.OK ∧ Status.HOLE ≠ Status.ODV) ∧
    (tiedMem.Reachable ∧ DistinctCreationTimes (tiedMem.stored 1) ∧
      DistinctSequenceNumbers (tiedMem.stored 1) ∧ MonotoneAgreement (tiedMem.stored 1) ∧
      SequenceNumbersInRange (tiedMem.stored 1) ∧
      (⟨2 ^ 53 + 1, 2, "b"⟩ : Message) ∈ tiedMem.stored 1 ∧
      tiedMem.Get 1 (Message.mk (2 ^ 53 + 1) 2 "b").creationTime
        = some (Message.empty, Status.ERROR, 1, some { curr := 2, next := 1 }) ∧
      Memtable.getFrom (tiedMem.stored 1) 0 (2 ^ 53 + 1)
        = some (Message.empty, Status.ERROR, 1, some { curr := 2, next := 1 }) ∧
      Memtable.getFrom (tiedMem.stored 1) 1 (2 ^ 53 + 1)
        = some (Message.empty, Status.ERROR, 1, some { curr := 2, next := 1 })) :=
  ⟨⟨⟨0, scenarioCalls, rfl⟩, by decide, by decide, by decide, by decide, by decide,
      by decide, by decide, by decide, by decide⟩,
    ⟨⟨0, _, rfl⟩, by decide, by decide, by decide, by decide, by decide, by decide,
      by decide, by decide⟩⟩

/-- The store of key 1 in the first concrete scenario. -/
theorem scenarioDB_data (path : String) (c : Nat) (v1 v2 v4 : String) :
    (scenarioDB path c v1 v2 v4).mem.data 1
      = some [⟨10, 1, v1⟩, ⟨20, 2, v2⟩, ⟨40, 4, v4⟩] := by
  have e10 : float64OfUint64 10 = 10 := rfl
  have e20 : float64OfUint64 20 = 20 := rfl
  have e40 : float64OfUint64 40 = 40 := rfl
  simp [scenarioDB, DB.PutAll, DB.Put, NewDB, NewMemtable, Memtable.Put,
    VersionStore.Insert, Message.ExtractKey, e10, e20, e40]

/-- C8: after Put-ting for key 1 the messages (creationTime 10, seq 1), (20, seq 2),
(40, seq 4), whatever their values, into an empty DB, `DB.Get` answers
Get(1,5) = (empty, NOTFOUND, 1), Get(1,10) = Get(1,15) = (seq 1, OK, 2),
Get(1,20) = Get(1,30) = (seq 2, HOLE, 4), Get(1,40) = Get(1,1000) = (seq 4, ODV, 0),
each with nil error. -/
theorem C8_scenario (path : String) (c : Nat) (v1 v2 v4 : String) :
    (scenarioDB path c v1 v2 v4).Get 1 5 = some (Message.empty, Status.NOTFOUND, 1, none) ∧
    (scenarioDB path c v1 v2 v4).Get 1 10 = some (⟨10, 1, v1⟩, Status.OK, 2, none) ∧
    (scenarioDB path c v1 v2 v4).Get 1 15 = some (⟨10, 1, v1⟩, Status.OK, 2, none) ∧
    (scenarioDB path c v1 v2 v4).Get 1 20 = some (⟨20, 2, v2⟩, Status.HOLE, 4, none) ∧
    (scenarioDB path c v1 v2 v4).Get 1 30 = some (⟨20, 2, v2⟩, Status.HOLE, 4, none) ∧
    (scenarioDB path c v1 v2 v4).Get 1 40 = some (⟨40, 4, v4⟩, Status.ODV, 0, none) ∧
    (scenarioDB path c v1 v2 v4).Get 1 1000 = some (⟨40, 4, v4⟩, Status.ODV, 0, none) := by
  have hd := scenarioDB_data path c v1 v2 v4
  have e5 : float64OfUint64 5 = 5 := rfl
  have e10 : float64OfUint64 10 = 10 := rfl
  have e15 : float64OfUint64 15 = 15 := rfl
  have e20 : float64OfUint64 20 = 20 := rfl
  have e30 : float64OfUint64 30 = 30 := rfl
  have e40 : float64OfUint64 40 = 40 := rfl
  have e1000 : float64OfUint64 1000 = 1000 := rfl
  refine ⟨?_, ?_, ?_, ?_, ?_, ?_, ?_⟩ <;>
    simp [DB.Get, Memtable.Get, hd, VersionStore.FindGreaterOrEqual, VersionStore.findFrom,
      Memtable.getFrom, VersionStore.GetValue, VersionStore.GetSmallestNode,
      VersionStore.GetLargestNode, VersionStore.Next, VersionStore.Prev, Message.ExtractKey,
      Memtable.classify, uint64Mod, e5, e10, e15, e20, e30, e40, e1000]

/-- C9 fails on the code: when (creationTime 2^53, seq 1) is the only message ever Put for
key 100, `DB.Get(100, 2^53 + 1)` returns (empty, NOTFOUND, 1), not the message with status
ODV: the key of the time 2^53 + 1 is 2^53, the search returns the single node, its
creationTime is not the time, and the first node is taken as not yet generated. -/
theorem C9_rounded_time :
    (Message.mk (2 ^ 53) 1 "a").creationTime ≤ 2 ^ 53 + 1 ∧
    ((NewDB "" 0).PutAll [⟨100, 1, 2 ^ 53, "a"⟩]).Get 100 (2 ^ 53 + 1)
      = some (Message.empty, Status.NOTFOUND, 1, none) ∧
    ((NewDB "" 0).PutAll [⟨100, 1, 2 ^ 53, "a"⟩]).Get 100 (2 ^ 53)
      = some (⟨2 ^ 53, 1, "a"⟩, Status.ODV, 0, none) :=
  ⟨by decide, by decide, by decide⟩

/-! ## The field `incomplete` of a query -/

theorem wrapInt64_of_range (x : Int) (h1 : -(2 ^ 63) ≤ x) (h2 : x < 2 ^ 63) :
    wrapInt64 x = x := by
  unfold wrapInt64
  omega

/-- On a result that is not yet OK, `updateKey` reports completed exactly when it leaves the
status OK. -/
theorem Query.updateKey_completed (env : Numerics) (q : Query) (key : Key) (r : Result)
    (msg : Message) (r' : Result) (kc ku : Bool) (reason : Reason)
    (h : Query.updateKey env q key r msg = Except.ok (r', kc, ku, reason))
    (hr : r.status ≠ Status.OK) : (kc = true ↔ r'.status = Status.OK) := by
  unfold Query.updateKey at h
  simp only at h
  repeat' split at h
  all_goals (cases h <;> simp_all)

/-- A message older than the current message of a result leaves the result alone. -/
theorem Query.updateKey_older (env : Numerics) (q : Query) (key : Key) (r : Result)
    (msg : Message) (hct : msg.creationTime ≤ q.requestTime)
    (hseq : msg.sequenceNumber < r.message.sequenceNumber) :
    Query.updateKey env q key r msg = Except.ok (r, false, false, Reason.NotCompleted) := by
  unfold Query.updateKey
  have h1 : ¬ msg.creationTime > q.requestTime := by omega
  simp only [h1, if_false, hseq, if_true]

/-- A message with creationTime after the requested time and a sequence number beyond the
successor resets a result that is already OK to HOLE and reports nothing: on the two-key
query at requested time 15 (key 1 is OK with message seq 1, key 2 is NOTFOUND, `incomplete`
is 1), the message (creationTime 50, seq 5) for key 1 leaves two results that are not OK. -/
theorem Query.Update_resets_ok_example :
    (assembleQuery sampleEnv sampleDB sampleSensors 30 15 [1, 2]).map
        (fun q => (q.incomplete, q.currentResults.map
          (fun e => (e.1, e.2.message.sequenceNumber, e.2.status, e.2.nextSequence))))
      = Except.ok (1, [(1, 1, Status.OK, 2), (2, 0, Status.NOTFOUND, 0)]) ∧
    ((assembleQuery sampleEnv sampleDB sampleSensors 30 15 [1, 2]).bind
        (fun q => (q.SetPool sampleSensors).Update sampleEnv 35 1 ⟨50, 5, "value: 5"⟩ 100 1)).map
        (fun r => (r.1.incomplete, countNotOK r.1.currentResults,
          r.1.currentResults.map
            (fun e => (e.1, e.2.message.sequenceNumber, e.2.status, e.2.nextSequence)),
          r.2))
      = Except.ok (1, 2, [(1, 1, Status.HOLE, 2), (2, 0, Status.NOTFOUND, 0)],
          false, false, Reason.NotCompleted) :=
  ⟨rfl, rfl⟩

/-! ## The claim on the field `incomplete` -/

/-- The path of `Query.Update` that returns MaybeCorrect: the key's result is replaced, the
joint probability is recomputed and reaches the threshold; `incomplete` is not touched. -/
theorem Query.Update_maybeCorrect (env : Numerics) (q : Query) (clock : Nat) (key : Key)
    (msg : Message) (deadline : Nat) (ck : ℚ) (r r' : Result) (kc : Bool) (kreason : Reason)
    (hget : resultsGet q.currentResults key = some r)
    (htime : ¬ clock > (q.arrivalTime + deadline) % uint64Mod)
    (hk : Query.updateKey env q key r msg = Except.ok (r', kc, true, kreason))
    (hck : ((resultsSet q.currentResults key r').map
      (fun e => e.2.probTemporalCorrect)).prod ≥ ck) :
    q.Update env clock key msg deadline ck =
      Except.ok (Query.updateProbTemporalCorrect
        { q with currentResults := resultsSet q.currentResults key r' },
        true, true, Reason.MaybeCorrect) := by
  unfold Query.Update
  simp only [hget, htime, if_false, hk, if_true, true_and]
  have hck' : (Query.updateProbTemporalCorrect
      { q with currentResults := resultsSet q.currentResults key r' }).probTemporalCorrect ≥ ck :=
    hck
  simp only [hck', if_true]

/-- The reason `updateKey` reports is nonODV or NotCompleted. -/
theorem Query.updateKey_reason (env : Numerics) (q : Query) (key : Key) (r : Result)
    (msg : Message) (r' : Result) (kc ku : Bool) (reason : Reason)
    (h : Query.updateKey env q key r msg = Except.ok (r', kc, ku, reason)) :
    reason = Reason.nonODV ∨ reason = Reason.NotCompleted := by
  unfold Query.updateKey at h
  simp only at h
  repeat' split at h
  all_goals (cases h <;> simp)

/-- When `Query.Update` returns reason Timeout, its timeout test has fired. -/
theorem Query.Update_timeout_only (env : Numerics) (q : Query) (clock : Nat) (key : Key)
    (msg : Message) (deadline : Nat) (ck : ℚ) (q' : Query) (c u : Bool)
    (h : q.Update env clock key msg deadline ck = Except.ok (q', c, u, Reason.Timeout)) :
    clock > (q.arrivalTime + deadline) % uint64Mod := by
  unfold Query.Update at h
  cases hget : resultsGet q.currentResults key with
  | none => simp [hget] at h
  | some r =>
    simp only [hget] at h
    by_cases htime : clock > (q.arrivalTime + deadline) % uint64Mod
    · exact htime
    · simp only [htime, if_false] at h
      cases hk : Query.updateKey env q key r msg with
      | error e => simp [hk] at h
      | ok res =>
        obtain ⟨r', kc, ku, kreason⟩ := res
        have hreason := Query.updateKey_reason env q key r msg r' kc ku kreason hk
        simp only [hk] at h
        repeat' split at h
        all_goals
          simp only [Except.ok.injEq, Prod.mk.injEq] at h
          obtain ⟨_, _, _, hr⟩ := h
          rcases hreason with h1 | h1 <;> simp_all

/-- C11: for a query whose results contain the key, with the sum arrivalTime + deadline not
overflowing `uint64`: when clock > arrivalTime + deadline, `Query.Update` returns
(completed = true, updated = false, Timeout) and the query (every result, `incomplete` and
the joint probability) is unchanged; when clock ≤ arrivalTime + deadline, it never returns
reason Timeout. -/
theorem C11_timeout (env : Numerics) (q : Query) (clock : Nat) (key : Key) (msg : Message)
    (deadline : Nat) (ck : ℚ) (r : Result)
    (hget : resultsGet q.currentResults key = some r)
    (hsum : q.arrivalTime + deadline < uint64Mod) :
    (clock > q.arrivalTime + deadline →
      q.Update env clock key msg deadline ck = Except.ok (q, true, false, Reason.Timeout)) ∧
    (clock ≤ q.arrivalTime + deadline →
      ∀ q' c u reason, q.Update env clock key msg deadline ck = Except.ok (q', c, u, reason) →
        reason ≠ Reason.Timeout) := by
  have hmod : (q.arrivalTime + deadline) % uint64Mod = q.arrivalTime + deadline :=
    Nat.mod_eq_of_lt hsum
  constructor
  · intro hgt
    unfold Query.Update
    simp only [hget, hmod, hgt, if_true]
  · intro hle q' c u reason h hr
    subst hr
    have := Query.Update_timeout_only env q clock key msg deadline ck q' c u h
    rw [hmod] at this
    omega

/-- Witness of C11: the single-key sample query (arrivalTime 30) with deadline 100 at
clock 131. -/
theorem C11_timeout_witness :
    resultsGet holeQuery.currentResults 1
      = some ⟨⟨20, 2, "value: 2"⟩, Status.HOLE, 4, ProbTemporalCorrect sampleEnv 1000 400 20 25⟩ ∧
    holeQuery.arrivalTime + 100 < uint64Mod ∧
    ((131 > holeQuery.arrivalTime + 100 →
      holeQuery.Update sampleEnv 131 1 ⟨22, 3, "value: 3"⟩ 100 0
        = Except.ok (holeQuery, true, false, Reason.Timeout)) ∧
    (131 ≤ holeQuery.arrivalTime + 100 →
      ∀ q' c u reason, holeQuery.Update sampleEnv 131 1 ⟨22, 3, "value: 3"⟩ 100 0
          = Except.ok (q', c, u, reason) →
        reason ≠ Reason.Timeout)) :=
  ⟨rfl, by decide, C11_timeout sampleEnv holeQuery 131 1 ⟨22, 3, "value: 3"⟩ 100 0 _ rfl
    (by decide)⟩

/-- C12 (as amended): the single-key query on key 1 with requestTime 25, arrivalTime 30 and
result (message seq 2, HOLE, nextSequence 4), sensor parameters present for key 1, receives
the message (creationTime 22, seq 3) at clock 35. For every deadline ≥ 5 with 30 + deadline not
overflowing `uint64` and every threshold ck, `Update` replaces the result's message with the
seq-3 message, sets its status to OK and returns completed = true; the reason is nonODV (and
`incomplete` becomes 0) when the recomputed probability is below ck, and MaybeCorrect (with
`incomplete` left at 1) otherwise. -/
theorem C12_hole_closed (env : Numerics) (m : Message) (p P : ℚ) (sensors : Int → List Int)
    (mean std : Int) (rest : List Int) (v : String) (deadline : Nat) (ck : ℚ)
    (hm : m.sequenceNumber = 2) (hs : sensors (intOfKey 1) = mean :: std :: rest)
    (hd : 5 ≤ deadline) (hov : 30 + deadline < uint64Mod) :
    (parkedQuery m p P sensors).Update env 35 1 ⟨22, 3, v⟩ deadline ck =
      Except.ok
        ({ arrivalTime := 30, requestTime := 25,
           incomplete := if ProbTemporalCorrect env mean std m.creationTime 25 ≥ ck then 1 else 0,
           probTemporalCorrect := ProbTemporalCorrect env mean std m.creationTime 25,
           currentResults := [(1, ⟨⟨22, 3, v⟩, Status.OK, 4,
             ProbTemporalCorrect env mean std m.creationTime 25⟩)],
           pool := some sensors },
         true, true,
         if ProbTemporalCorrect env mean std m.creationTime 25 ≥ ck then Reason.MaybeCorrect
         else Reason.nonODV) := by
  have hmod : (30 + deadline) % uint64Mod = 30 + deadline := Nat.mod_eq_of_lt hov
  have htime : ¬ 35 > (30 + deadline) % uint64Mod := by
    rw [hmod]
    omega
  have hk : Query.updateKey env (parkedQuery m p P sensors) 1 ⟨m, Status.HOLE, 4, p⟩ ⟨22, 3, v⟩
      = Except.ok (⟨⟨22, 3, v⟩, Status.OK, 4,
          ProbTemporalCorrect env mean std m.creationTime 25⟩, true, true, Reason.nonODV) := by
    have hct : ¬ ((⟨22, 3, v⟩ : Message).creationTime
        > (parkedQuery m p P sensors).requestTime) := by
      show ¬ (22 > 25)
      omega
    have hlt : ¬ ((⟨22, 3, v⟩ : Message).sequenceNumber
        < (⟨m, Status.HOLE, 4, p⟩ : Result).message.sequenceNumber) := by
      show ¬ (3 < m.sequenceNumber)
      omega
    have hnext : (⟨22, 3, v⟩ : Message).sequenceNumber
        = ((⟨m, Status.HOLE, 4, p⟩ : Result).nextSequence + uint64Mod - 1) % uint64Mod := by
      show 3 = (4 + uint64Mod - 1) % uint64Mod
      decide
    have hpool : (parkedQuery m p P sensors).pool = some sensors := rfl
    have hodv : ¬ ((⟨m, Status.HOLE, 4, p⟩ : Result).status = Status.ODV) := by
      show ¬ (Status.HOLE = Status.ODV)
      decide
    unfold Query.updateKey
    simp only [hct, if_false, hlt, hpool, hs, sliceIndex, List.getElem?_cons_zero,
      List.getElem?_cons_succ, hodv, hnext, if_true]
    rfl
  unfold Query.Update
  have hget : resultsGet (parkedQuery m p P sensors).currentResults 1
      = some ⟨m, Status.HOLE, 4, p⟩ := by
    simp [parkedQuery, resultsGet]
  have harr : (parkedQuery m p P sensors).arrivalTime = 30 := rfl
  simp only [hget, harr, htime, if_false, hk, if_true, true_and]
  by_cases hck : ProbTemporalCorrect env mean std m.creationTime 25 ≥ ck
  · simp [hck, parkedQuery, resultsSet, Query.updateProbTemporalCorrect]
  · simp [hck, parkedQuery, resultsSet, Query.updateProbTemporalCorrect, Query.AllKeysOK,
      wrapInt64]

/-- Witness of C12: the scenario query with the sample sensors, deadline 100 and
threshold 1. -/
theorem C12_hole_closed_witness :
    (⟨20, 2, "value: 2"⟩ : Message).sequenceNumber = 2 ∧
    sampleSensors (intOfKey 1) = [1000, 400] ∧ 5 ≤ 100 ∧ 30 + 100 < uint64Mod ∧
    (parkedQuery ⟨20, 2, "value: 2"⟩ (1 / 2) (1 / 2) sampleSensors).Update sampleEnv 35 1
        ⟨22, 3, "value: 3"⟩ 100 1 =
      Except.ok
        ({ arrivalTime := 30, requestTime := 25,
           incomplete := if ProbTemporalCorrect sampleEnv 1000 400 20 25 ≥ 1 then 1 else 0,
           probTemporalCorrect := ProbTemporalCorrect sampleEnv 1000 400 20 25,
           currentResults := [(1, ⟨⟨22, 3, "value: 3"⟩, Status.OK, 4,
             ProbTemporalCorrect sampleEnv 1000 400 20 25⟩)],
           pool := some sampleSensors },
         true, true,
         if ProbTemporalCorrect sampleEnv 1000 400 20 25 ≥ 1 then Reason.MaybeCorrect
         else Reason.nonODV) :=
  ⟨rfl, by decide, by decide, by decide,
    C12_hole_closed sampleEnv ⟨20, 2, "value: 2"⟩ (1 / 2) (1 / 2) sampleSensors 1000 400 []
      "value: 3" 100 1 rfl (by decide) (by decide) (by decide)⟩

/-- C12 as stated fails in two ways. With threshold 0 the call on the scenario query returns
completed = true with reason MaybeCorrect, not nonODV, and leaves `incomplete` at 1. With
deadline 2^64 - 1 (which is ≥ 5) the sum 30 + deadline wraps to 29, the call returns Timeout
and the result keeps the seq-2 message with status HOLE. -/
theorem C12_counterexample :
    ((parkedQuery ⟨20, 2, "value: 2"⟩ (1 / 2) (1 / 2) sampleSensors).Update sampleEnv 35 1
        ⟨22, 3, "value: 3"⟩ 100 0).map
        (fun r => (r.1.incomplete, r.1.currentResults.map
          (fun e => (e.1, e.2.message.sequenceNumber, e.2.status, e.2.nextSequence)), r.2))
      = Except.ok (1, [(1, 3, Status.OK, 4)], true, true, Reason.MaybeCorrect) ∧
    5 ≤ 2 ^ 64 - 1 ∧
    ((parkedQuery ⟨20, 2, "value: 2"⟩ (1 / 2) (1 / 2) sampleSensors).Update sampleEnv 35 1
        ⟨22, 3, "value: 3"⟩ (2 ^ 64 - 1) 1).map
        (fun r => (r.1.incomplete, r.1.currentResults.map
          (fun e => (e.1, e.2.message.sequenceNumber, e.2.status, e.2.nextSequence)), r.2))
      = Except.ok (1, [(1, 2, Status.HOLE, 4)], true, false, Reason.Timeout) := by
  have hU := Query.Update_maybeCorrect sampleEnv
    (parkedQuery ⟨20, 2, "value: 2"⟩ (1 / 2) (1 / 2) sampleSensors) 35 1
    ⟨22, 3, "value: 3"⟩ 100 0
    ⟨⟨20, 2, "value: 2"⟩, Status.HOLE, 4, 1 / 2⟩
    ⟨⟨22, 3, "value: 3"⟩, Status.OK, 4, ProbTemporalCorrect sampleEnv 1000 400 20 25⟩
    true Reason.nonODV rfl (by decide) rfl
    (by
      show ([ProbTemporalCorrect sampleEnv 1000 400 20 25] : List ℚ).prod ≥ 0
      norm_num [ProbTemporalCorrect, sampleEnv])
  refine ⟨?_, by decide, rfl⟩
  rw [hU]
  rfl

/-- C13: a single-key query (whose `incomplete` counts its results not OK) has for key k a
result with status ODV or HOLE and current message m. For every `uint64` message n with
n.creationTime > requestTime and n.sequenceNumber = m.sequenceNumber + 1, every clock within
the deadline and every threshold ck, `Query.Update` sets the result's status to OK and its
nextSequence to n.sequenceNumber, leaves the result's message and probability (and the joint
probability) unchanged, and returns (completed = true, updated = false, nonODV). -/
theorem C13_successor_completes (env : Numerics) (q : Query) (k : Key) (r : Result)
    (n : Message) (clock deadline : Nat) (ck : ℚ)
    (hres : q.currentResults = [(k, r)])
    (hst : r.status = Status.ODV ∨ r.status = Status.HOLE)
    (hinc : q.incomplete = countNotOK q.currentResults)
    (hct : n.creationTime > q.requestTime)
    (hseq : n.sequenceNumber = r.message.sequenceNumber + 1)
    (hrange : n.sequenceNumber < uint64Mod)
    (htime : clock ≤ (q.arrivalTime + deadline) % uint64Mod) :
    q.Update env clock k n deadline ck =
      Except.ok
        ({ q with
            currentResults :=
              [(k, { r with status := Status.OK, nextSequence := n.sequenceNumber })],
            incomplete := 0 },
         true, false, Reason.nonODV) := by
  have hnf : r.status ≠ Status.NOTFOUND := by
    rcases hst with h | h <;> simp [h]
  have hnok : r.status ≠ Status.OK := by
    rcases hst with h | h <;> simp [h]
  have hmod : (r.message.sequenceNumber + 1) % uint64Mod = n.sequenceNumber := by
    rw [← hseq]
    exact Nat.mod_eq_of_lt hrange
  have hk : Query.updateKey env q k r n
      = Except.ok ({ r with nextSequence := n.sequenceNumber, status := Status.OK },
          true, false, Reason.nonODV) := by
    unfold Query.updateKey
    simp only [hct, if_true, hnf, if_false, hmod]
  have hget : resultsGet q.currentResults k = some r := by
    simp [hres, resultsGet]
  have hcnt : q.incomplete = 1 := by
    rw [hinc, hres]
    simp [countNotOK, hnok]
  have hnt : ¬ clock > (q.arrivalTime + deadline) % uint64Mod := by omega
  unfold Query.Update
  simp only [hget, hnt, if_false, hk]
  simp [hres, resultsSet, hcnt, Query.AllKeysOK, wrapInt64]

/-- Witness of C13: the scenario query (requestTime 25, arrivalTime 30, result
(seq 2, HOLE, 4)) and the message (creationTime 50, seq 3) at clock 35. -/
theorem C13_successor_completes_witness :
    (parkedQuery ⟨20, 2, "value: 2"⟩ (1 / 2) (1 / 2) sampleSensors).Update sampleEnv 35 1
        ⟨50, 3, "value: 3"⟩ 100 1 =
      Except.ok
        ({ parkedQuery ⟨20, 2, "value: 2"⟩ (1 / 2) (1 / 2) sampleSensors with
            currentResults := [(1, ⟨⟨20, 2, "value: 2"⟩, Status.OK, 3, 1 / 2⟩)],
            incomplete := 0 },
         true, false, Reason.nonODV) :=
  C13_successor_completes sampleEnv (parkedQuery ⟨20, 2, "value: 2"⟩ (1 / 2) (1 / 2) sampleSensors)
    1 ⟨⟨20, 2, "value: 2"⟩, Status.HOLE, 4, 1 / 2⟩ ⟨50, 3, "value: 3"⟩ 35 100 1
    rfl (Or.inr rfl) (by decide) (by decide) rfl (by decide) (by decide)

/-- Within the deadline `Query.Update` fails exactly when `updateKey` does, with the same
failure. -/
theorem Query.Update_of_updateKey (env : Numerics) (q : Query) (clock : Nat) (key : Key)
    (msg : Message) (deadline : Nat) (ck : ℚ) (r : Result)
    (hget : resultsGet q.currentResults key = some r)
    (htime : clock ≤ (q.arrivalTime + deadline) % uint64Mod) :
    (∀ e, Query.updateKey env q key r msg = Except.error e →
      q.Update env clock key msg deadline ck = Except.error e) ∧
    (∀ x, Query.updateKey env q key r msg = Except.ok x →
      ∃ res, q.Update env clock key msg deadline ck = Except.ok res) := by
  have hnt : ¬ clock > (q.arrivalTime + deadline) % uint64Mod := by omega
  constructor
  · intro e he
    unfold Query.Update
    simp only [hget, hnt, if_false, he]
  · intro x hx
    obtain ⟨r', kc, ku, kreason⟩ := x
    unfold Query.Update
    simp only [hget, hnt, if_false, hx]
    repeat' split
    all_goals exact ⟨_, rfl⟩

/-- With sensor parameters present, `updateKey` fails exactly in its out-of-order branch. -/
theorem Query.updateKey_failure (env : Numerics) (q : Query) (key : Key) (r : Result)
    (n : Message) (sensors : Int → List Int) (mean std : Int) (rest : List Int)
    (hpool : q.pool = some sensors) (hs : sensors (intOfKey key) = mean :: std :: rest) :
    ((n.creationTime > q.requestTime ∧ r.status ≠ Status.NOTFOUND ∧
        n.sequenceNumber < (r.message.sequenceNumber + 1) % uint64Mod) →
      Query.updateKey env q key r n = Except.error (Failure.sequenceOutOfOrder
        { curr := n.sequenceNumber, next := r.message.sequenceNumber })) ∧
    (¬ (n.creationTime > q.requestTime ∧ r.status ≠ Status.NOTFOUND ∧
        n.sequenceNumber < (r.message.sequenceNumber + 1) % uint64Mod) →
      ∃ x, Query.updateKey env q key r n = Except.ok x) := by
  constructor
  · rintro ⟨h1, h2, h3⟩
    have h4 : ¬ n.sequenceNumber = (r.message.sequenceNumber + 1) % uint64Mod := by omega
    have h5 : ¬ n.sequenceNumber > (r.message.sequenceNumber + 1) % uint64Mod := by omega
    unfold Query.updateKey
    simp only [h1, if_true, h2, if_false, h4, h5]
  · intro hn
    unfold Query.updateKey
    simp only [hpool, hs, sliceIndex]
    repeat' split
    all_goals first
      | exact ⟨_, rfl⟩
      | (exfalso
         apply hn
         refine ⟨by assumption, by assumption, ?_⟩
         omega)
      | simp_all

/-- The failure condition of `Query.Update`: for a query with sensor parameters present for
key k, a result for k with current message m and a new message n, the clock being within
the deadline, `Query.Update` fails, with SequenceOutOfOrder, if and only if
n.creationTime > requestTime, the result's status is not NOTFOUND and n.sequenceNumber is
below the `uint64` sum m.sequenceNumber + 1 (that is n.sequenceNumber ≤ m.sequenceNumber
when the sum does not wrap); in every other case it returns normally. -/
theorem Query.Update_failure_condition (env : Numerics) (q : Query) (k : Key) (r : Result)
    (n : Message) (clock deadline : Nat) (ck : ℚ) (sensors : Int → List Int)
    (mean std : Int) (rest : List Int)
    (hget : resultsGet q.currentResults k = some r)
    (hpool : q.pool = some sensors) (hs : sensors (intOfKey k) = mean :: std :: rest)
    (htime : clock ≤ (q.arrivalTime + deadline) % uint64Mod) :
    ((∃ e, q.Update env clock k n deadline ck = Except.error e) ↔
      (n.creationTime > q.requestTime ∧ r.status ≠ Status.NOTFOUND ∧
        n.sequenceNumber < (r.message.sequenceNumber + 1) % uint64Mod)) ∧
    (∀ e, q.Update env clock k n deadline ck = Except.error e →
      e = Failure.sequenceOutOfOrder
        { curr := n.sequenceNumber, next := r.message.sequenceNumber }) ∧
    (¬ (n.creationTime > q.requestTime ∧ r.status ≠ Status.NOTFOUND ∧
        n.sequenceNumber < (r.message.sequenceNumber + 1) % uint64Mod) →
      ∃ res, q.Update env clock k n deadline ck = Except.ok res) ∧
    (r.message.sequenceNumber + 1 < uint64Mod →
      (n.sequenceNumber < (r.message.sequenceNumber + 1) % uint64Mod ↔
        n.sequenceNumber ≤ r.message.sequenceNumber)) := by
  obtain ⟨hU1, hU2⟩ := Query.Update_of_updateKey env q clock k n deadline ck r hget htime
  obtain ⟨hK1, hK2⟩ := Query.updateKey_failure env q k r n sensors mean std rest hpool hs
  have hfail : (n.creationTime > q.requestTime ∧ r.status ≠ Status.NOTFOUND ∧
        n.sequenceNumber < (r.message.sequenceNumber + 1) % uint64Mod) →
      q.Update env clock k n deadline ck = Except.error (Failure.sequenceOutOfOrder
        { curr := n.sequenceNumber, next := r.message.sequenceNumber }) :=
    fun hc => hU1 _ (hK1 hc)
  have hok : ¬ (n.creationTime > q.requestTime ∧ r.status ≠ Status.NOTFOUND ∧
        n.sequenceNumber < (r.message.sequenceNumber + 1) % uint64Mod) →
      ∃ res, q.Update env clock k n deadline ck = Except.ok res := by
    intro hc
    obtain ⟨x, hx⟩ := hK2 hc
    exact hU2 x hx
  refine ⟨⟨?_, fun hc => ⟨_, hfail hc⟩⟩, ?_, hok, ?_⟩
  · rintro ⟨e, he⟩
    by_contra hc
    obtain ⟨res, hres⟩ := hok hc
    rw [hres] at he
    cases he
  · intro e he
    by_cases hc : (n.creationTime > q.requestTime ∧ r.status ≠ Status.NOTFOUND ∧
        n.sequenceNumber < (r.message.sequenceNumber + 1) % uint64Mod)
    · rw [hfail hc] at he
      cases he
      rfl
    · obtain ⟨res, hres⟩ := hok hc
      rw [hres] at he
      cases he
  · intro hlt
    rw [Nat.mod_eq_of_lt hlt]
    omega

/-- The scenario query receives the message (creationTime 50, seq 1), which is out of
order: `Update` fails. -/
theorem Query.Update_failure_example :
    resultsGet (parkedQuery ⟨20, 2, "value: 2"⟩ (1 / 2) (1 / 2) sampleSensors).currentResults 1
      = some ⟨⟨20, 2, "value: 2"⟩, Status.HOLE, 4, 1 / 2⟩ ∧
    sampleSensors (intOfKey 1) = [1000, 400] ∧
    35 ≤ (30 + 100) % uint64Mod ∧
    ∃ e, (parkedQuery ⟨20, 2, "value: 2"⟩ (1 / 2) (1 / 2) sampleSensors).Update sampleEnv 35 1
        ⟨50, 1, "value: 1"⟩ 100 1 = Except.error e :=
  ⟨rfl, by decide, by decide,
    (Query.Update_failure_condition sampleEnv
      (parkedQuery ⟨20, 2, "value: 2"⟩ (1 / 2) (1 / 2) sampleSensors) 1
      ⟨⟨20, 2, "value: 2"⟩, Status.HOLE, 4, 1 / 2⟩ ⟨50, 1, "value: 1"⟩ 35 100 1
      sampleSensors 1000 400 [] rfl rfl (by decide) (by decide)).1.mpr
      ⟨by decide, by decide, by decide⟩⟩

/-- C14 fails on the code: the current message has sequence number 2^64 - 1 and status ODV,
the new message (creationTime 50 > requestTime 25, seq 5) has a sequence number not larger
than the current one, sensor parameters are present and the clock is within the deadline,
yet `Update` returns normally and records a HOLE: the sum
`currentMessage.SequenceNumber()+1` wraps to 0, below which no sequence number lies. -/
theorem C14_wrapped_successor :
    resultsGet wrapQuery.currentResults 1
      = some ⟨⟨20, 2 ^ 64 - 1, "a"⟩, Status.ODV, 0, 1 / 2⟩ ∧
    wrapQuery.pool.map (fun s => s (intOfKey 1)) = some [1000, 400] ∧
    35 ≤ wrapQuery.arrivalTime + 100 ∧
    (⟨50, 5, "b"⟩ : Message).creationTime > wrapQuery.requestTime ∧
    Status.ODV ≠ Status.NOTFOUND ∧
    (⟨50, 5, "b"⟩ : Message).sequenceNumber ≤ (⟨20, 2 ^ 64 - 1, "a"⟩ : Message).sequenceNumber ∧
    (wrapQuery.Update sampleEnv 35 1 ⟨50, 5, "b"⟩ 100 1).map
        (fun r => (r.1.currentResults.map
          (fun e => (e.1, e.2.message.sequenceNumber, e.2.status, e.2.nextSequence)), r.2))
      = Except.ok ([(1, 2 ^ 64 - 1, Status.HOLE, 5)], false, false, Reason.NotCompleted) :=
  ⟨rfl, by decide, by decide, by decide, by decide, by decide, rfl⟩

/-! ## The joint probability of a query

In the embedding a probability is a rational number and the product is exact; what follows
says how the field is kept, not what the `float64` product of the source rounds to. -/

/-- When `updateKey` does not report an update, the probability of the result is kept. -/
theorem Query.updateKey_prob (env : Numerics) (q : Query) (key : Key) (r : Result)
    (msg : Message) (r' : Result) (kc : Bool) (reason : Reason)
    (h : Query.updateKey env q key r msg = Except.ok (r', kc, false, reason)) :
    r'.probTemporalCorrect = r.probTemporalCorrect := by
  unfold Query.updateKey at h
  simp only at h
  repeat' split at h
  all_goals (cases h <;> rfl)

/-- Replacing a result by one of the same probability keeps the list of probabilities. -/
theorem resultsSet_map_prob (m : List (Key × Result)) (k : Key) (r r' : Result)
    (hget : resultsGet m k = some r) (hp : r'.probTemporalCorrect = r.probTemporalCorrect) :
    (resultsSet m k r').map (fun e => e.2.probTemporalCorrect)
      = m.map (fun e => e.2.probTemporalCorrect) := by
  induction m with
  | nil => simp [resultsGet] at hget
  | cons e rest ih =>
    obtain ⟨k', r0⟩ := e
    unfold resultsSet
    unfold resultsGet at hget
    by_cases hk : k' = k
    · simp only [hk, if_true, Option.some.injEq] at hget ⊢
      subst hget
      simp [hp]
    · simp only [hk, if_false] at hget ⊢
      simp [ih hget]

/-- A `Query.Update` call that returns keeps the joint probability equal to the product of
the per-key probabilities. -/
theorem Query.Update_product (env : Numerics) (q : Query) (clock : Nat) (key : Key)
    (msg : Message) (deadline : Nat) (ck : ℚ) (q' : Query) (c u : Bool) (reason : Reason)
    (h : q.Update env clock key msg deadline ck = Except.ok (q', c, u, reason))
    (hinv : q.probTemporalCorrect = q.productOfResults) :
    q'.probTemporalCorrect = q'.productOfResults := by
  unfold Query.Update at h
  cases hget : resultsGet q.currentResults key with
  | none =>
    simp only [hget, Except.ok.injEq, Prod.mk.injEq] at h
    rw [← h.1]
    exact hinv
  | some r =>
    simp only [hget] at h
    by_cases htime : clock > (q.arrivalTime + deadline) % uint64Mod
    · simp only [htime, if_true, Except.ok.injEq, Prod.mk.injEq] at h
      rw [← h.1]
      exact hinv
    · simp only [htime, if_false] at h
      cases hk : Query.updateKey env q key r msg with
      | error e => simp [hk] at h
      | ok res =>
        obtain ⟨r', kc, ku, kreason⟩ := res
        simp only [hk] at h
        cases ku with
        | true =>
          simp only [if_true, true_and] at h
          repeat' split at h
          all_goals
            simp only [Except.ok.injEq, Prod.mk.injEq] at h
            rw [← h.1]
            rfl
        | false =>
          have hp := Query.updateKey_prob env q key r msg r' kc kreason hk
          have hmap := resultsSet_map_prob q.currentResults key r r' hget hp
          simp only [Bool.false_eq_true, if_false, false_and] at h
          repeat' split at h
          all_goals
            simp only [Except.ok.injEq, Prod.mk.injEq] at h
            rw [← h.1]
            show q.probTemporalCorrect = List.prod _
            rw [hmap]
            exact hinv

/-- Every step of a query keeps the joint probability equal to the product of the per-key
probabilities; `NewResult` establishes the equality. -/
theorem Query.step_product (env : Numerics) (q q' : Query) (op : QueryOp)
    (h : q.step env op = Except.ok q')
    (hinv : q.probTemporalCorrect = q.productOfResults) :
    q'.probTemporalCorrect = q'.productOfResults := by
  cases op with
  | newResult key message status nextSequence prob =>
    simp only [Query.step, Except.ok.injEq] at h
    rw [← h]
    rfl
  | completeOneKey =>
    simp only [Query.step, Except.ok.injEq] at h
    rw [← h]
    exact hinv
  | setPool pool =>
    simp only [Query.step, Except.ok.injEq] at h
    rw [← h]
    exact hinv
  | update c =>
    unfold Query.step at h
    cases hU : q.Update env c.clock c.key c.newMessage c.deadline c.ck with
    | error e => simp [hU] at h
    | ok res =>
      obtain ⟨q1, cc, uu, reason⟩ := res
      simp only [hU, Except.ok.injEq] at h
      rw [← h]
      exact Query.Update_product env q _ _ _ _ _ q1 cc uu reason hU hinv

theorem Query.steps_product (env : Numerics) (ops : List QueryOp) (q q' : Query)
    (h : Query.steps env q ops = Except.ok q')
    (hinv : q.probTemporalCorrect = q.productOfResults) :
    q'.probTemporalCorrect = q'.productOfResults := by
  induction ops generalizing q with
  | nil =>
    simp only [Query.steps, Except.ok.injEq] at h
    rw [← h]
    exact hinv
  | cons op ops ih =>
    unfold Query.steps at h
    cases hs : q.step env op with
    | error e => simp [hs] at h
    | ok q1 =>
      simp only [hs] at h
      exact ih q1 h (Query.step_product env q q1 op hs hinv)

/-- A product of rationals between 0 and 1 lies between 0 and 1. -/
theorem prod_mem_unit_interval (l : List ℚ) (h : ∀ x ∈ l, 0 ≤ x ∧ x ≤ 1) :
    0 ≤ l.prod ∧ l.prod ≤ 1 := by
  induction l with
  | nil => simp
  | cons x xs ih =>
    have hx := h x (List.mem_cons_self _ _)
    have hxs := ih (fun y hy => h y (List.mem_cons_of_mem _ hy))
    rw [List.prod_cons]
    exact ⟨mul_nonneg hx.1 hxs.1, mul_le_one₀ hx.2 hxs.1 hxs.2⟩

/-! ## Go maps as association lists -/

theorem mapGet_mapSet_self {κ α : Type} [DecidableEq κ] (m : List (κ × α)) (k : κ) (v : α) :
    mapGet (mapSet m k v) k = some v := by
  induction m with
  | nil => simp [mapSet, mapGet]
  | cons e rest ih =>
    obtain ⟨k', v'⟩ := e
    unfold mapSet
    by_cases hk : k' = k
    · simp [hk, mapGet]
    · simp [hk, mapGet, ih]

theorem mapGet_mapSet_ne {κ α : Type} [DecidableEq κ] (m : List (κ × α)) (k k2 : κ) (v : α)
    (h : k2 ≠ k) : mapGet (mapSet m k v) k2 = mapGet m k2 := by
  induction m with
  | nil =>
    have h' : ¬ k = k2 := fun e => h e.symm
    simp [mapSet, mapGet, h']
  | cons e rest ih =>
    obtain ⟨k', v'⟩ := e
    unfold mapSet
    by_cases hk : k' = k
    · subst hk
      have h' : ¬ k' = k2 := fun e => h e.symm
      simp [mapGet, h']
    · simp only [hk, if_false]
      unfold mapGet
      by_cases hk2 : k' = k2
      · simp [hk2]
      · simp only [hk2, if_false]
        exact ih

theorem mapGet_mapDelete_self {κ α : Type} [DecidableEq κ] (m : List (κ × α)) (k : κ) :
    mapGet (mapDelete m k) k = none := by
  induction m with
  | nil => rfl
  | cons e rest ih =>
    obtain ⟨k', v'⟩ := e
    unfold mapDelete
    by_cases hk : k' = k
    · simp only [hk, if_true]
      exact ih
    · simp only [hk, if_false]
      unfold mapGet
      simp only [hk, if_false]
      exact ih

theorem mapGet_mapDelete_ne {κ α : Type} [DecidableEq κ] (m : List (κ × α)) (k k2 : κ)
    (h : k2 ≠ k) : mapGet (mapDelete m k) k2 = mapGet m k2 := by
  induction m with
  | nil => rfl
  | cons e rest ih =>
    obtain ⟨k', v'⟩ := e
    unfold mapDelete
    by_cases hk : k' = k
    · subst hk
      have h' : ¬ k' = k2 := fun e => h e.symm
      simp only [if_true]
      rw [ih]
      simp [mapGet, h']
    · simp only [hk, if_false]
      unfold mapGet
      by_cases hk2 : k' = k2
      · simp [hk2]
      · simp only [hk2, if_false]
        exact ih

/-! ## `QueryPool.Add` -/

/-- The index after the loop body of `Add` for one key. -/
theorem QueryPool.poolEntry_addKey (a : Nat) (ref : QueryRef)
    (pool : List (Key × List (Nat × QueryRef))) (k k2 : Key) (b : Nat) :
    poolEntry (QueryPool.addKey a ref pool k) k2 b =
      if k2 = k ∧ b = a then some ref else poolEntry pool k2 b := by
  unfold QueryPool.addKey poolEntry
  by_cases hk : k2 = k
  · subst hk
    simp only [mapGet_mapSet_self, true_and]
    by_cases hb : b = a
    · subst hb
      simp only [mapGet_mapSet_self, if_true]
    · simp only [hb, if_false]
      rw [mapGet_mapSet_ne _ _ _ _ hb]
      cases mapGet pool k2 <;> rfl
  · simp only [hk, false_and, if_false]
    rw [mapGet_mapSet_ne _ _ _ _ hk]

/-- The index after the loop of `Add`. -/
theorem QueryPool.poolEntry_addKeys (a : Nat) (ref : QueryRef) (order : List Key)
    (pool : List (Key × List (Nat × QueryRef))) (k2 : Key) (b : Nat) :
    poolEntry (order.foldl (QueryPool.addKey a ref) pool) k2 b =
      if k2 ∈ order ∧ b = a then some ref else poolEntry pool k2 b := by
  induction order generalizing pool with
  | nil => simp
  | cons k ks ih =>
    rw [List.foldl_cons, ih, QueryPool.poolEntry_addKey]
    by_cases h1 : k2 ∈ ks ∧ b = a
    · have h2 : k2 ∈ k :: ks ∧ b = a := ⟨List.mem_cons_of_mem _ h1.1, h1.2⟩
      simp only [h1, h2, and_self, if_true]
    · simp only [h1, if_false]
      by_cases h3 : k2 = k ∧ b = a
      · have h2 : k2 ∈ k :: ks ∧ b = a := ⟨by simp [h3.1], h3.2⟩
        simp only [h3, and_self, if_true, h2]
        simp
      · have h2 : ¬ (k2 ∈ k :: ks ∧ b = a) := by
          rintro ⟨hm, hb⟩
          rcases List.mem_cons.mp hm with hm | hm
          · exact h3 ⟨hm, hb⟩
          · exact h1 ⟨hm, hb⟩
        simp only [h3, h2, if_false]

/-- C15: for every query pool (whose `size` is a Go int below the largest) and every query q
on the heap, `Add(q)` returns; afterwards for each key k of q's results `pool[k]` exists and
`pool[k][q.arrivalTime]` is q, the entries of the index under other keys or other arrival
times are unchanged, and `size` is exactly one more than before. -/
theorem C15_add (qp : QueryPool) (heap : QueryHeap) (query : QueryRef) (q : Query)
    (order : List Key) (hq : heap query = some q)
    (horder : ∀ k, k ∈ order ↔ k ∈ q.keys)
    (hsize : -(2 ^ 63) ≤ qp.size ∧ qp.size + 1 < 2 ^ 63) :
    ∃ qp', qp.Add heap query order = Except.ok qp' ∧
      (∀ k ∈ q.keys, (mapGet qp'.pool k).isSome ∧
        qp'.entry k q.arrivalTime = some query) ∧
      (∀ k b, (k ∉ q.keys ∨ b ≠ q.arrivalTime) → qp'.entry k b = qp.entry k b) ∧
      qp'.size = qp.size + 1 := by
  refine ⟨{ qp with
      pool := order.foldl (QueryPool.addKey q.arrivalTime query) qp.pool,
      size := wrapInt64 (qp.size + 1) }, by simp only [QueryPool.Add, hq], ?_, ?_, ?_⟩
  · intro k hk
    have hko : k ∈ order := (horder k).mpr hk
    have hent : poolEntry (order.foldl (QueryPool.addKey q.arrivalTime query) qp.pool) k
        q.arrivalTime = some query := by
      rw [QueryPool.poolEntry_addKeys]
      simp [hko]
    refine ⟨?_, hent⟩
    unfold poolEntry at hent
    show (mapGet (order.foldl (QueryPool.addKey q.arrivalTime query) qp.pool) k).isSome = true
    cases hm : mapGet (order.foldl (QueryPool.addKey q.arrivalTime query) qp.pool) k with
    | none => simp [hm] at hent
    | some m => rfl
  · intro k b hkb
    show poolEntry (order.foldl (QueryPool.addKey q.arrivalTime query) qp.pool) k b
      = poolEntry qp.pool k b
    rw [QueryPool.poolEntry_addKeys]
    have : ¬ (k ∈ order ∧ b = q.arrivalTime) := by
      rintro ⟨h1, h2⟩
      rcases hkb with h | h
      · exact h ((horder k).mp h1)
      · exact h h2
    simp only [this, if_false]
  · show wrapInt64 (qp.size + 1) = qp.size + 1
    exact wrapInt64_of_range _ (by omega) hsize.2


/-- C15 at a pool that is new: the sample query is added under both of its keys. -/
theorem C15_add_witness :
    sampleHeap 0 = some sampleQuery ∧
    (∀ k, k ∈ [1, 2] ↔ k ∈ sampleQuery.keys) ∧
    (-(2 ^ 63) ≤ NewQueryPool.size ∧ NewQueryPool.size + 1 < 2 ^ 63) ∧
    ∃ qp', NewQueryPool.Add sampleHeap 0 [1, 2] = Except.ok qp' ∧
      (∀ k ∈ sampleQuery.keys, (mapGet qp'.pool k).isSome ∧
        qp'.entry k sampleQuery.arrivalTime = some 0) ∧
      (∀ k b, (k ∉ sampleQuery.keys ∨ b ≠ sampleQuery.arrivalTime) →
        qp'.entry k b = NewQueryPool.entry k b) ∧
      qp'.size = NewQueryPool.size + 1 :=
  ⟨rfl, fun _ => Iff.rfl, ⟨by decide, by decide⟩,
    C15_add NewQueryPool sampleHeap 0 sampleQuery [1, 2] rfl (fun _ => Iff.rfl)
      ⟨by decide, by decide⟩⟩

/-! ## `QueryPool.Update` -/

/-- The index after `delete(pool[k], a)`, the map of `k` being left alone when absent. -/
theorem QueryPool.poolEntry_removeKey (a : Nat) (pool : List (Key × List (Nat × QueryRef)))
    (k k2 : Key) (b : Nat) :
    poolEntry (match mapGet pool k with
        | none => pool
        | some queries => mapSet pool k (mapDelete queries a)) k2 b =
      if k2 = k ∧ b = a then none else poolEntry pool k2 b := by
  cases hm : mapGet pool k with
  | none =>
    show poolEntry pool k2 b = _
    by_cases h : k2 = k ∧ b = a
    · obtain ⟨h1, h2⟩ := h
      subst h1
      subst h2
      simp [poolEntry, hm]
    · simp only [h, if_false]
  | some queries =>
    show poolEntry (mapSet pool k (mapDelete queries a)) k2 b = _
    unfold poolEntry
    by_cases hk : k2 = k
    · subst hk
      simp only [mapGet_mapSet_self, true_and, hm]
      by_cases hb : b = a
      · subst hb
        simp only [mapGet_mapDelete_self, if_true]
      · simp only [hb, if_false]
        exact mapGet_mapDelete_ne _ _ _ hb
    · simp only [hk, false_and, if_false]
      rw [mapGet_mapSet_ne _ _ _ _ hk]

/-- The index after the deletions for a completed query. -/
theorem QueryPool.poolEntry_removeQuery (a : Nat) (keys : List Key)
    (pool : List (Key × List (Nat × QueryRef))) (k2 : Key) (b : Nat) :
    poolEntry (QueryPool.removeQuery a pool keys) k2 b =
      if k2 ∈ keys ∧ b = a then none else poolEntry pool k2 b := by
  unfold QueryPool.removeQuery
  induction keys generalizing pool with
  | nil => simp
  | cons k ks ih =>
    rw [List.foldl_cons, ih, QueryPool.poolEntry_removeKey]
    by_cases h1 : k2 ∈ ks ∧ b = a
    · have h2 : k2 ∈ k :: ks ∧ b = a := ⟨List.mem_cons_of_mem _ h1.1, h1.2⟩
      simp only [h1, h2, and_self, if_true]
    · simp only [h1, if_false]
      by_cases h3 : k2 = k ∧ b = a
      · have h2 : k2 ∈ k :: ks ∧ b = a := ⟨by simp [h3.1], h3.2⟩
        simp only [h3, and_self, if_true, h2]
        simp
      · have h2 : ¬ (k2 ∈ k :: ks ∧ b = a) := by
          rintro ⟨hm, hb⟩
          rcases List.mem_cons.mp hm with hm | hm
          · exact h3 ⟨hm, hb⟩
          · exact h1 ⟨hm, hb⟩
        simp only [h3, h2, if_false]

/-- Replacing the result of a key that has one keeps the keys of the map. -/
theorem resultsSet_keys (m : List (Key × Result)) (k : Key) (r r0 : Result)
    (h : resultsGet m k = some r0) :
    (resultsSet m k r).map Prod.fst = m.map Prod.fst := by
  induction m with
  | nil => simp [resultsGet] at h
  | cons e rest ih =>
    obtain ⟨k', r'⟩ := e
    unfold resultsSet
    unfold resultsGet at h
    by_cases hk : k' = k
    · simp [hk]
    · simp only [hk, if_false] at h ⊢
      simp [ih h]

/-- A key with a result is a key of the query. -/
theorem resultsGet_mem_keys (m : List (Key × Result)) (k : Key) (r0 : Result)
    (h : resultsGet m k = some r0) : k ∈ m.map Prod.fst := by
  induction m with
  | nil => simp [resultsGet] at h
  | cons e rest ih =>
    obtain ⟨k', r'⟩ := e
    unfold resultsGet at h
    by_cases hk : k' = k
    · simp [hk]
    · simp only [hk, if_false] at h
      simp [ih h]

/-- A `Query.Update` call that returns keeps the arrival time and the keys of the query. -/
theorem Query.Update_keeps (env : Numerics) (q : Query) (clock : Nat) (key : Key)
    (msg : Message) (deadline : Nat) (ck : ℚ) (q' : Query) (c u : Bool) (reason : Reason)
    (h : q.Update env clock key msg deadline ck = Except.ok (q', c, u, reason)) :
    q'.arrivalTime = q.arrivalTime ∧ q'.keys = q.keys := by
  unfold Query.Update at h
  cases hget : resultsGet q.currentResults key with
  | none =>
    simp only [hget, Except.ok.injEq, Prod.mk.injEq] at h
    rw [← h.1]
    exact ⟨rfl, rfl⟩
  | some r =>
    simp only [hget] at h
    by_cases htime : clock > (q.arrivalTime + deadline) % uint64Mod
    · simp only [htime, if_true, Except.ok.injEq, Prod.mk.injEq] at h
      rw [← h.1]
      exact ⟨rfl, rfl⟩
    · simp only [htime, if_false] at h
      cases hk : Query.updateKey env q key r msg with
      | error e => simp [hk] at h
      | ok res =>
        obtain ⟨r', kc, ku, kreason⟩ := res
        simp only [hk] at h
        have hkeys := resultsSet_keys q.currentResults key r' r hget
        cases ku with
        | true =>
          simp only [if_true, true_and] at h
          repeat' split at h
          all_goals
            simp only [Except.ok.injEq, Prod.mk.injEq] at h
            rw [← h.1]
            exact ⟨rfl, hkeys⟩
        | false =>
          simp only [Bool.false_eq_true, if_false, false_and] at h
          repeat' split at h
          all_goals
            simp only [Except.ok.injEq, Prod.mk.injEq] at h
            rw [← h.1]
            exact ⟨rfl, hkeys⟩


/-- Reading an outcome: the entry, the query on the heap and the call of `Query.Update`. -/
theorem QueryPool.outcome_eq_some (env : Numerics) (clock : Nat) (key : Key) (msg : Message)
    (deadline : Nat) (ck : ℚ) (qp : QueryPool) (heap : QueryHeap) (a : Nat) (ref : QueryRef)
    (q' : Query) (c u : Bool)
    (h : QueryPool.outcome env clock key msg deadline ck qp heap a = some (ref, q', c, u)) :
    qp.entry key a = some ref ∧
      ∃ q reason, heap ref = some q ∧
        q.Update env clock key msg deadline ck = Except.ok (q', c, u, reason) := by
  unfold QueryPool.outcome at h
  cases he : qp.entry key a with
  | none => simp [he] at h
  | some r =>
    simp only [he] at h
    cases hh : heap r with
    | none => simp [hh] at h
    | some q =>
      simp only [hh] at h
      cases hu : q.Update env clock key msg deadline ck with
      | error e => simp [hu] at h
      | ok res =>
        obtain ⟨q1, c1, u1, reason⟩ := res
        simp only [hu, Option.some.injEq, Prod.mk.injEq] at h
        obtain ⟨h1, h2, h3, h4⟩ := h
        subst h1 h2 h3 h4
        exact ⟨rfl, q, reason, hh, hu⟩

/-- One pass of the loop that returns, for an entry that is present. -/
theorem QueryPool.visit_present (env : Numerics) (clock : Nat) (key : Key) (msg : Message)
    (deadline : Nat) (ck : ℚ) (el : Int) (st st1 : PoolVisit) (a : Nat)
    (h : QueryPool.visit env clock key msg deadline ck el st a = Except.ok st1)
    (hp : (st.qp.entry key a).isSome) :
    ∃ ref q' c u,
      QueryPool.outcome env clock key msg deadline ck st.qp st.heap a
        = some (ref, q', c, u) ∧
      st1.heap = (fun r => if r = ref then some q' else st.heap r) ∧
      st1.qp.pool = (if c then QueryPool.removeQuery a st.qp.pool q'.keys else st.qp.pool) ∧
      st1.qp.size = (if c then wrapInt64 (st.qp.size - 1) else st.qp.size) ∧
      st1.qp.updateCount = wrapInt64 (st.qp.updateCount + 1) ∧
      st1.qp.updateTotalTime = wrapInt64 (st.qp.updateTotalTime + el) ∧
      st1.qp.sensors = st.qp.sensors ∧
      st1.completedQueries
        = (if c then st.completedQueries ++ [ref] else st.completedQueries) ∧
      st1.updatedQueries
        = (if (!c && u) then st.updatedQueries ++ [ref] else st.updatedQueries) := by
  unfold QueryPool.visit at h
  unfold QueryPool.outcome
  cases he : st.qp.entry key a with
  | none => simp [he] at hp
  | some r =>
    simp only [he] at h ⊢
    cases hh : st.heap r with
    | none => simp [hh] at h
    | some q =>
      simp only [hh] at h ⊢
      cases hu : q.Update env clock key msg deadline ck with
      | error e => simp [hu] at h
      | ok res =>
        obtain ⟨q1, c1, u1, reason⟩ := res
        simp only [hu] at h ⊢
        refine ⟨r, q1, c1, u1, rfl, ?_⟩
        cases c1 <;> cases u1 <;>
          simp only [if_true, if_false, Bool.false_eq_true, Except.ok.injEq] at h <;>
          subst h <;>
          simp


/-- The index after one pass of the loop. -/
theorem QueryPool.visit_entry (env : Numerics) (clock : Nat) (key : Key) (msg : Message)
    (deadline : Nat) (ck : ℚ) (el : Int) (st st1 : PoolVisit) (a : Nat)
    (h : QueryPool.visit env clock key msg deadline ck el st a = Except.ok st1)
    (ref : QueryRef) (q' : Query) (c u : Bool)
    (ho : QueryPool.outcome env clock key msg deadline ck st.qp st.heap a
      = some (ref, q', c, u)) (k : Key) (b : Nat) :
    st1.qp.entry k b =
      if c = true ∧ k ∈ q'.keys ∧ b = a then none else st.qp.entry k b := by
  have hp : (st.qp.entry key a).isSome := by
    rw [(QueryPool.outcome_eq_some env clock key msg deadline ck _ _ a ref q' c u ho).1]
    rfl
  obtain ⟨ref2, q2, c2, u2, ho2, -, hpool, -⟩ :=
    QueryPool.visit_present env clock key msg deadline ck el st st1 a h hp
  rw [ho] at ho2
  simp only [Option.some.injEq, Prod.mk.injEq] at ho2
  obtain ⟨h1, h2, h3, h4⟩ := ho2
  subst h1 h2 h3 h4
  unfold QueryPool.entry
  rw [hpool]
  cases c with
  | false => simp
  | true =>
    simp only [if_true, true_and]
    exact QueryPool.poolEntry_removeQuery a q'.keys st.qp.pool k b

/-- The heap after one pass of the loop. -/
theorem QueryPool.visit_heap (env : Numerics) (clock : Nat) (key : Key) (msg : Message)
    (deadline : Nat) (ck : ℚ) (el : Int) (st st1 : PoolVisit) (a : Nat)
    (h : QueryPool.visit env clock key msg deadline ck el st a = Except.ok st1)
    (ref : QueryRef) (q' : Query) (c u : Bool)
    (ho : QueryPool.outcome env clock key msg deadline ck st.qp st.heap a
      = some (ref, q', c, u)) (r : QueryRef) :
    st1.heap r = if r = ref then some q' else st.heap r := by
  have hp : (st.qp.entry key a).isSome := by
    rw [(QueryPool.outcome_eq_some env clock key msg deadline ck _ _ a ref q' c u ho).1]
    rfl
  obtain ⟨ref2, q2, c2, u2, ho2, hheap, -⟩ :=
    QueryPool.visit_present env clock key msg deadline ck el st st1 a h hp
  rw [ho] at ho2
  simp only [Option.some.injEq, Prod.mk.injEq] at ho2
  obtain ⟨h1, h2, h3, h4⟩ := ho2
  subst h1 h2 h3 h4
  rw [hheap]

/-- A pass of the loop keeps the entries of `pool[key]` true to the heap. -/
theorem QueryPool.visit_indexed (env : Numerics) (clock : Nat) (key : Key) (msg : Message)
    (deadline : Nat) (ck : ℚ) (el : Int) (st st1 : PoolVisit) (a : Nat)
    (h : QueryPool.visit env clock key msg deadline ck el st a = Except.ok st1)
    (ref : QueryRef) (q' : Query) (c u : Bool)
    (ho : QueryPool.outcome env clock key msg deadline ck st.qp st.heap a
      = some (ref, q', c, u))
    (hidx : QueryPool.Indexed st.qp st.heap key) :
    QueryPool.Indexed st1.qp st1.heap key := by
  intro b r hb
  obtain ⟨hea, q, reason, hq, hu⟩ :=
    QueryPool.outcome_eq_some env clock key msg deadline ck _ _ a ref q' c u ho
  have hkeep := Query.Update_keeps env q clock key msg deadline ck q' c u reason hu
  rw [QueryPool.visit_entry env clock key msg deadline ck el st st1 a h ref q' c u ho] at hb
  have hb' : st.qp.entry key b = some r := by
    by_cases hc : c = true ∧ key ∈ q'.keys ∧ b = a
    · simp [hc] at hb
    · simpa [hc] using hb
  rw [QueryPool.visit_heap env clock key msg deadline ck el st st1 a h ref q' c u ho]
  obtain ⟨qb, hqb, hab⟩ := hidx b r hb'
  by_cases hr : r = ref
  · subst hr
    rw [hq] at hqb
    cases hqb
    exact ⟨q', by simp, by rw [hkeep.1]; exact hab⟩
  · exact ⟨qb, by simp [hr, hqb], hab⟩

/-- A pass of the loop for one arrival time leaves the outcome for another as it was. -/
theorem QueryPool.visit_outcome_ne (env : Numerics) (clock : Nat) (key : Key) (msg : Message)
    (deadline : Nat) (ck : ℚ) (el : Int) (st st1 : PoolVisit) (a : Nat)
    (h : QueryPool.visit env clock key msg deadline ck el st a = Except.ok st1)
    (ref : QueryRef) (q' : Query) (c u : Bool)
    (ho : QueryPool.outcome env clock key msg deadline ck st.qp st.heap a
      = some (ref, q', c, u))
    (hidx : QueryPool.Indexed st.qp st.heap key) (b : Nat) (hb : b ≠ a) :
    QueryPool.outcome env clock key msg deadline ck st1.qp st1.heap b =
      QueryPool.outcome env clock key msg deadline ck st.qp st.heap b := by
  obtain ⟨hea, q, reason, hq, hu⟩ :=
    QueryPool.outcome_eq_some env clock key msg deadline ck _ _ a ref q' c u ho
  have hent : st1.qp.entry key b = st.qp.entry key b := by
    rw [QueryPool.visit_entry env clock key msg deadline ck el st st1 a h ref q' c u ho]
    simp [hb]
  unfold QueryPool.outcome
  rw [hent]
  cases heb : st.qp.entry key b with
  | none => rfl
  | some rb =>
    simp only
    have hne : rb ≠ ref := by
      intro e
      subst e
      obtain ⟨qa, hqa, haa⟩ := hidx a rb hea
      obtain ⟨qb, hqb, hbb⟩ := hidx b rb heb
      rw [hqa] at hqb
      cases hqb
      exact hb (hbb.symm.trans haa)
    rw [QueryPool.visit_heap env clock key msg deadline ck el st st1 a h ref q' c u ho]
    simp only [hne, if_false]


theorem wrapInt64_wrap_add (x y : Int) :
    wrapInt64 (wrapInt64 x + y) = wrapInt64 (x + y) := by
  unfold wrapInt64
  omega

/-- The loop of `QueryPool.Update` over arrival times that are pairwise distinct and present,
in a pool whose entries under `key` are true to the heap: when the loop returns, its effect
is the one told by the outcomes read off the state before the loop. -/
theorem QueryPool.visitAll_summary (env : Numerics) (clock : Nat) (key : Key) (msg : Message)
    (deadline : Nat) (ck : ℚ) (elapsed : Nat → Int) (order : List Nat) :
    ∀ (st st' : PoolVisit), order.Nodup → QueryPool.Indexed st.qp st.heap key →
      (∀ a ∈ order, (st.qp.entry key a).isSome) →
      QueryPool.visitAll env clock key msg deadline ck elapsed st order = Except.ok st' →
      QueryPool.Summary env clock key msg deadline ck st order st' := by
  induction order with
  | nil =>
    intro st st' _ _ _ h
    simp only [QueryPool.visitAll, Except.ok.injEq] at h
    subst h
    exact
      { completed := by simp
        updated := by simp
        returned := by simp
        heapVisited := by simp
        heapOther := fun _ _ => rfl
        entryRemoved := by simp
        entryKept := fun _ _ _ => rfl
        size := by simp
        updateCount := by simp
        sensors := rfl }
  | cons a rest ih =>
    intro st st' hnd hidx hpres h
    unfold QueryPool.visitAll at h
    cases hv : QueryPool.visit env clock key msg deadline ck (elapsed a) st a with
    | error e => simp [hv] at h
    | ok st1 =>
      simp only [hv] at h
      have hpa := hpres a (List.mem_cons_self _ _)
      obtain ⟨ref, q', c, u, ho, -, -, hsize, hcount, -, hsens, hcomp, hupd⟩ :=
        QueryPool.visit_present env clock key msg deadline ck (elapsed a) st st1 a hv hpa
      have hnd' := List.nodup_cons.mp hnd
      have hne : ∀ b ∈ rest, b ≠ a := fun b hb e => hnd'.1 (e ▸ hb)
      have hout : ∀ b ∈ rest,
          QueryPool.outcome env clock key msg deadline ck st1.qp st1.heap b =
            QueryPool.outcome env clock key msg deadline ck st.qp st.heap b :=
        fun b hb => QueryPool.visit_outcome_ne env clock key msg deadline ck (elapsed a)
          st st1 a hv ref q' c u ho hidx b (hne b hb)
      have hidx1 := QueryPool.visit_indexed env clock key msg deadline ck (elapsed a)
        st st1 a hv ref q' c u ho hidx
      have hent := QueryPool.visit_entry env clock key msg deadline ck (elapsed a)
        st st1 a hv ref q' c u ho
      have hheap := QueryPool.visit_heap env clock key msg deadline ck (elapsed a)
        st st1 a hv ref q' c u ho
      have hpres1 : ∀ b ∈ rest, (st1.qp.entry key b).isSome := by
        intro b hb
        rw [hent]
        simp only [hne b hb, and_false, if_false]
        exact hpres b (List.mem_cons_of_mem _ hb)
      have S := ih st1 st' hnd'.2 hidx1 hpres1 h
      have hfc : rest.filterMap (fun x => QueryPool.completedRef
            (QueryPool.outcome env clock key msg deadline ck st1.qp st1.heap x)) =
          rest.filterMap (fun x => QueryPool.completedRef
            (QueryPool.outcome env clock key msg deadline ck st.qp st.heap x)) :=
        List.filterMap_congr (fun x hx => by rw [hout x hx])
      have hfu : rest.filterMap (fun x => QueryPool.updatedRef
            (QueryPool.outcome env clock key msg deadline ck st1.qp st1.heap x)) =
          rest.filterMap (fun x => QueryPool.updatedRef
            (QueryPool.outcome env clock key msg deadline ck st.qp st.heap x)) :=
        List.filterMap_congr (fun x hx => by rw [hout x hx])
      obtain ⟨hea, q, reason, hq, hu⟩ :=
        QueryPool.outcome_eq_some env clock key msg deadline ck _ _ a ref q' c u ho
      have hkeep := Query.Update_keeps env q clock key msg deadline ck q' c u reason hu
      have hfresh : ∀ b ∈ rest, ∀ rb qb cb ub,
          QueryPool.outcome env clock key msg deadline ck st.qp st.heap b
            = some (rb, qb, cb, ub) → rb ≠ ref := by
        intro b hb rb qb cb ub hob e
        subst e
        have heb := (QueryPool.outcome_eq_some env clock key msg deadline ck _ _ b rb qb
          cb ub hob).1
        obtain ⟨qa, hqa, haa⟩ := hidx a rb hea
        obtain ⟨qb2, hqb, hbb⟩ := hidx b rb heb
        rw [hqa] at hqb
        cases hqb
        exact hne b hb (hbb.symm.trans haa)
      refine
        { completed := ?_, updated := ?_, returned := ?_, heapVisited := ?_,
          heapOther := ?_, entryRemoved := ?_, entryKept := ?_, size := ?_,
          updateCount := ?_, sensors := ?_ }
      · rw [S.completed, hfc, hcomp]
        simp only [List.filterMap_cons, ho, QueryPool.completedRef]
        cases c <;> simp
      · rw [S.updated, hfu, hupd]
        simp only [List.filterMap_cons, ho, QueryPool.updatedRef]
        cases c <;> cases u <;> simp
      · intro b hb
        rcases List.mem_cons.mp hb with e | hb'
        · subst e
          rw [ho]
          rfl
        · rw [← hout b hb']
          exact S.returned b hb'
      · intro b hb rb qb cb ub hob
        rcases List.mem_cons.mp hb with e | hb'
        · subst e
          rw [ho] at hob
          simp only [Option.some.injEq, Prod.mk.injEq] at hob
          obtain ⟨h1, h2, -, -⟩ := hob
          subst h1 h2
          rw [S.heapOther ref, hheap]
          · simp
          · intro x hx rx qx cx ux hox
            rw [hout x hx] at hox
            exact hfresh x hx rx qx cx ux hox
        · rw [← hout b hb'] at hob
          exact S.heapVisited b hb' rb qb cb ub hob
      · intro r hr
        rw [S.heapOther r, hheap]
        · have : r ≠ ref := fun e => hr a (List.mem_cons_self _ _) ref q' c u ho e.symm
          simp only [this, if_false]
        · intro x hx rx qx cx ux hox
          rw [hout x hx] at hox
          exact hr x (List.mem_cons_of_mem _ hx) rx qx cx ux hox
      · intro b hb rb qb ub hob k hk
        rcases List.mem_cons.mp hb with e | hb'
        · subst e
          rw [ho] at hob
          simp only [Option.some.injEq, Prod.mk.injEq] at hob
          obtain ⟨h1, h2, h3, -⟩ := hob
          subst h1 h2 h3
          rw [S.entryKept k b (fun hin => absurd hin hnd'.1), hent]
          simp [hk]
        · rw [← hout b hb'] at hob
          exact S.entryRemoved b hb' rb qb ub hob k hk
      · intro k b hkb
        have h1 : st'.qp.entry k b = st1.qp.entry k b := by
          apply S.entryKept
          intro hb rb qb ub hob
          rw [hout b hb] at hob
          exact hkb (List.mem_cons_of_mem _ hb) rb qb ub hob
        rw [h1, hent]
        have h2 : ¬ (c = true ∧ k ∈ q'.keys ∧ b = a) := by
          rintro ⟨hc, hk, hb⟩
          subst hc hb
          exact hkb (List.mem_cons_self _ _) ref q' u ho hk
        simp only [h2, if_false]
      · have hcons : ((a :: rest).filterMap (fun x => QueryPool.completedRef
              (QueryPool.outcome env clock key msg deadline ck st.qp st.heap x))).length =
            (if c = true then 1 else 0) + (rest.filterMap (fun x => QueryPool.completedRef
              (QueryPool.outcome env clock key msg deadline ck st.qp st.heap x))).length := by
          simp only [List.filterMap_cons, ho, QueryPool.completedRef]
          cases c
          · simp
          · simp
            omega
        rw [S.size, hfc, hsize, hcons]
        generalize (rest.filterMap (fun x => QueryPool.completedRef
          (QueryPool.outcome env clock key msg deadline ck st.qp st.heap x))).length = n
        cases c with
        | false => simp
        | true =>
          rcases Nat.eq_zero_or_pos n with hz | hz
          · subst hz
            simp
          · have h1 : n ≠ 0 := by omega
            have h2 : 1 + n ≠ 0 := by omega
            simp only [h1, h2, if_false, if_true]
            push_cast
            unfold wrapInt64
            omega
      · rw [S.updateCount, hcount]
        simp only [List.length_cons]
        generalize rest.length = n
        rcases Nat.eq_zero_or_pos n with hz | hz
        · subst hz
          simp
        · have h1 : n ≠ 0 := by omega
          have h2 : n + 1 ≠ 0 := by omega
          simp only [h1, h2, if_false]
          push_cast
          unfold wrapInt64
          omega
      · rw [S.sensors, hsens]


/-- The outcome told by the entry, the query on the heap and the call of `Query.Update`. -/
theorem QueryPool.outcome_of (env : Numerics) (clock : Nat) (key : Key) (msg : Message)
    (deadline : Nat) (ck : ℚ) (qp : QueryPool) (heap : QueryHeap) (a : Nat) (ref : QueryRef)
    (q q' : Query) (c u : Bool) (reason : Reason)
    (he : qp.entry key a = some ref) (hq : heap ref = some q)
    (hu : q.Update env clock key msg deadline ck = Except.ok (q', c, u, reason)) :
    QueryPool.outcome env clock key msg deadline ck qp heap a = some (ref, q', c, u) := by
  unfold QueryPool.outcome
  simp only [he, hq, hu]

/-- A pass of the loop returns when the call of `Query.Update` does. -/
theorem QueryPool.visit_returns (env : Numerics) (clock : Nat) (key : Key) (msg : Message)
    (deadline : Nat) (ck : ℚ) (el : Int) (st : PoolVisit) (a : Nat)
    (h : (QueryPool.outcome env clock key msg deadline ck st.qp st.heap a).isSome) :
    ∃ st1, QueryPool.visit env clock key msg deadline ck el st a = Except.ok st1 := by
  cases ho : QueryPool.outcome env clock key msg deadline ck st.qp st.heap a with
  | none => simp [ho] at h
  | some res =>
    obtain ⟨ref, q', c, u⟩ := res
    obtain ⟨hea, q, reason, hq, hu⟩ :=
      QueryPool.outcome_eq_some env clock key msg deadline ck _ _ a ref q' c u ho
    unfold QueryPool.visit
    simp only [hea, hq, hu]
    cases c <;> cases u <;> exact ⟨_, rfl⟩

/-- The loop returns when every call of `Query.Update` it makes does: the calls are told by
the outcomes read off the state before the loop. -/
theorem QueryPool.visitAll_returns (env : Numerics) (clock : Nat) (key : Key) (msg : Message)
    (deadline : Nat) (ck : ℚ) (elapsed : Nat → Int) (order : List Nat) :
    ∀ (st : PoolVisit), order.Nodup → QueryPool.Indexed st.qp st.heap key →
      (∀ a ∈ order,
        (QueryPool.outcome env clock key msg deadline ck st.qp st.heap a).isSome) →
      ∃ st', QueryPool.visitAll env clock key msg deadline ck elapsed st order
        = Except.ok st' := by
  induction order with
  | nil =>
    intro st _ _ _
    exact ⟨st, rfl⟩
  | cons a rest ih =>
    intro st hnd hidx hall
    have hnd' := List.nodup_cons.mp hnd
    have ha := hall a (List.mem_cons_self _ _)
    obtain ⟨st1, hv⟩ :=
      QueryPool.visit_returns env clock key msg deadline ck (elapsed a) st a ha
    cases ho : QueryPool.outcome env clock key msg deadline ck st.qp st.heap a with
    | none => simp [ho] at ha
    | some res =>
      obtain ⟨ref, q', c, u⟩ := res
      have hidx1 := QueryPool.visit_indexed env clock key msg deadline ck (elapsed a)
        st st1 a hv ref q' c u ho hidx
      have hall1 : ∀ b ∈ rest,
          (QueryPool.outcome env clock key msg deadline ck st1.qp st1.heap b).isSome := by
        intro b hb
        rw [QueryPool.visit_outcome_ne env clock key msg deadline ck (elapsed a)
          st st1 a hv ref q' c u ho hidx b (fun e => hnd'.1 (e ▸ hb))]
        exact hall b (List.mem_cons_of_mem _ hb)
      obtain ⟨st', hst'⟩ := ih st1 hnd'.2 hidx1 hall1
      refine ⟨st', ?_⟩
      unfold QueryPool.visitAll
      simp only [hv]
      exact hst'

/-- The deletions for a completed query leave every map of the index in place. -/
theorem QueryPool.mapGet_removeQuery (a : Nat) (keys : List Key)
    (pool : List (Key × List (Nat × QueryRef))) (k2 : Key) :
    (mapGet (QueryPool.removeQuery a pool keys) k2).isSome = (mapGet pool k2).isSome := by
  unfold QueryPool.removeQuery
  induction keys generalizing pool with
  | nil => rfl
  | cons k ks ih =>
    rw [List.foldl_cons, ih]
    cases hm : mapGet pool k with
    | none => rfl
    | some queries =>
      show (mapGet (mapSet pool k (mapDelete queries a)) k2).isSome = _
      by_cases hk : k2 = k
      · subst hk
        rw [mapGet_mapSet_self, hm]
        rfl
      · rw [mapGet_mapSet_ne _ _ _ _ hk]

/-- A pass of the loop leaves every map of the index in place. -/
theorem QueryPool.visit_maps (env : Numerics) (clock : Nat) (key : Key) (msg : Message)
    (deadline : Nat) (ck : ℚ) (el : Int) (st st1 : PoolVisit) (a : Nat)
    (h : QueryPool.visit env clock key msg deadline ck el st a = Except.ok st1) (k : Key) :
    (mapGet st1.qp.pool k).isSome = (mapGet st.qp.pool k).isSome := by
  cases he : st.qp.entry key a with
  | none =>
    unfold QueryPool.visit at h
    simp only [he, Except.ok.injEq] at h
    rw [← h]
  | some r =>
    obtain ⟨ref, q', c, u, -, -, hpool, -⟩ :=
      QueryPool.visit_present env clock key msg deadline ck el st st1 a h (by simp [he])
    rw [hpool]
    cases c with
    | false => rfl
    | true => exact QueryPool.mapGet_removeQuery a q'.keys st.qp.pool k

/-- The loop leaves every map of the index in place. -/
theorem QueryPool.visitAll_maps (env : Numerics) (clock : Nat) (key : Key) (msg : Message)
    (deadline : Nat) (ck : ℚ) (elapsed : Nat → Int) (order : List Nat) :
    ∀ (st st' : PoolVisit),
      QueryPool.visitAll env clock key msg deadline ck elapsed st order = Except.ok st' →
      ∀ k, (mapGet st'.qp.pool k).isSome = (mapGet st.qp.pool k).isSome := by
  induction order with
  | nil =>
    intro st st' h k
    simp only [QueryPool.visitAll, Except.ok.injEq] at h
    rw [← h]
  | cons a rest ih =>
    intro st st' h k
    unfold QueryPool.visitAll at h
    cases hv : QueryPool.visit env clock key msg deadline ck (elapsed a) st a with
    | error e => simp [hv] at h
    | ok st1 =>
      simp only [hv] at h
      rw [ih st1 st' h k]
      exact QueryPool.visit_maps env clock key msg deadline ck (elapsed a) st st1 a hv k

/-- In a pool with a well-formed index the entries under every key are true to the heap. -/
theorem QueryPool.WellIndexed.indexed (qp : QueryPool) (heap : QueryHeap)
    (h : qp.WellIndexed heap) (key : Key) : qp.Indexed heap key := by
  intro a ref he
  obtain ⟨q, hq, ha, -⟩ := h.1 key a ref he
  exact ⟨q, hq, ha⟩

/-- The method `QueryPool.Update` is its loop from empty result slices; without a map under
`key` there is nothing to range over. -/
theorem QueryPool.Update_eq_visitAll (env : Numerics) (qp : QueryPool) (heap : QueryHeap)
    (clock : Nat) (key : Key) (msg : Message) (deadline : Nat) (ck : ℚ)
    (elapsed : Nat → Int) (order : List Nat)
    (hpres : ∀ a ∈ order, (qp.entry key a).isSome) :
    qp.Update env heap clock key msg deadline ck elapsed order =
      QueryPool.visitAll env clock key msg deadline ck elapsed
        { qp := qp, heap := heap, completedQueries := [], updatedQueries := [] } order := by
  unfold QueryPool.Update
  cases hm : mapGet qp.pool key with
  | none =>
    cases order with
    | nil => rfl
    | cons a rest =>
      have := hpres a (List.mem_cons_self _ _)
      simp [QueryPool.entry, poolEntry, hm] at this
  | some m => rfl


theorem QueryPool.completedRef_eq_some (o : Option (QueryRef × Query × Bool × Bool))
    (r : QueryRef) :
    QueryPool.completedRef o = some r ↔ ∃ q' u, o = some (r, q', true, u) := by
  unfold QueryPool.completedRef
  cases o with
  | none => simp
  | some res =>
    obtain ⟨r2, q2, c, u⟩ := res
    cases c <;> simp

theorem QueryPool.updatedRef_eq_some (o : Option (QueryRef × Query × Bool × Bool))
    (r : QueryRef) :
    QueryPool.updatedRef o = some r ↔ ∃ q', o = some (r, q', false, true) := by
  unfold QueryPool.updatedRef
  cases o with
  | none => simp
  | some res =>
    obtain ⟨r2, q2, c, u⟩ := res
    cases c <;> cases u <;> simp

/-- After the loop an entry of the index is either gone or as it was. -/
theorem QueryPool.Summary.entry_sub (env : Numerics) (clock : Nat) (key : Key)
    (msg : Message) (deadline : Nat) (ck : ℚ) (st : PoolVisit) (order : List Nat)
    (st' : PoolVisit) (S : QueryPool.Summary env clock key msg deadline ck st order st')
    (k : Key) (b : Nat) (r : QueryRef) (h : st'.qp.entry k b = some r) :
    st.qp.entry k b = some r := by
  by_cases hP : b ∈ order → ∀ ref q' u,
      QueryPool.outcome env clock key msg deadline ck st.qp st.heap b
        = some (ref, q', true, u) → k ∉ q'.keys
  · rw [← S.entryKept k b hP]
    exact h
  · push_neg at hP
    obtain ⟨hb, ref, q', u, ho, hk⟩ := hP
    rw [S.entryRemoved b hb ref q' u ho k hk] at h
    cases h

/-- Two arrival times whose passes visit the same query are the same. -/
theorem QueryPool.outcome_inj (env : Numerics) (clock : Nat) (key : Key) (msg : Message)
    (deadline : Nat) (ck : ℚ) (qp : QueryPool) (heap : QueryHeap)
    (hidx : qp.Indexed heap key) (a b : Nat) (ref : QueryRef) (q1 q2 : Query)
    (c1 u1 c2 u2 : Bool)
    (h1 : QueryPool.outcome env clock key msg deadline ck qp heap a = some (ref, q1, c1, u1))
    (h2 : QueryPool.outcome env clock key msg deadline ck qp heap b = some (ref, q2, c2, u2)) :
    a = b := by
  have e1 := (QueryPool.outcome_eq_some env clock key msg deadline ck _ _ a ref q1 c1 u1 h1).1
  have e2 := (QueryPool.outcome_eq_some env clock key msg deadline ck _ _ b ref q2 c2 u2 h2).1
  obtain ⟨qa, hqa, haa⟩ := hidx a ref e1
  obtain ⟨qb, hqb, hbb⟩ := hidx b ref e2
  rw [hqa] at hqb
  cases hqb
  exact haa.symm.trans hbb

/-- C16: for every pool whose index is well formed (every entry `pool[k][a]` a query on the
heap with arrival time `a` that requests `k`, arrival times pairwise distinct) and whose
`size` cannot leave the range of a Go int, and every call `QueryPool.Update(clock, key, msg,
deadline, ck)` that returns, ranging over `pool[key]` in any order: every query under
`pool[key]` is passed to `Query.Update` and holds its result afterwards; a query reported
completed is in the completed list, is deleted from `pool[k]` for every key k of its results
and is nowhere in the index; a query not completed keeps its entries, and is in the updated
list when reported updated; the lists hold only such queries, each once, and share no query;
`size` has decreased by exactly the length of the completed list; and when `pool[key]` is
absent the lists are empty and pool and heap unchanged. -/
theorem C16_pool_update (env : Numerics) (qp : QueryPool) (heap : QueryHeap) (clock : Nat)
    (key : Key) (msg : Message) (deadline : Nat) (ck : ℚ) (elapsed : Nat → Int)
    (order : List Nat) (st' : PoolVisit)
    (hwell : qp.WellIndexed heap)
    (horder : qp.RangeOrder key order)
    (hsize : -(2 ^ 63) ≤ qp.size - (order.length : Int) ∧ qp.size < 2 ^ 63)
    (hrun : qp.Update env heap clock key msg deadline ck elapsed order = Except.ok st') :
    (∀ a ref q, qp.entry key a = some ref → heap ref = some q →
      ∃ q' c u reason,
        q.Update env clock key msg deadline ck = Except.ok (q', c, u, reason) ∧
        st'.heap ref = some q' ∧
        (c = true → ref ∈ st'.completedQueries ∧
          (∀ k ∈ q.keys, st'.qp.entry k a = none) ∧
          ∀ k b, st'.qp.entry k b ≠ some ref) ∧
        (c = false → (u = true → ref ∈ st'.updatedQueries) ∧
          ∀ k, st'.qp.entry k a = qp.entry k a)) ∧
    (∀ ref, ref ∈ st'.completedQueries → ∃ a q q' u reason,
      qp.entry key a = some ref ∧ heap ref = some q ∧
      q.Update env clock key msg deadline ck = Except.ok (q', true, u, reason)) ∧
    (∀ ref, ref ∈ st'.updatedQueries → ∃ a q q' reason,
      qp.entry key a = some ref ∧ heap ref = some q ∧
      q.Update env clock key msg deadline ck = Except.ok (q', false, true, reason)) ∧
    st'.completedQueries.Nodup ∧ st'.updatedQueries.Nodup ∧
    st'.qp.size = qp.size - (st'.completedQueries.length : Int) ∧
    (∀ ref, ref ∈ st'.completedQueries → ref ∉ st'.updatedQueries) ∧
    (mapGet qp.pool key = none →
      st' = { qp := qp, heap := heap, completedQueries := [], updatedQueries := [] }) := by
  have hidx := QueryPool.WellIndexed.indexed qp heap hwell key
  have hpres : ∀ a ∈ order, (qp.entry key a).isSome := fun a ha => (horder.2 a).mp ha
  rw [QueryPool.Update_eq_visitAll env qp heap clock key msg deadline ck elapsed order hpres]
    at hrun
  have S := QueryPool.visitAll_summary env clock key msg deadline ck elapsed order
    { qp := qp, heap := heap, completedQueries := [], updatedQueries := [] } st'
    horder.1 hidx hpres hrun
  have hcomp : st'.completedQueries = order.filterMap (fun a => QueryPool.completedRef
      (QueryPool.outcome env clock key msg deadline ck qp heap a)) := by
    rw [S.completed]
    rfl
  have hupd : st'.updatedQueries = order.filterMap (fun a => QueryPool.updatedRef
      (QueryPool.outcome env clock key msg deadline ck qp heap a)) := by
    rw [S.updated]
    rfl
  refine ⟨?_, ?_, ?_, ?_, ?_, ?_, ?_, ?_⟩
  · intro a ref q he hq
    have ha : a ∈ order := (horder.2 a).mpr (by simp [he])
    have hret := S.returned a ha
    cases ho : QueryPool.outcome env clock key msg deadline ck qp heap a with
    | none =>
      change (QueryPool.outcome env clock key msg deadline ck qp heap a).isSome = true at hret
      simp [ho] at hret
    | some res =>
      obtain ⟨ref2, q', c, u⟩ := res
      obtain ⟨he2, q2, reason, hq2, hu⟩ :=
        QueryPool.outcome_eq_some env clock key msg deadline ck _ _ a ref2 q' c u ho
      rw [he] at he2
      cases he2
      rw [hq] at hq2
      cases hq2
      have hkeep := Query.Update_keeps env q clock key msg deadline ck q' c u reason hu
      refine ⟨q', c, u, reason, hu, S.heapVisited a ha ref q' c u ho, ?_, ?_⟩
      · intro hc
        subst hc
        have hrem : ∀ k ∈ q.keys, st'.qp.entry k a = none := fun k hk =>
          S.entryRemoved a ha ref q' u ho k (by rw [hkeep.2]; exact hk)
        refine ⟨?_, hrem, ?_⟩
        · rw [hcomp]
          exact List.mem_filterMap.mpr ⟨a, ha,
            (QueryPool.completedRef_eq_some _ _).mpr ⟨q', u, ho⟩⟩
        · intro k b hkb
          have hkb0 := QueryPool.Summary.entry_sub env clock key msg deadline ck _ order st'
            S k b ref hkb
          obtain ⟨qb, hqb, hab, hkq⟩ := hwell.1 k b ref hkb0
          obtain ⟨qa, hqa, haa, -⟩ := hwell.1 key a ref he
          have hqb' : heap ref = some qb := hqb
          rw [hq] at hqb'
          cases hqb'
          have hqa' : heap ref = some qa := hqa
          rw [hq] at hqa'
          cases hqa'
          have hba : b = a := hab.symm.trans haa
          subst hba
          rw [hrem k hkq] at hkb
          cases hkb
      · intro hc
        subst hc
        refine ⟨?_, ?_⟩
        · intro hu1
          subst hu1
          rw [hupd]
          exact List.mem_filterMap.mpr ⟨a, ha,
            (QueryPool.updatedRef_eq_some _ _).mpr ⟨q', ho⟩⟩
        · intro k
          apply S.entryKept k a
          intro _ r2 q2 u2 ho2
          have ho' : QueryPool.outcome env clock key msg deadline ck qp heap a
              = some (r2, q2, true, u2) := ho2
          rw [ho] at ho'
          simp at ho'
  · intro ref href
    rw [hcomp] at href
    obtain ⟨a, -, hca⟩ := List.mem_filterMap.mp href
    obtain ⟨q', u, ho⟩ := (QueryPool.completedRef_eq_some _ _).mp hca
    obtain ⟨he, q, reason, hq, hu⟩ :=
      QueryPool.outcome_eq_some env clock key msg deadline ck _ _ a ref q' true u ho
    exact ⟨a, q, q', u, reason, he, hq, hu⟩
  · intro ref href
    rw [hupd] at href
    obtain ⟨a, -, hca⟩ := List.mem_filterMap.mp href
    obtain ⟨q', ho⟩ := (QueryPool.updatedRef_eq_some _ _).mp hca
    obtain ⟨he, q, reason, hq, hu⟩ :=
      QueryPool.outcome_eq_some env clock key msg deadline ck _ _ a ref q' false true ho
    exact ⟨a, q, q', reason, he, hq, hu⟩
  · rw [hcomp]
    refine List.Nodup.filterMap ?_ horder.1
    intro a b r ha hb
    obtain ⟨q1, u1, h1⟩ := (QueryPool.completedRef_eq_some _ _).mp (Option.mem_def.mp ha)
    obtain ⟨q2, u2, h2⟩ := (QueryPool.completedRef_eq_some _ _).mp (Option.mem_def.mp hb)
    exact QueryPool.outcome_inj env clock key msg deadline ck qp heap hidx a b r q1 q2
      true u1 true u2 h1 h2
  · rw [hupd]
    refine List.Nodup.filterMap ?_ horder.1
    intro a b r ha hb
    obtain ⟨q1, h1⟩ := (QueryPool.updatedRef_eq_some _ _).mp (Option.mem_def.mp ha)
    obtain ⟨q2, h2⟩ := (QueryPool.updatedRef_eq_some _ _).mp (Option.mem_def.mp hb)
    exact QueryPool.outcome_inj env clock key msg deadline ck qp heap hidx a b r q1 q2
      false true false true h1 h2
  · have hs := S.size
    have hle := List.length_filterMap_le (fun a => QueryPool.completedRef
      (QueryPool.outcome env clock key msg deadline ck qp heap a)) order
    rw [hcomp, hs]
    show (if (order.filterMap (fun a => QueryPool.completedRef
        (QueryPool.outcome env clock key msg deadline ck qp heap a))).length = 0 then qp.size
      else wrapInt64 (qp.size - ((order.filterMap (fun a => QueryPool.completedRef
        (QueryPool.outcome env clock key msg deadline ck qp heap a))).length : Int))) = _
    generalize (order.filterMap (fun a => QueryPool.completedRef
      (QueryPool.outcome env clock key msg deadline ck qp heap a))).length = n at hle
    by_cases hz : n = 0
    · subst hz
      simp
    · simp only [hz, if_false]
      apply wrapInt64_of_range
      · omega
      · omega
  · intro ref hc hu
    rw [hcomp] at hc
    rw [hupd] at hu
    obtain ⟨a, -, hca⟩ := List.mem_filterMap.mp hc
    obtain ⟨b, -, hub⟩ := List.mem_filterMap.mp hu
    obtain ⟨q1, u1, h1⟩ := (QueryPool.completedRef_eq_some _ _).mp hca
    obtain ⟨q2, h2⟩ := (QueryPool.updatedRef_eq_some _ _).mp hub
    have hab := QueryPool.outcome_inj env clock key msg deadline ck qp heap hidx a b ref
      q1 q2 true u1 false true h1 h2
    subst hab
    rw [h1] at h2
    simp at h2
  · intro hm
    cases order with
    | nil =>
      simp only [QueryPool.visitAll, Except.ok.injEq] at hrun
      exact hrun.symm
    | cons a rest =>
      have := hpres a (List.mem_cons_self _ _)
      simp [QueryPool.entry, poolEntry, hm] at this


/-- The entries of the index of the sample pool with two queries. -/
theorem twoPool_entry (k : Key) (a : Nat) :
    twoPool.entry k a =
      if k ∈ [1] ∧ a = 200 then some 1
      else if k ∈ [1, 2] ∧ a = 30 then some 0 else none := by
  show poolEntry ([1].foldl (QueryPool.addKey 200 1)
    ([1, 2].foldl (QueryPool.addKey 30 0) [])) k a = _
  rw [QueryPool.poolEntry_addKeys, QueryPool.poolEntry_addKeys]
  rfl

theorem twoPool_wellIndexed : twoPool.WellIndexed twoHeap := by
  constructor
  · intro k a ref h
    rw [twoPool_entry] at h
    by_cases h1 : k ∈ [1] ∧ a = 200
    · simp only [h1, and_self, if_true, Option.some.injEq] at h
      subst h
      obtain ⟨hk, ha⟩ := h1
      subst ha
      exact ⟨lateQuery, rfl, rfl, hk⟩
    · simp only [h1, if_false] at h
      by_cases h2 : k ∈ [1, 2] ∧ a = 30
      · simp only [h2, and_self, if_true, Option.some.injEq] at h
        subst h
        obtain ⟨hk, ha⟩ := h2
        subst ha
        exact ⟨sampleQuery, rfl, rfl, hk⟩
      · simp only [h2, if_false] at h
        cases h
  · intro k1 k2 a r1 r2 h1 h2
    rw [twoPool_entry] at h1 h2
    by_cases ha : a = 200
    · subst ha
      by_cases hk1 : k1 ∈ [1] <;> by_cases hk2 : k2 ∈ [1] <;> simp_all
    · by_cases hb : a = 30
      · subst hb
        by_cases hk1 : k1 ∈ [1, 2] <;> by_cases hk2 : k2 ∈ [1, 2] <;> simp_all
      · simp [ha, hb] at h1

theorem twoPool_rangeOrder (order : List Nat) (hnd : order.Nodup)
    (hmem : ∀ a, a ∈ order ↔ a = 30 ∨ a = 200) : twoPool.RangeOrder 1 order := by
  refine ⟨hnd, ?_⟩
  intro a
  rw [hmem, twoPool_entry]
  by_cases ha : a = 200
  · subst ha
    simp
  · by_cases hb : a = 30
    · subst hb
      simp
    · simp [ha, hb]

/-- C16 at the sample pool with two queries under key 1: the one that arrived at 30 has
timed out at clock 131 and leaves the index, the one that arrived at 200 stays. -/
theorem C16_pool_update_witness :
    twoPool.WellIndexed twoHeap ∧ twoPool.RangeOrder 1 [30, 200] ∧
    (-(2 ^ 63) ≤ twoPool.size - (([30, 200] : List Nat).length : Int) ∧
      twoPool.size < 2 ^ 63) ∧
    twoPool.Update sampleEnv twoHeap 131 1 ⟨50, 9, "value: 9"⟩ 100 1 (fun _ => 7) [30, 200]
      = Except.ok twoAfter ∧
    (∀ a ref q, twoPool.entry 1 a = some ref → twoHeap ref = some q →
      ∃ q' c u reason,
        q.Update sampleEnv 131 1 ⟨50, 9, "value: 9"⟩ 100 1 = Except.ok (q', c, u, reason) ∧
        twoAfter.heap ref = some q' ∧
        (c = true → ref ∈ twoAfter.completedQueries ∧
          (∀ k ∈ q.keys, twoAfter.qp.entry k a = none) ∧
          ∀ k b, twoAfter.qp.entry k b ≠ some ref) ∧
        (c = false → (u = true → ref ∈ twoAfter.updatedQueries) ∧
          ∀ k, twoAfter.qp.entry k a = twoPool.entry k a)) ∧
    twoAfter.completedQueries.Nodup ∧ twoAfter.updatedQueries.Nodup ∧
    twoAfter.qp.size = twoPool.size - (twoAfter.completedQueries.length : Int) ∧
    (∀ ref, ref ∈ twoAfter.completedQueries → ref ∉ twoAfter.updatedQueries) :=
  have h := C16_pool_update sampleEnv twoPool twoHeap 131 1 ⟨50, 9, "value: 9"⟩ 100 1
    (fun _ => 7) [30, 200] twoAfter twoPool_wellIndexed
    (twoPool_rangeOrder [30, 200] (by decide) (by simp)) ⟨by decide, by decide⟩ rfl
  ⟨twoPool_wellIndexed, twoPool_rangeOrder [30, 200] (by decide) (by simp),
    ⟨by decide, by decide⟩, rfl, h.1, h.2.2.2.1, h.2.2.2.2.1, h.2.2.2.2.2.1,
    h.2.2.2.2.2.2.1⟩

/-- The entry of the index after the loop, told from the state before it. -/
theorem QueryPool.Summary.entry_eq (env : Numerics) (clock : Nat) (key : Key)
    (msg : Message) (deadline : Nat) (ck : ℚ) (st : PoolVisit) (order : List Nat)
    (st' : PoolVisit) (S : QueryPool.Summary env clock key msg deadline ck st order st')
    (k : Key) (b : Nat) :
    ((b ∈ order ∧ ∃ ref q' u,
        QueryPool.outcome env clock key msg deadline ck st.qp st.heap b
          = some (ref, q', true, u) ∧ k ∈ q'.keys) → st'.qp.entry k b = none) ∧
    (¬ (b ∈ order ∧ ∃ ref q' u,
        QueryPool.outcome env clock key msg deadline ck st.qp st.heap b
          = some (ref, q', true, u) ∧ k ∈ q'.keys) →
      st'.qp.entry k b = st.qp.entry k b) := by
  constructor
  · rintro ⟨hb, ref, q', u, ho, hk⟩
    exact S.entryRemoved b hb ref q' u ho k hk
  · intro hP
    apply S.entryKept
    intro hb ref q' u ho hk
    exact hP ⟨hb, ref, q', u, ho, hk⟩

/-- C18: for every pool with a well-formed index (arrival times pairwise distinct) and
every call `QueryPool.Update(clock, key, msg, deadline, ck)` that returns when the range
over `pool[key]` takes one order: the call returns for every other order of the range as
well, and the two results have the same index (the same maps with the same entries), the
same `size`, the same `updateCount`, the same query behind every pointer, and completed
lists, and likewise updated lists, that are permutations of each other. -/
theorem C18_order_independent (env : Numerics) (qp : QueryPool) (heap : QueryHeap)
    (clock : Nat) (key : Key) (msg : Message) (deadline : Nat) (ck : ℚ)
    (elapsed1 elapsed2 : Nat → Int) (order1 order2 : List Nat) (st1 : PoolVisit)
    (hwell : qp.WellIndexed heap)
    (h1 : qp.RangeOrder key order1) (h2 : qp.RangeOrder key order2)
    (hrun : qp.Update env heap clock key msg deadline ck elapsed1 order1 = Except.ok st1) :
    ∃ st2, qp.Update env heap clock key msg deadline ck elapsed2 order2 = Except.ok st2 ∧
      (∀ k a, st1.qp.entry k a = st2.qp.entry k a) ∧
      (∀ k, (mapGet st1.qp.pool k).isSome = (mapGet st2.qp.pool k).isSome) ∧
      st1.qp.size = st2.qp.size ∧
      st1.qp.updateCount = st2.qp.updateCount ∧
      (∀ r, st1.heap r = st2.heap r) ∧
      st1.completedQueries.Perm st2.completedQueries ∧
      st1.updatedQueries.Perm st2.updatedQueries := by
  have hidx := QueryPool.WellIndexed.indexed qp heap hwell key
  have hpres1 : ∀ a ∈ order1, (qp.entry key a).isSome := fun a ha => (h1.2 a).mp ha
  have hpres2 : ∀ a ∈ order2, (qp.entry key a).isSome := fun a ha => (h2.2 a).mp ha
  have hmem : ∀ a, a ∈ order1 ↔ a ∈ order2 := fun a => by rw [h1.2 a, h2.2 a]
  have hperm : order1.Perm order2 := (List.perm_ext_iff_of_nodup h1.1 h2.1).mpr hmem
  rw [QueryPool.Update_eq_visitAll env qp heap clock key msg deadline ck elapsed1 order1
    hpres1] at hrun
  have S1 := QueryPool.visitAll_summary env clock key msg deadline ck elapsed1 order1
    { qp := qp, heap := heap, completedQueries := [], updatedQueries := [] } st1
    h1.1 hidx hpres1 hrun
  obtain ⟨st2, hrun2⟩ := QueryPool.visitAll_returns env clock key msg deadline ck elapsed2
    order2 { qp := qp, heap := heap, completedQueries := [], updatedQueries := [] }
    h2.1 hidx (fun a ha => S1.returned a ((hmem a).mpr ha))
  have S2 := QueryPool.visitAll_summary env clock key msg deadline ck elapsed2 order2
    { qp := qp, heap := heap, completedQueries := [], updatedQueries := [] } st2
    h2.1 hidx hpres2 hrun2
  have hm1 := QueryPool.visitAll_maps env clock key msg deadline ck elapsed1 order1 _ st1
    hrun
  have hm2 := QueryPool.visitAll_maps env clock key msg deadline ck elapsed2 order2 _ st2
    hrun2
  refine ⟨st2, ?_, ?_, ?_, ?_, ?_, ?_, ?_, ?_⟩
  · rw [QueryPool.Update_eq_visitAll env qp heap clock key msg deadline ck elapsed2 order2
      hpres2]
    exact hrun2
  · intro k b
    have e1 := QueryPool.Summary.entry_eq env clock key msg deadline ck _ order1 st1 S1 k b
    have e2 := QueryPool.Summary.entry_eq env clock key msg deadline ck _ order2 st2 S2 k b
    rw [← hmem b] at e2
    by_cases hP : b ∈ order1 ∧ ∃ ref q' u,
        QueryPool.outcome env clock key msg deadline ck qp heap b
          = some (ref, q', true, u) ∧ k ∈ q'.keys
    · rw [e1.1 hP, e2.1 hP]
    · rw [e1.2 hP, e2.2 hP]
  · intro k
    rw [hm1 k, hm2 k]
  · rw [S1.size, S2.size, (hperm.filterMap _).length_eq]
  · rw [S1.updateCount, S2.updateCount, hperm.length_eq]
  · intro r
    by_cases hV : ∃ a ∈ order1, ∃ q' c u,
        QueryPool.outcome env clock key msg deadline ck qp heap a = some (r, q', c, u)
    · obtain ⟨a, ha, q', c, u, ho⟩ := hV
      rw [S1.heapVisited a ha r q' c u ho, S2.heapVisited a ((hmem a).mp ha) r q' c u ho]
    · have hno1 : ∀ a ∈ order1, ∀ ref q' c u,
          QueryPool.outcome env clock key msg deadline ck qp heap a = some (ref, q', c, u) →
          ref ≠ r := by
        intro a ha ref q' c u ho e
        subst e
        exact hV ⟨a, ha, q', c, u, ho⟩
      have hno2 : ∀ a ∈ order2, ∀ ref q' c u,
          QueryPool.outcome env clock key msg deadline ck qp heap a = some (ref, q', c, u) →
          ref ≠ r := fun a ha => hno1 a ((hmem a).mpr ha)
      rw [S1.heapOther r hno1, S2.heapOther r hno2]
  · rw [S1.completed, S2.completed]
    exact (hperm.filterMap _).append_left _
  · rw [S1.updated, S2.updated]
    exact (hperm.filterMap _).append_left _

/-- C18 at the sample pool with two queries under key 1: the range in the order 200, 30
gives the same pool, heap and lists as the range in the order 30, 200. -/
theorem C18_order_independent_witness :
    twoPool.WellIndexed twoHeap ∧ twoPool.RangeOrder 1 [30, 200] ∧
    twoPool.RangeOrder 1 [200, 30] ∧
    twoPool.Update sampleEnv twoHeap 131 1 ⟨50, 9, "value: 9"⟩ 100 1 (fun _ => 7) [30, 200]
      = Except.ok twoAfter ∧
    ∃ st2, twoPool.Update sampleEnv twoHeap 131 1 ⟨50, 9, "value: 9"⟩ 100 1 (fun _ => 3)
        [200, 30] = Except.ok st2 ∧
      (∀ k a, twoAfter.qp.entry k a = st2.qp.entry k a) ∧
      (∀ k, (mapGet twoAfter.qp.pool k).isSome = (mapGet st2.qp.pool k).isSome) ∧
      twoAfter.qp.size = st2.qp.size ∧
      twoAfter.qp.updateCount = st2.qp.updateCount ∧
      (∀ r, twoAfter.heap r = st2.heap r) ∧
      twoAfter.completedQueries.Perm st2.completedQueries ∧
      twoAfter.updatedQueries.Perm st2.updatedQueries :=
  ⟨twoPool_wellIndexed, twoPool_rangeOrder [30, 200] (by decide) (by simp),
    twoPool_rangeOrder [200, 30] (by decide) (by simp [or_comm]), rfl,
    C18_order_independent sampleEnv twoPool twoHeap 131 1 ⟨50, 9, "value: 9"⟩ 100 1
      (fun _ => 7) (fun _ => 3) [30, 200] [200, 30] twoAfter twoPool_wellIndexed
      (twoPool_rangeOrder [30, 200] (by decide) (by simp))
      (twoPool_rangeOrder [200, 30] (by decide) (by simp [or_comm])) rfl⟩


/-- The state after the sample call of `QueryPool.Update`: the query that arrived at 30 has
been returned as completed and the pool holds one query. -/
theorem QueryPool.Update_example :
    twoAfter.completedQueries = [0] ∧ twoAfter.updatedQueries = [] ∧
      twoAfter.qp.size = 1 ∧ twoAfter.qp.updateCount = 2 ∧
      twoAfter.qp.updateTotalTime = 14 ∧
      twoAfter.qp.entry 1 30 = none ∧ twoAfter.qp.entry 2 30 = none ∧
      twoAfter.qp.entry 1 200 = some 1 := by
  refine ⟨rfl, rfl, ?_, ?_, ?_, rfl, rfl, rfl⟩ <;> decide

/-! ## The pool accounting -/

/-- Counting the queries that are not retired, after one more retirement. -/
theorem filter_retire_length (l R : List QueryRef) (ref : QueryRef) (hnd : l.Nodup)
    (hin : ref ∈ l) (hnot : ref ∉ R) :
    (l.filter (fun r => decide (r ∉ R ++ [ref]))).length + 1 =
      (l.filter (fun r => decide (r ∉ R))).length := by
  induction l with
  | nil => simp at hin
  | cons x xs ih =>
    have hnd' := List.nodup_cons.mp hnd
    by_cases hx : x = ref
    · subst hx
      have hcongr : xs.filter (fun r => decide (r ∉ R ++ [x])) =
          xs.filter (fun r => decide (r ∉ R)) := by
        apply List.filter_congr
        intro r hr
        have : r ≠ x := fun e => hnd'.1 (e ▸ hr)
        simp [this]
      have h1 : decide (x ∉ R ++ [x]) = false := by simp
      have h2 : decide (x ∉ R) = true := by simp [hnot]
      rw [List.filter_cons, List.filter_cons, h1, h2, hcongr]
      simp
    · have hin' : ref ∈ xs := by
        rcases List.mem_cons.mp hin with e | e
        · exact absurd e.symm hx
        · exact e
      have ih' := ih hnd'.2 hin'
      have h1 : decide (x ∉ R ++ [ref]) = decide (x ∉ R) := by simp [hx]
      rw [List.filter_cons, List.filter_cons, h1]
      split_ifs
      · simp only [List.length_cons]
        omega
      · exact ih'

/-- Counting the queries that are not retired, after one more query is added. -/
theorem filter_admit_length (l R : List QueryRef) (ref : QueryRef) (hnot : ref ∉ R) :
    ((l ++ [ref]).filter (fun r => decide (r ∉ R))).length =
      (l.filter (fun r => decide (r ∉ R))).length + 1 := by
  have h2 : decide (ref ∉ R) = true := by simp [hnot]
  rw [List.filter_append, List.length_append, List.filter_cons, h2]
  simp

/-- A new pool is accounted for. -/
theorem QueryPool.Accounted.new (heap0 : QueryHeap) :
    QueryPool.Accounted heap0 NewQueryPool heap0 [] [] :=
  { same := fun _ => rfl
    sound := fun k a ref h => by cases h
    complete := fun ref h => by cases h
    retiredNodup := List.nodup_nil
    retiredSub := fun r h => by cases h
    size := rfl }

/-- The accounting is kept when the entries of the index and `size` are. -/
theorem QueryPool.Accounted.keep (heap0 : QueryHeap) (qp : QueryPool) (heap : QueryHeap)
    (added retired : List QueryRef) (hacc : QueryPool.Accounted heap0 qp heap added retired)
    (qp' : QueryPool) (heap' : QueryHeap)
    (hsame : ∀ r, (heap' r).map Query.identity = (heap0 r).map Query.identity)
    (hent : ∀ k b, qp'.entry k b = qp.entry k b) (hsize : qp'.size = qp.size) :
    QueryPool.Accounted heap0 qp' heap' added retired :=
  { same := hsame
    sound := fun k a ref h => hacc.sound k a ref (by rw [← hent]; exact h)
    complete := fun ref hr hnr q0 hq0 k hk => by
      rw [hent]
      exact hacc.complete ref hr hnr q0 hq0 k hk
    retiredNodup := hacc.retiredNodup
    retiredSub := hacc.retiredSub
    size := by rw [hsize]; exact hacc.size }

/-- The accounting is kept when a query leaves the index under all of its keys and `size`
is decremented. -/
theorem QueryPool.Accounted.retire (heap0 : QueryHeap) (qp : QueryPool) (heap : QueryHeap)
    (added retired : List QueryRef) (hacc : QueryPool.Accounted heap0 qp heap added retired)
    (qp' : QueryPool) (heap' : QueryHeap) (ref : QueryRef) (q0 : Query)
    (haddnd : added.Nodup)
    (hdist : ∀ r1 ∈ added, ∀ r2 ∈ added, ∀ q1 q2, heap0 r1 = some q1 → heap0 r2 = some q2 →
      q1.arrivalTime = q2.arrivalTime → r1 = r2)
    (hlen : (added.length : Int) < 2 ^ 63)
    (href : ref ∈ added) (hnr : ref ∉ retired) (hq0 : heap0 ref = some q0)
    (hsame : ∀ r, (heap' r).map Query.identity = (heap0 r).map Query.identity)
    (hent : ∀ k b, qp'.entry k b =
      if k ∈ q0.keys ∧ b = q0.arrivalTime then none else qp.entry k b)
    (hsize : qp'.size = wrapInt64 (qp.size - 1)) :
    QueryPool.Accounted heap0 qp' heap' added (retired ++ [ref]) := by
  refine
    { same := hsame, sound := ?_, complete := ?_, retiredNodup := ?_, retiredSub := ?_,
      size := ?_ }
  · intro k a r h
    rw [hent] at h
    by_cases hc : k ∈ q0.keys ∧ a = q0.arrivalTime
    · simp only [hc, and_self, if_true] at h
      cases h
    · simp only [hc, if_false] at h
      obtain ⟨hr, hnr', q1, hq1, ha, hk⟩ := hacc.sound k a r h
      refine ⟨hr, ?_, q1, hq1, ha, hk⟩
      intro hmem
      rcases List.mem_append.mp hmem with h1 | h1
      · exact hnr' h1
      · have e : r = ref := List.mem_singleton.mp h1
        subst e
        rw [hq0] at hq1
        cases hq1
        exact hc ⟨hk, ha.symm⟩
  · intro r hr hnr' q1 hq1 k hk
    rw [hent]
    have hr1 : r ∉ retired := fun h => hnr' (List.mem_append_left _ h)
    have hne : r ≠ ref := fun e => hnr' (by simp [e])
    have hc : ¬ (k ∈ q0.keys ∧ q1.arrivalTime = q0.arrivalTime) :=
      fun h => hne (hdist r hr ref href q1 q0 hq1 hq0 h.2)
    simp only [hc, if_false]
    exact hacc.complete r hr hr1 q1 hq1 k hk
  · rw [List.nodup_append]
    refine ⟨hacc.retiredNodup, List.nodup_singleton _, ?_⟩
    intro x hx1 hx2
    have e : x = ref := List.mem_singleton.mp hx2
    subst e
    exact hnr hx1
  · intro r hr
    rcases List.mem_append.mp hr with h1 | h1
    · exact hacc.retiredSub r h1
    · have e : r = ref := List.mem_singleton.mp h1
      subst e
      exact href
  · rw [hsize, hacc.size]
    have hc := filter_retire_length added retired ref haddnd href hnr
    have hle := List.length_filter_le (fun r => decide (r ∉ retired)) added
    rw [wrapInt64_of_range]
    · omega
    · omega
    · omega

/-- The accounting after `Add` of a query that was not added before and whose arrival time
no added query has. -/
theorem QueryPool.Add_accounted (heap0 : QueryHeap) (qp : QueryPool) (heap : QueryHeap)
    (added retired : List QueryRef) (hacc : QueryPool.Accounted heap0 qp heap added retired)
    (ref : QueryRef) (order : List Key) (q0 : Query) (qp' : QueryPool)
    (hnew : ref ∉ added) (hq0 : heap0 ref = some q0)
    (horder : ∀ k, k ∈ order ↔ k ∈ q0.keys)
    (hdist : ∀ r ∈ added, ∀ q1, heap0 r = some q1 → q1.arrivalTime ≠ q0.arrivalTime)
    (hlen : (added.length : Int) + 1 < 2 ^ 63)
    (hadd : qp.Add heap ref order = Except.ok qp') :
    QueryPool.Accounted heap0 qp' heap (added ++ [ref]) retired := by
  have hs := hacc.same ref
  rw [hq0] at hs
  cases hh : heap ref with
  | none => simp [hh] at hs
  | some q =>
    simp only [hh, Option.map_some', Option.some.injEq, Query.identity, Prod.mk.injEq] at hs
    unfold QueryPool.Add at hadd
    simp only [hh, Except.ok.injEq] at hadd
    have hent : ∀ k b, qp'.entry k b =
        if k ∈ q0.keys ∧ b = q0.arrivalTime then some ref else qp.entry k b := by
      intro k b
      rw [← hadd]
      show poolEntry (order.foldl (QueryPool.addKey q.arrivalTime ref) qp.pool) k b = _
      rw [QueryPool.poolEntry_addKeys, hs.1]
      have hiff : (k ∈ order ∧ b = q0.arrivalTime) ↔ (k ∈ q0.keys ∧ b = q0.arrivalTime) := by
        rw [horder k]
      by_cases hc : k ∈ q0.keys ∧ b = q0.arrivalTime
      · rw [if_pos (hiff.mpr hc), if_pos hc]
      · rw [if_neg (fun h => hc (hiff.mp h)), if_neg hc]
        rfl
    have hsize : qp'.size = wrapInt64 (qp.size + 1) := by
      rw [← hadd]
    have hnr : ref ∉ retired := fun h => hnew (hacc.retiredSub ref h)
    refine
      { same := hacc.same, sound := ?_, complete := ?_, retiredNodup := hacc.retiredNodup,
        retiredSub := fun r hr => List.mem_append_left _ (hacc.retiredSub r hr),
        size := ?_ }
    · intro k a r h
      rw [hent] at h
      by_cases hc : k ∈ q0.keys ∧ a = q0.arrivalTime
      · simp only [hc, and_self, if_true, Option.some.injEq] at h
        subst h
        exact ⟨by simp, hnr, q0, hq0, hc.2.symm, hc.1⟩
      · simp only [hc, if_false] at h
        obtain ⟨hr, hnr', q1, hq1, ha, hk⟩ := hacc.sound k a r h
        exact ⟨List.mem_append_left _ hr, hnr', q1, hq1, ha, hk⟩
    · intro r hr hnr' q1 hq1 k hk
      rw [hent]
      rcases List.mem_append.mp hr with h1 | h1
      · have hc : ¬ (k ∈ q0.keys ∧ q1.arrivalTime = q0.arrivalTime) :=
          fun h => hdist r h1 q1 hq1 h.2
        simp only [hc, if_false]
        exact hacc.complete r h1 hnr' q1 hq1 k hk
      · have e : r = ref := List.mem_singleton.mp h1
        subst e
        rw [hq0] at hq1
        cases hq1
        simp [hk]
    · rw [hsize, hacc.size, filter_admit_length added retired ref hnr]
      have hle := List.length_filter_le (fun r => decide (r ∉ retired)) added
      rw [wrapInt64_of_range]
      · push_cast
        rfl
      · omega
      · push_cast
        omega

/-- One pass of the loop of `Update` keeps the accounting, the completed query being
retired. -/
theorem QueryPool.visit_accounted (env : Numerics) (clock : Nat) (key : Key) (msg : Message)
    (deadline : Nat) (ck : ℚ) (el : Int) (heap0 : QueryHeap) (added R : List QueryRef)
    (st st1 : PoolVisit) (a : Nat)
    (haddnd : added.Nodup)
    (hdist : ∀ r1 ∈ added, ∀ r2 ∈ added, ∀ q1 q2, heap0 r1 = some q1 → heap0 r2 = some q2 →
      q1.arrivalTime = q2.arrivalTime → r1 = r2)
    (hlen : (added.length : Int) < 2 ^ 63)
    (hacc : QueryPool.Accounted heap0 st.qp st.heap added (R ++ st.completedQueries))
    (hv : QueryPool.visit env clock key msg deadline ck el st a = Except.ok st1) :
    QueryPool.Accounted heap0 st1.qp st1.heap added (R ++ st1.completedQueries) := by
  cases he : st.qp.entry key a with
  | none =>
    unfold QueryPool.visit at hv
    simp only [he, Except.ok.injEq] at hv
    rw [← hv]
    exact hacc
  | some ref0 =>
    obtain ⟨ref, q', c, u, ho, -, -, hsize, -, -, -, hcomp, -⟩ :=
      QueryPool.visit_present env clock key msg deadline ck el st st1 a hv (by simp [he])
    obtain ⟨hea, q, reason, hq, hu⟩ :=
      QueryPool.outcome_eq_some env clock key msg deadline ck _ _ a ref q' c u ho
    have hkeep := Query.Update_keeps env q clock key msg deadline ck q' c u reason hu
    have hent := QueryPool.visit_entry env clock key msg deadline ck el st st1 a hv ref q'
      c u ho
    have hheap := QueryPool.visit_heap env clock key msg deadline ck el st st1 a hv ref q'
      c u ho
    obtain ⟨href, hnr, q0, hq0, harr, hkq0⟩ := hacc.sound key a ref hea
    have hid := hacc.same ref
    rw [hq, hq0] at hid
    simp only [Option.map_some', Option.some.injEq, Query.identity, Prod.mk.injEq] at hid
    have hsame : ∀ r, (st1.heap r).map Query.identity = (heap0 r).map Query.identity := by
      intro r
      rw [hheap]
      by_cases hr : r = ref
      · subst hr
        simp only [if_true, hq0, Option.map_some', Option.some.injEq, Query.identity,
          Prod.mk.injEq]
        exact ⟨hkeep.1.trans hid.1, hkeep.2.trans hid.2⟩
      · simp only [hr, if_false]
        exact hacc.same r
    cases c with
    | false =>
      have hcomp' : st1.completedQueries = st.completedQueries := by
        rw [hcomp]
        rfl
      rw [hcomp']
      exact QueryPool.Accounted.keep heap0 st.qp st.heap added _ hacc st1.qp st1.heap hsame
        (fun k b => by rw [hent]; simp) (by rw [hsize]; rfl)
    | true =>
      have hcomp' : st1.completedQueries = st.completedQueries ++ [ref] := by
        rw [hcomp]
        rfl
      rw [hcomp', ← List.append_assoc]
      refine QueryPool.Accounted.retire heap0 st.qp st.heap added _ hacc st1.qp st1.heap ref
        q0 haddnd hdist hlen href hnr hq0 hsame ?_ (by rw [hsize]; rfl)
      intro k b
      rw [hent, hkeep.2, hid.2, harr]
      simp

/-- The loop of `Update` keeps the accounting, the completed queries being retired. -/
theorem QueryPool.visitAll_accounted (env : Numerics) (clock : Nat) (key : Key)
    (msg : Message) (deadline : Nat) (ck : ℚ) (elapsed : Nat → Int) (heap0 : QueryHeap)
    (added R : List QueryRef) (haddnd : added.Nodup)
    (hdist : ∀ r1 ∈ added, ∀ r2 ∈ added, ∀ q1 q2, heap0 r1 = some q1 → heap0 r2 = some q2 →
      q1.arrivalTime = q2.arrivalTime → r1 = r2)
    (hlen : (added.length : Int) < 2 ^ 63) (order : List Nat) :
    ∀ (st st' : PoolVisit),
      QueryPool.Accounted heap0 st.qp st.heap added (R ++ st.completedQueries) →
      QueryPool.visitAll env clock key msg deadline ck elapsed st order = Except.ok st' →
      QueryPool.Accounted heap0 st'.qp st'.heap added (R ++ st'.completedQueries) := by
  induction order with
  | nil =>
    intro st st' hacc h
    simp only [QueryPool.visitAll, Except.ok.injEq] at h
    rw [← h]
    exact hacc
  | cons a rest ih =>
    intro st st' hacc h
    unfold QueryPool.visitAll at h
    cases hv : QueryPool.visit env clock key msg deadline ck (elapsed a) st a with
    | error e => simp [hv] at h
    | ok st1 =>
      simp only [hv] at h
      exact ih st1 st' (QueryPool.visit_accounted env clock key msg deadline ck (elapsed a)
        heap0 added R st st1 a haddnd hdist hlen hacc hv) h

/-- A call of `QueryPool.Update` that returns keeps the accounting, the queries of its
completed list being retired. -/
theorem QueryPool.Update_accounted (env : Numerics) (qp : QueryPool) (heap : QueryHeap)
    (clock : Nat) (key : Key) (msg : Message) (deadline : Nat) (ck : ℚ)
    (elapsed : Nat → Int) (order : List Nat) (heap0 : QueryHeap)
    (added retired : List QueryRef) (st' : PoolVisit) (haddnd : added.Nodup)
    (hdist : ∀ r1 ∈ added, ∀ r2 ∈ added, ∀ q1 q2, heap0 r1 = some q1 → heap0 r2 = some q2 →
      q1.arrivalTime = q2.arrivalTime → r1 = r2)
    (hlen : (added.length : Int) < 2 ^ 63)
    (hacc : QueryPool.Accounted heap0 qp heap added retired)
    (h : qp.Update env heap clock key msg deadline ck elapsed order = Except.ok st') :
    QueryPool.Accounted heap0 st'.qp st'.heap added (retired ++ st'.completedQueries) := by
  unfold QueryPool.Update at h
  cases hm : mapGet qp.pool key with
  | none =>
    simp only [hm, Except.ok.injEq] at h
    rw [← h]
    simpa using hacc
  | some m =>
    simp only [hm] at h
    exact QueryPool.visitAll_accounted env clock key msg deadline ck elapsed heap0 added
      retired haddnd hdist hlen order _ st' (by simpa using hacc) h


/-- The queries passed to `Add` are those of the `Add` calls. -/
theorem mem_addedRefs (ops : List PoolOp) (r : QueryRef) :
    r ∈ addedRefs ops ↔ ∃ order, PoolOp.add r order ∈ ops := by
  unfold addedRefs
  rw [List.mem_filterMap]
  constructor
  · rintro ⟨op, hop, h⟩
    cases op with
    | add query order =>
      simp only [PoolOp.addedRef, Option.some.injEq] at h
      subst h
      exact ⟨order, hop⟩
    | update clock key newMessage deadline ck elapsed order =>
      simp [PoolOp.addedRef] at h
  · rintro ⟨order, hop⟩
    exact ⟨PoolOp.add r order, hop, rfl⟩

/-- A run of calls that returns keeps the accounting, when every `Add` is made with a query
that has not been added before and whose arrival time no other added query has. -/
theorem PoolState.run_accounted (env : Numerics) (heap0 : QueryHeap) (ops : List PoolOp) :
    ∀ (s s' : PoolState),
      QueryPool.Accounted heap0 s.qp s.heap s.added s.retired →
      (s.added ++ addedRefs ops).Nodup →
      (∀ r1 ∈ s.added ++ addedRefs ops, ∀ r2 ∈ s.added ++ addedRefs ops, ∀ q1 q2,
        heap0 r1 = some q1 → heap0 r2 = some q2 → q1.arrivalTime = q2.arrivalTime →
        r1 = r2) →
      (∀ ref order, PoolOp.add ref order ∈ ops →
        ∃ q, heap0 ref = some q ∧ ∀ k, k ∈ order ↔ k ∈ q.keys) →
      (((s.added ++ addedRefs ops).length : Int) < 2 ^ 63) →
      PoolState.run env s ops = Except.ok s' →
      QueryPool.Accounted heap0 s'.qp s'.heap s'.added s'.retired ∧
        s'.added = s.added ++ addedRefs ops := by
  induction ops with
  | nil =>
    intro s s' hacc _ _ _ _ hrun
    simp only [PoolState.run, Except.ok.injEq] at hrun
    subst hrun
    exact ⟨hacc, by simp [addedRefs]⟩
  | cons op ops ih =>
    intro s s' hacc hnd hdist hq hlen hrun
    unfold PoolState.run at hrun
    cases hst : s.step env op with
    | error e => simp [hst] at hrun
    | ok s1 =>
      simp only [hst] at hrun
      cases op with
      | add ref order =>
        unfold PoolState.step at hst
        cases hadd : s.qp.Add s.heap ref order with
        | error e => simp [hadd] at hst
        | ok qp1 =>
          simp only [hadd, Except.ok.injEq] at hst
          subst hst
          have hlist : s.added ++ addedRefs (PoolOp.add ref order :: ops) =
              (s.added ++ [ref]) ++ addedRefs ops := by
            simp [addedRefs, PoolOp.addedRef]
          rw [hlist] at hnd hdist hlen ⊢
          obtain ⟨q0, hq0, horder⟩ := hq ref order (List.mem_cons_self _ _)
          have hnd1 : (s.added ++ [ref]).Nodup := List.Nodup.of_append_left hnd
          have hnew : ref ∉ s.added := by
            intro h
            exact (List.nodup_append.mp hnd1).2.2 h (List.mem_singleton.mpr rfl)
          have hd : ∀ r ∈ s.added, ∀ q1, heap0 r = some q1 →
              q1.arrivalTime ≠ q0.arrivalTime := by
            intro r hr q1 hq1 e
            have := hdist r (by simp [hr]) ref (by simp) q1 q0 hq1 hq0 e
            subst this
            exact hnew hr
          have hlen1 : (s.added.length : Int) + 1 < 2 ^ 63 := by
            simp only [List.length_append, List.length_singleton] at hlen
            push_cast at hlen
            omega
          have hacc1 := QueryPool.Add_accounted heap0 s.qp s.heap s.added s.retired hacc ref
            order q0 qp1 hnew hq0 horder hd hlen1 hadd
          exact ih { s with qp := qp1, added := s.added ++ [ref] } s' hacc1 hnd hdist
            (fun r o h => hq r o (List.mem_cons_of_mem _ h)) hlen hrun
      | update clock key newMessage deadline ck elapsed order =>
        unfold PoolState.step at hst
        cases hup : s.qp.Update env s.heap clock key newMessage deadline ck elapsed order with
        | error e => simp [hup] at hst
        | ok st =>
          simp only [hup, Except.ok.injEq] at hst
          subst hst
          have hlist : addedRefs
              (PoolOp.update clock key newMessage deadline ck elapsed order :: ops) =
              addedRefs ops := rfl
          rw [hlist] at hnd hdist hlen ⊢
          have hnd1 : s.added.Nodup := List.Nodup.of_append_left hnd
          have hd : ∀ r1 ∈ s.added, ∀ r2 ∈ s.added, ∀ q1 q2, heap0 r1 = some q1 →
              heap0 r2 = some q2 → q1.arrivalTime = q2.arrivalTime → r1 = r2 :=
            fun r1 h1 r2 h2 => hdist r1 (List.mem_append_left _ h1) r2
              (List.mem_append_left _ h2)
          have hlen1 : (s.added.length : Int) < 2 ^ 63 := by
            simp only [List.length_append] at hlen
            push_cast at hlen
            omega
          have hacc1 := QueryPool.Update_accounted env s.qp s.heap clock key newMessage
            deadline ck elapsed order heap0 s.added s.retired st hnd1 hd hlen1 hacc hup
          exact ih { qp := st.qp, heap := st.heap, added := s.added,
                     retired := s.retired ++ st.completedQueries } s' hacc1 hnd hdist
            (fun r o h => hq r o (List.mem_cons_of_mem _ h)) hlen hrun

/-- C17: start from `NewQueryPool()` and make any sequence of `Add` and `Update` calls that
returns, every `Add` with a query that is on the heap, requests at least one key, is added
once and shares its arrival time with no other added query (fewer than 2^63 queries in
all). Then the queries present in the index are pairwise distinct queries whose number is
`size`, and an added query q is present in `pool[k]` if and only if q requests k and has
not been returned in a completed list. -/
theorem C17_pool_accounting (env : Numerics) (heap0 : QueryHeap) (ops : List PoolOp)
    (s : PoolState)
    (hnd : (addedRefs ops).Nodup)
    (hdist : ∀ r1 ∈ addedRefs ops, ∀ r2 ∈ addedRefs ops, ∀ q1 q2,
      heap0 r1 = some q1 → heap0 r2 = some q2 → q1.arrivalTime = q2.arrivalTime → r1 = r2)
    (hq : ∀ ref order, PoolOp.add ref order ∈ ops →
      ∃ q, heap0 ref = some q ∧ (∀ k, k ∈ order ↔ k ∈ q.keys) ∧ q.keys ≠ [])
    (hcount : ((addedRefs ops).length : Int) < 2 ^ 63)
    (hrun : PoolState.run env ⟨NewQueryPool, heap0, [], []⟩ ops = Except.ok s) :
    s.added = addedRefs ops ∧
    (∃ present : List QueryRef, present.Nodup ∧
      (∀ r, r ∈ present ↔ ∃ k a, s.qp.entry k a = some r) ∧
      s.qp.size = (present.length : Int)) ∧
    (∀ ref ∈ s.added, ∃ q, s.heap ref = some q ∧
      ∀ k, (∃ a, s.qp.entry k a = some ref) ↔ (k ∈ q.keys ∧ ref ∉ s.retired)) := by
  obtain ⟨hacc, hadded⟩ := PoolState.run_accounted env heap0 ops
    ⟨NewQueryPool, heap0, [], []⟩ s (QueryPool.Accounted.new heap0)
    (by simpa using hnd) (by simpa using hdist)
    (fun ref order h => by
      obtain ⟨q, h1, h2, -⟩ := hq ref order h
      exact ⟨q, h1, h2⟩)
    (by simpa using hcount) hrun
  have hadded' : s.added = addedRefs ops := by simpa using hadded
  have hquery : ∀ ref ∈ s.added, ∃ q0, heap0 ref = some q0 ∧ q0.keys ≠ [] := by
    intro ref href
    rw [hadded'] at href
    obtain ⟨order, hop⟩ := (mem_addedRefs ops ref).mp href
    obtain ⟨q, h1, -, h3⟩ := hq ref order hop
    exact ⟨q, h1, h3⟩
  refine ⟨hadded', ⟨s.added.filter (fun r => decide (r ∉ s.retired)), ?_, ?_, hacc.size⟩, ?_⟩
  · rw [hadded']
    exact hnd.filter _
  · intro r
    rw [List.mem_filter, decide_eq_true_iff]
    constructor
    · rintro ⟨hr, hnr⟩
      obtain ⟨q0, hq0, hkeys⟩ := hquery r hr
      obtain ⟨k, hk⟩ := List.exists_mem_of_ne_nil _ hkeys
      exact ⟨k, q0.arrivalTime, hacc.complete r hr hnr q0 hq0 k hk⟩
    · rintro ⟨k, a, h⟩
      obtain ⟨hr, hnr, -⟩ := hacc.sound k a r h
      exact ⟨hr, hnr⟩
  · intro ref href
    obtain ⟨q0, hq0, -⟩ := hquery ref href
    have hs := hacc.same ref
    rw [hq0] at hs
    cases hh : s.heap ref with
    | none => simp [hh] at hs
    | some q =>
      simp only [hh, Option.map_some', Option.some.injEq, Query.identity, Prod.mk.injEq]
        at hs
      refine ⟨q, rfl, ?_⟩
      intro k
      constructor
      · rintro ⟨a, h⟩
        obtain ⟨-, hnr, q1, hq1, -, hk⟩ := hacc.sound k a ref h
        rw [hq0] at hq1
        cases hq1
        exact ⟨by rw [hs.2]; exact hk, hnr⟩
      · rintro ⟨hk, hnr⟩
        exact ⟨q0.arrivalTime, hacc.complete ref href hnr q0 hq0 k (by rw [← hs.2]; exact hk)⟩

theorem twoOps_distinct : ∀ r1 ∈ addedRefs twoOps, ∀ r2 ∈ addedRefs twoOps, ∀ q1 q2,
    twoHeap r1 = some q1 → twoHeap r2 = some q2 → q1.arrivalTime = q2.arrivalTime →
    r1 = r2 := by
  intro r1 h1 r2 h2 q1 q2 e1 e2 harr
  have h1' : r1 = 0 ∨ r1 = 1 := by simpa [addedRefs, twoOps, PoolOp.addedRef] using h1
  have h2' : r2 = 0 ∨ r2 = 1 := by simpa [addedRefs, twoOps, PoolOp.addedRef] using h2
  rcases h1' with rfl | rfl <;> rcases h2' with rfl | rfl
  · rfl
  · have a1 : some sampleQuery = some q1 := e1
    have a2 : some lateQuery = some q2 := e2
    cases a1
    cases a2
    exact absurd harr (by decide)
  · have a1 : some lateQuery = some q1 := e1
    have a2 : some sampleQuery = some q2 := e2
    cases a1
    cases a2
    exact absurd harr (by decide)
  · rfl

theorem twoOps_queries : ∀ ref order, PoolOp.add ref order ∈ twoOps →
    ∃ q, twoHeap ref = some q ∧ (∀ k, k ∈ order ↔ k ∈ q.keys) ∧ q.keys ≠ [] := by
  intro ref order h
  have h' : (ref = 0 ∧ order = [1, 2]) ∨ (ref = 1 ∧ order = [1]) := by
    simpa [twoOps] using h
  rcases h' with ⟨rfl, rfl⟩ | ⟨rfl, rfl⟩
  · exact ⟨sampleQuery, rfl, fun _ => Iff.rfl, List.cons_ne_nil 1 [2]⟩
  · exact ⟨lateQuery, rfl, fun _ => Iff.rfl, List.cons_ne_nil 1 []⟩

/-- C17 at the sample history: two queries are added and the one that arrived at 30 is
retired by the call of `Update` at clock 131. -/
theorem C17_pool_accounting_witness :
    (addedRefs twoOps).Nodup ∧
    (∀ r1 ∈ addedRefs twoOps, ∀ r2 ∈ addedRefs twoOps, ∀ q1 q2,
      twoHeap r1 = some q1 → twoHeap r2 = some q2 → q1.arrivalTime = q2.arrivalTime →
      r1 = r2) ∧
    (∀ ref order, PoolOp.add ref order ∈ twoOps →
      ∃ q, twoHeap ref = some q ∧ (∀ k, k ∈ order ↔ k ∈ q.keys) ∧ q.keys ≠ []) ∧
    ((addedRefs twoOps).length : Int) < 2 ^ 63 ∧
    PoolState.run sampleEnv ⟨NewQueryPool, twoHeap, [], []⟩ twoOps = Except.ok twoFinal ∧
    twoFinal.added = addedRefs twoOps ∧
    (∃ present : List QueryRef, present.Nodup ∧
      (∀ r, r ∈ present ↔ ∃ k a, twoFinal.qp.entry k a = some r) ∧
      twoFinal.qp.size = (present.length : Int)) ∧
    (∀ ref ∈ twoFinal.added, ∃ q, twoFinal.heap ref = some q ∧
      ∀ k, (∃ a, twoFinal.qp.entry k a = some ref) ↔
        (k ∈ q.keys ∧ ref ∉ twoFinal.retired)) :=
  ⟨by decide, twoOps_distinct, twoOps_queries, by decide, rfl,
    C17_pool_accounting sampleEnv twoHeap twoOps twoFinal (by decide) twoOps_distinct
      twoOps_queries (by decide) rfl⟩

/-- C17 fails for a query that requests no key: after `Add` of such a query to a new pool
`size` is 1 while the index holds no query at all. -/
theorem C17_counterexample :
    idleHeap 0 = some (NewQuery 30 25 0) ∧ (NewQuery 30 25 0).keys = [] ∧
    ∃ s, PoolState.run sampleEnv ⟨NewQueryPool, idleHeap, [], []⟩ [PoolOp.add 0 []]
        = Except.ok s ∧
      s.added = [0] ∧ s.retired = [] ∧ s.qp.size = 1 ∧ ∀ k a, s.qp.entry k a = none :=
  ⟨rfl, rfl, _, rfl, rfl, rfl, by decide, fun _ _ => rfl⟩


/-! ## The per-key probability -/

/-- For a message created no later than the requested time the `uint64` difference is the
true difference: the value is one minus the library's CDF at `requestTime - creationTime`. -/
theorem ProbTemporalCorrect_eq (env : Numerics) (mean stddev : Int)
    (creationTime requestTime : Nat) (h : creationTime ≤ requestTime)
    (hT : requestTime < uint64Mod) :
    ProbTemporalCorrect env mean stddev creationTime requestTime =
      1 - env.normalCDF mean stddev (requestTime - creationTime) := by
  have hd : (requestTime + uint64Mod - creationTime) % uint64Mod
      = requestTime - creationTime := by
    unfold uint64Mod at *
    omega
  unfold ProbTemporalCorrect
  rw [hd]


/-! ## `OverlappingInterval` -/

/-- The loop of `OverlappingInterval` never lowers `hi` from its zero value, and `lo` stays
zero exactly when every Start is zero. -/
theorem OverlappingInterval_loop (results : List (Key × ResultWithInterval)) :
    ∀ lo : Nat,
      (results.foldl (fun (b : Nat × Nat) e =>
        (if e.2.Start > b.1 then e.2.Start else b.1,
         if e.2.End < b.2 then e.2.End else b.2)) (lo, 0)).2 = 0 ∧
      ((results.foldl (fun (b : Nat × Nat) e =>
        (if e.2.Start > b.1 then e.2.Start else b.1,
         if e.2.End < b.2 then e.2.End else b.2)) (lo, 0)).1 = 0 ↔
        lo = 0 ∧ ∀ e ∈ results, e.2.start = 0) := by
  induction results with
  | nil =>
    intro lo
    simp
  | cons e rest ih =>
    intro lo
    have hhi : (if e.2.End < 0 then e.2.End else 0) = 0 := by simp
    rw [List.foldl_cons]
    simp only [hhi]
    refine ⟨(ih _).1, ?_⟩
    rw [(ih _).2]
    simp only [ResultWithInterval.Start, List.mem_cons, forall_eq_or_imp]
    constructor
    · rintro ⟨h1, h2⟩
      split_ifs at h1 with h
      · omega
      · exact ⟨h1, by omega, h2⟩
    · rintro ⟨h1, h2, h3⟩
      refine ⟨?_, h3⟩
      split_ifs with h
      · exact h2
      · exact h1

/-- C28 fails on the code: for the single interval [1, 5] `OverlappingInterval` returns
(lo 1, hi 0, false) where the claim has hi = 5 and ok = true. For every map `hi` is 0, the
zero value it starts from, and ok holds exactly when every Start is 0. -/
theorem C28_overlapping_interval :
    OverlappingInterval [(1, ⟨none, 1, 5⟩)] = (1, 0, false) ∧
    ∀ results, (OverlappingInterval results).2.1 = 0 ∧
      ((OverlappingInterval results).2.2 = true ↔ ∀ e ∈ results, e.2.start = 0) := by
  refine ⟨by decide, ?_⟩
  intro results
  have h := OverlappingInterval_loop results 0
  unfold OverlappingInterval
  refine ⟨h.1, ?_⟩
  simp only [decide_eq_true_iff]
  rw [h.1, Nat.le_zero, h.2]
  simp

/-! ## Results that `updateKey` does not refine -/

/-- C26 fails on the code: at the requested time 25 the store with the messages (10, seq 1),
(20, seq 2), (50, seq 3) answers (seq 2, OK, 3). A later message (creationTime 60, seq 4)
keeps the invariants of the data model, and `Get` on the store with it still answers
(seq 2, OK, 3), but `updateKey` turns the result's status from OK into HOLE. -/
theorem C26_ok_not_final :
    settledMem.Get 1 25 = some (⟨20, 2, "value: 2"⟩, Status.OK, 3, none) ∧
    DistinctCreationTimes ((settledMem.Put 1 4 60 "value: 4").1.stored 1) ∧
    DistinctSequenceNumbers ((settledMem.Put 1 4 60 "value: 4").1.stored 1) ∧
    MonotoneAgreement ((settledMem.Put 1 4 60 "value: 4").1.stored 1) ∧
    Query.updateKey sampleEnv (NewQuery 30 25 2) 1
        ⟨⟨20, 2, "value: 2"⟩, Status.OK, 3, 1 / 2⟩ ⟨60, 4, "value: 4"⟩ =
      Except.ok (⟨⟨20, 2, "value: 2"⟩, Status.HOLE, 3, 1 / 2⟩, false, false,
        Reason.NotCompleted) ∧
    (settledMem.Put 1 4 60 "value: 4").1.Get 1 25 =
      some (⟨20, 2, "value: 2"⟩, Status.OK, 3, none) :=
  ⟨by decide, by decide, by decide, by decide, rfl, by decide⟩

/-- C27 fails on the code: for a key without any message `Get` answers (∅, NOTFOUND, 0).
When the first message (creationTime 20, seq 1) arrives, `Get` at the requested time 25
answers (seq 1, ODV, 0) on the store with it, but `updateKey` leaves the result as
(seq 1, HOLE, 0). -/
theorem C27_first_message :
    (NewMemtable 0).Get 1 25 = some (Message.empty, Status.NOTFOUND, 0, none) ∧
    Query.updateKey sampleEnv ((NewQuery 30 25 1).SetPool sampleSensors) 1
        ⟨Message.empty, Status.NOTFOUND, 0, 1 / 2⟩ ⟨20, 1, "value: 1"⟩ =
      Except.ok (⟨⟨20, 1, "value: 1"⟩, Status.HOLE, 0,
        ProbTemporalCorrect sampleEnv 1000 400 0 25⟩, false, true, Reason.NotCompleted) ∧
    ((NewMemtable 0).Put 1 1 20 "value: 1").1.Get 1 25 =
      some (⟨20, 1, "value: 1"⟩, Status.ODV, 0, none) :=
  ⟨by decide, rfl, by decide⟩

/-! ## Missing sensor parameters -/

/-- Without sensor parameters for the key, `updateKey` fails with an index out of range
exactly when it comes to replace the message. -/
theorem Query.updateKey_missing_sensors (env : Numerics) (q : Query) (key : Key) (r : Result)
    (n : Message) (sensors : Int → List Int)
    (hpool : q.pool = some sensors) (hs : sensors (intOfKey key) = []) :
    Query.updateKey env q key r n = Except.error Failure.indexOutOfRange ↔
      n.creationTime ≤ q.requestTime ∧ r.message.sequenceNumber ≤ n.sequenceNumber := by
  unfold Query.updateKey
  by_cases h1 : n.creationTime > q.requestTime
  · have h1' : ¬ n.creationTime ≤ q.requestTime := by omega
    simp only [h1, if_true, h1', false_and, iff_false]
    split_ifs <;> simp
  · have h1' : n.creationTime ≤ q.requestTime := by omega
    simp only [h1, if_false, h1', true_and]
    by_cases h2 : n.sequenceNumber < r.message.sequenceNumber
    · have h2' : ¬ r.message.sequenceNumber ≤ n.sequenceNumber := by omega
      simp [h2, h2']
    · have h2' : r.message.sequenceNumber ≤ n.sequenceNumber := by omega
      simp [h2, h2', hpool, hs, sliceIndex]

/-- C21 (as amended): `SetSensors` and `Add` check nothing: for every table of sensor
parameters and every query on the heap `Add` returns, the table being in place. When the
table has no entry for a key of the query, `Query.Update` for that key fails with an index
out of range exactly when the query has not timed out (clock ≤ arrivalTime + deadline, a
`uint64` sum), the message has creationTime ≤ requestTime and a sequence number not below
the current message's; and `QueryPool.Update` fails with it when that query is the first
one its loop visits. -/
theorem C21_missing_sensors (env : Numerics) (qp : QueryPool) (sensors : Int → List Int)
    (heap : QueryHeap) (query : QueryRef) (q : Query) (order : List Key) (key : Key)
    (r : Result) (clock : Nat) (msg : Message) (deadline : Nat) (ck : ℚ)
    (hq : heap query = some q) (hpool : q.pool = some sensors)
    (hmiss : sensors (intOfKey key) = [])
    (hget : resultsGet q.currentResults key = some r) :
    (∃ qp', (qp.SetSensors sensors).Add heap query order = Except.ok qp' ∧
      qp'.sensors = sensors) ∧
    (q.Update env clock key msg deadline ck = Except.error Failure.indexOutOfRange ↔
      clock ≤ (q.arrivalTime + deadline) % uint64Mod ∧
        msg.creationTime ≤ q.requestTime ∧
        r.message.sequenceNumber ≤ msg.sequenceNumber) ∧
    (∀ (qp0 : QueryPool) (elapsed : Nat → Int) (rest : List Nat),
      qp0.entry key q.arrivalTime = some query →
      q.Update env clock key msg deadline ck = Except.error Failure.indexOutOfRange →
      qp0.Update env heap clock key msg deadline ck elapsed (q.arrivalTime :: rest)
        = Except.error Failure.indexOutOfRange) := by
  refine ⟨?_, ?_, ?_⟩
  · refine ⟨{ qp.SetSensors sensors with
        pool := order.foldl (QueryPool.addKey q.arrivalTime query) (qp.SetSensors sensors).pool,
        size := wrapInt64 ((qp.SetSensors sensors).size + 1) }, ?_, rfl⟩
    simp only [QueryPool.Add, hq]
  · by_cases htime : clock ≤ (q.arrivalTime + deadline) % uint64Mod
    · simp only [htime, true_and]
      rw [← Query.updateKey_missing_sensors env q key r msg sensors hpool hmiss]
      obtain ⟨herr, hok⟩ :=
        Query.Update_of_updateKey env q clock key msg deadline ck r hget htime
      constructor
      · intro hu
        cases hk : Query.updateKey env q key r msg with
        | error e =>
          rw [herr e hk] at hu
          cases hu
          rfl
        | ok x =>
          obtain ⟨res, hres⟩ := hok x hk
          rw [hres] at hu
          cases hu
      · intro hk
        exact herr _ hk
    · have hlate : clock > (q.arrivalTime + deadline) % uint64Mod := by omega
      simp only [htime, false_and, iff_false]
      unfold Query.Update
      simp only [hget]
      rw [if_pos hlate]
      intro h
      cases h
  · intro qp0 elapsed rest hentry hfail
    have hmap : ∃ m, mapGet qp0.pool key = some m := by
      unfold QueryPool.entry poolEntry at hentry
      cases hm : mapGet qp0.pool key with
      | none => simp [hm] at hentry
      | some m => exact ⟨m, rfl⟩
    obtain ⟨m, hm⟩ := hmap
    unfold QueryPool.Update
    simp only [hm]
    unfold QueryPool.visitAll QueryPool.visit
    simp only [hentry, hq, hfail]

/-- C21 at the query parked on key 1 with an empty table of sensor parameters: `Add`
returns, and the message (creationTime 22, seq 3) makes `Update` fail. -/
theorem C21_missing_sensors_witness :
    bareHeap 0 = some (parkedQuery ⟨20, 2, "value: 2"⟩ (1 / 2) (1 / 2) (fun _ => [])) ∧
    (∃ qp', (NewQueryPool.SetSensors (fun _ => [])).Add bareHeap 0 [1] = Except.ok qp' ∧
      qp'.sensors = (fun _ => [])) ∧
    ((parkedQuery ⟨20, 2, "value: 2"⟩ (1 / 2) (1 / 2) (fun _ => [])).Update sampleEnv 35 1
        ⟨22, 3, "value: 3"⟩ 100 1 = Except.error Failure.indexOutOfRange ↔
      35 ≤ (30 + 100) % uint64Mod ∧ 22 ≤ 25 ∧ 2 ≤ 3) ∧
    (∀ (qp0 : QueryPool) (elapsed : Nat → Int) (rest : List Nat),
      qp0.entry 1 30 = some 0 →
      (parkedQuery ⟨20, 2, "value: 2"⟩ (1 / 2) (1 / 2) (fun _ => [])).Update sampleEnv 35 1
        ⟨22, 3, "value: 3"⟩ 100 1 = Except.error Failure.indexOutOfRange →
      qp0.Update sampleEnv bareHeap 35 1 ⟨22, 3, "value: 3"⟩ 100 1 elapsed (30 :: rest)
        = Except.error Failure.indexOutOfRange) :=
  ⟨rfl, C21_missing_sensors sampleEnv NewQueryPool (fun _ => []) bareHeap 0
    (parkedQuery ⟨20, 2, "value: 2"⟩ (1 / 2) (1 / 2) (fun _ => [])) [1] 1
    ⟨⟨20, 2, "value: 2"⟩, Status.HOLE, 4, 1 / 2⟩ 35 ⟨22, 3, "value: 3"⟩ 100 1
    rfl rfl rfl rfl⟩

/-- C21 fails on the code: a pool is set up with an empty table of sensor parameters, `Add`
accepts a query on key 1, and the next `QueryPool.Update` for key 1 fails with an index out
of range. -/
theorem C21_counterexample :
    ∃ qp', (NewQueryPool.SetSensors (fun _ => [])).Add bareHeap 0 [1] = Except.ok qp' ∧
      qp'.Update sampleEnv bareHeap 35 1 ⟨22, 3, "value: 3"⟩ 100 1 (fun _ => 0) [30] =
        Except.error Failure.indexOutOfRange :=
  ⟨_, rfl, rfl⟩


/-! ## Merging the generated streams -/

theorem sliceIndex_zero (r : List Int) (h : r ≠ []) : sliceIndex r 0 = Except.ok (r.headD 0) := by
  cases r with
  | nil => exact absurd rfl h
  | cons x xs => simp [sliceIndex]

theorem mergeLoop_spec (a : List (List Int)) :
    ∀ (b result : List (List Int)), (∀ r ∈ a, r ≠ []) → (∀ r ∈ b, r ≠ []) →
      ∃ out, mergeLoop a b result = Except.ok (result ++ out) ∧ out.Perm (a ++ b) ∧
        (SortedRows a → SortedRows b → SortedRows out) := by
  induction a with
  | nil =>
    intro b result _ _
    refine ⟨b, ?_, by simp, fun _ h => h⟩
    rw [mergeLoop]
  | cons x a iha =>
    intro b
    induction b with
    | nil =>
      intro result _ _
      refine ⟨x :: a, ?_, by simp, fun h _ => h⟩
      rw [mergeLoop]
    | cons y b ihb =>
      intro result ha hb
      have hx : x ≠ [] := ha x (List.mem_cons_self _ _)
      have hy : y ≠ [] := hb y (List.mem_cons_self _ _)
      rw [mergeLoop, sliceIndex_zero x hx, sliceIndex_zero y hy]
      simp only
      by_cases hlt : x.headD 0 < y.headD 0
      · simp only [hlt, if_true]
        obtain ⟨out, hout, hperm, hs⟩ := iha (y :: b) (result ++ [x])
          (fun r hr => ha r (List.mem_cons_of_mem _ hr)) hb
        refine ⟨x :: out, ?_, ?_, ?_⟩
        · rw [hout]
          simp
        · exact List.Perm.cons x hperm
        · intro sa sb
          have sa' := List.pairwise_cons.mp sa
          have sb' := List.pairwise_cons.mp sb
          refine List.pairwise_cons.mpr ⟨?_, hs sa'.2 sb⟩
          intro r hr
          have hr' := hperm.subset hr
          rcases List.mem_append.mp hr' with h | h
          · exact sa'.1 r h
          · rcases List.mem_cons.mp h with h | h
            · subst h
              exact le_of_lt hlt
            · exact le_trans (le_of_lt hlt) (sb'.1 r h)
      · simp only [hlt, if_false]
        obtain ⟨out, hout, hperm, hs⟩ := ihb (result ++ [y]) ha
          (fun r hr => hb r (List.mem_cons_of_mem _ hr))
        refine ⟨y :: out, ?_, ?_, ?_⟩
        · rw [hout]
          simp
        · exact (List.Perm.cons y hperm).trans (List.perm_middle.symm)
        · intro sa sb
          have sa' := List.pairwise_cons.mp sa
          have sb' := List.pairwise_cons.mp sb
          refine List.pairwise_cons.mpr ⟨?_, hs sa sb'.2⟩
          intro r hr
          have hr' := hperm.subset hr
          have hyx : y.headD 0 ≤ x.headD 0 := not_lt.mp hlt
          rcases List.mem_append.mp hr' with h | h
          · rcases List.mem_cons.mp h with h | h
            · subst h
              exact hyx
            · exact le_trans hyx (sa'.1 r h)
          · exact sb'.1 r h

theorem mergeTwoSortedSlices_spec (a b : List (List Int))
    (ha : ∀ r ∈ a, r ≠ []) (hb : ∀ r ∈ b, r ≠ []) :
    ∃ out, mergeTwoSortedSlices a b = Except.ok out ∧ out.Perm (a ++ b) ∧
      (SortedRows a → SortedRows b → SortedRows out) := by
  obtain ⟨out, h1, h2, h3⟩ := mergeLoop_spec a b [] ha hb
  exact ⟨out, by simpa [mergeTwoSortedSlices] using h1, h2, h3⟩

theorem mergeKSortedSlices_empty (fuel : Nat) : mergeKSortedSlices fuel [] = none := by
  induction fuel with
  | zero => rfl
  | succ n ih =>
    unfold mergeKSortedSlices
    simp [ih]

theorem mergeKSortedSlices_spec (fuel : Nat) :
    ∀ arr : List (List (List Int)), arr ≠ [] → arr.length ≤ fuel →
      (∀ s ∈ arr, ∀ r ∈ s, r ≠ []) → (∀ s ∈ arr, SortedRows s) →
      ∃ out, mergeKSortedSlices fuel arr = some (Except.ok out) ∧ SortedRows out ∧
        out.Perm arr.flatten := by
  induction fuel with
  | zero =>
    intro arr hne hlen _ _
    cases arr with
    | nil => exact absurd rfl hne
    | cons s rest => simp at hlen
  | succ fuel ih =>
    intro arr hne hlen hrows hsorted
    unfold mergeKSortedSlices
    by_cases h1 : arr.length = 1
    · obtain ⟨s, hs⟩ := List.length_eq_one.mp h1
      subst hs
      refine ⟨s, by simp, hsorted s (by simp), by simp⟩
    · simp only [h1, if_false]
      have hpos : 0 < arr.length := List.length_pos.mpr hne
      have hge : 2 ≤ arr.length := by omega
      have hh : 1 ≤ arr.length / 2 := by omega
      have hh2 : arr.length / 2 < arr.length := by omega
      have htake : (arr.take (arr.length / 2)).length = arr.length / 2 := by
        rw [List.length_take]
        omega
      have hdrop : (arr.drop (arr.length / 2)).length = arr.length - arr.length / 2 := by
        rw [List.length_drop]
      obtain ⟨left, hl, hls, hlp⟩ := ih (arr.take (arr.length / 2))
        (by intro h; rw [h] at htake; simp at htake; omega)
        (by rw [htake]; omega)
        (fun s hs => hrows s (List.mem_of_mem_take hs))
        (fun s hs => hsorted s (List.mem_of_mem_take hs))
      obtain ⟨right, hr, hrs, hrp⟩ := ih (arr.drop (arr.length / 2))
        (by intro h; rw [h] at hdrop; simp at hdrop; omega)
        (by rw [hdrop]; omega)
        (fun s hs => hrows s (List.mem_of_mem_drop hs))
        (fun s hs => hsorted s (List.mem_of_mem_drop hs))
      have hlne : ∀ r ∈ left, r ≠ [] := by
        intro r hr'
        obtain ⟨s, hs, hrs'⟩ := List.mem_flatten.mp (hlp.subset hr')
        exact hrows s (List.mem_of_mem_take hs) r hrs'
      have hrne : ∀ r ∈ right, r ≠ [] := by
        intro r hr'
        obtain ⟨s, hs, hrs'⟩ := List.mem_flatten.mp (hrp.subset hr')
        exact hrows s (List.mem_of_mem_drop hs) r hrs'
      obtain ⟨out, ho, hop, hos⟩ := mergeTwoSortedSlices_spec left right hlne hrne
      refine ⟨out, ?_, hos hls hrs, ?_⟩
      · simp only [hl, hr, ho]
      · have hj : arr.flatten = (arr.take (arr.length / 2)).flatten
            ++ (arr.drop (arr.length / 2)).flatten := by
          rw [← List.flatten_append, List.take_append_drop]
        rw [hj]
        exact hop.trans (List.Perm.append hlp hrp)

theorem digitChar_spec (d : Nat) (h : d < 10) :
    (Nat.digitChar d).isDigit = true ∧ (Nat.digitChar d).toNat - '0'.toNat = d ∧
      Nat.digitChar d ≠ '-' ∧ Nat.digitChar d ≠ '+' := by
  interval_cases d <;> decide

theorem parseDigits_append (xs ys : List Char) :
    ∀ acc, parseDigits (xs ++ ys) acc = (parseDigits xs acc).bind (fun a => parseDigits ys a) := by
  induction xs with
  | nil => intro acc; rfl
  | cons c cs ih =>
    intro acc
    simp only [List.cons_append, parseDigits]
    split_ifs
    · exact ih _
    · rfl

theorem parseDigits_decimalDigits (fuel : Nat) :
    ∀ n, n < fuel → parseDigits (decimalDigits fuel n) 0 = some n := by
  induction fuel with
  | zero => intro n h; omega
  | succ fuel ih =>
    intro n h
    unfold decimalDigits
    by_cases h10 : n < 10
    · simp only [h10, if_true, parseDigits, (digitChar_spec n h10).1,
        (digitChar_spec n h10).2.1]
      simp
    · simp only [h10, if_false]
      have hd := digitChar_spec (n % 10) (Nat.mod_lt _ (by decide))
      rw [parseDigits_append, ih (n / 10) (by omega)]
      simp only [Option.some_bind, parseDigits, hd.1, hd.2.1, if_true]
      congr 1
      omega

theorem decimalDigits_head (fuel : Nat) :
    ∀ n, n < fuel → ∃ d rest, d < 10 ∧ decimalDigits fuel n = Nat.digitChar d :: rest := by
  induction fuel with
  | zero => intro n h; omega
  | succ fuel ih =>
    intro n h
    unfold decimalDigits
    by_cases h10 : n < 10
    · exact ⟨n, [], h10, by simp [h10]⟩
    · obtain ⟨d, rest, hd, hr⟩ := ih (n / 10) (by omega)
      exact ⟨d, rest ++ [Nat.digitChar (n % 10)], hd, by simp [h10, hr]⟩

/-- Reading back what `Itoa` writes. -/
theorem Atoi_Itoa (n : Nat) (h : n < 2 ^ 63) : Atoi (Itoa (n : Int)) = Except.ok (n : Int) := by
  have hneg : ¬ ((n : Int) < 0) := by omega
  obtain ⟨d, rest, hd, hr⟩ := decimalDigits_head (n + 1) n (by omega)
  have hp := parseDigits_decimalDigits (n + 1) n (by omega)
  have hc := digitChar_spec d hd
  have hrange : -(2 ^ 63) ≤ (n : Int) ∧ (n : Int) < 2 ^ 63 := by
    constructor
    · omega
    · exact_mod_cast h
  unfold Atoi Itoa
  simp only [hneg, if_false, Int.natAbs_ofNat]
  rw [hr] at hp ⊢
  simp only [hc.2.2.1, hc.2.2.2, if_false, hp, Option.map_some', Int.ofNat_eq_coe, hrange,
    and_self, if_true]

theorem uint64OfInt_natCast (n : Nat) (h : n < 2 ^ 63) : uint64OfInt (n : Int) = n := by
  unfold uint64OfInt uint64Mod
  omega

theorem parseKeysFrom_map (extras : List Nat) (hex : ∀ e ∈ extras, e < 2 ^ 63) :
    ∀ pre : List String,
      parseKeysFrom (pre ++ extras.map (fun (e : Nat) => Itoa (Int.ofNat e))) pre.length extras.length
        = Except.ok extras := by
  induction extras with
  | nil => intro pre; rfl
  | cons e es ih =>
    intro pre
    have he : e < 2 ^ 63 := hex e (List.mem_cons_self _ _)
    have hrow : pre ++ (e :: es).map (fun (e : Nat) => Itoa (Int.ofNat e)) =
        (pre ++ [Itoa (Int.ofNat e)]) ++ es.map (fun (e : Nat) => Itoa (Int.ofNat e)) := by simp
    have hget : (pre ++ (e :: es).map (fun (e : Nat) => Itoa (Int.ofNat e)))[pre.length]?
        = some (Itoa (Int.ofNat e)) := by
      rw [List.getElem?_append_right (Nat.le_refl _)]
      simp
    have ih' := ih (fun x hx => hex x (List.mem_cons_of_mem _ hx)) (pre ++ [Itoa (Int.ofNat e)])
    rw [← hrow] at ih'
    have hlen : (pre ++ [Itoa (Int.ofNat e)]).length = pre.length + 1 := by simp
    rw [hlen] at ih'
    have hat : Atoi (Itoa (Int.ofNat e)) = Except.ok (e : Int) := Atoi_Itoa e he
    simp only [List.length_cons, parseKeysFrom, atoiField, hget, hat, ih',
      uint64OfInt_natCast e he]

theorem Atoi_zero : Atoi "0" = Except.ok 0 := rfl

theorem Atoi_one : Atoi "1" = Except.ok 1 := rfl

theorem uint8OfInt_bit (b : Nat) (h : b < 256) : uint8OfInt (b : Int) = b := by
  unfold uint8OfInt
  omega

/-- The rows `assembleRow` writes. -/
theorem assembleRow_eq (a k t s : Nat) (extras : List Nat) :
    assembleRow ([(a : Int), (k : Int), (t : Int), (s : Int)] ++ extras.map Int.ofNat) =
      Except.ok ([Itoa (Int.ofNat a), if s = 0 then "0" else "1", Itoa (Int.ofNat k),
          Itoa (Int.ofNat t), Itoa (Int.ofNat s)]
        ++ extras.map (fun (e : Nat) => Itoa (Int.ofNat e))) := by
  have h3 : sliceIndex ([(a : Int), (k : Int), (t : Int), (s : Int)] ++ extras.map Int.ofNat) 3
      = Except.ok (s : Int) := by
    simp [sliceIndex]
  unfold assembleRow
  rw [h3]
  by_cases hs : s = 0
  · subst hs
    simp [slicesInsert, convertIntArrayToStringArray, Function.comp_def]
  · have hs' : ¬ ((s : Int) = 0) := by omega
    simp [slicesInsert, convertIntArrayToStringArray, hs, hs', Function.comp_def]

/-- What `parseInstruction` reads from a row written by `assembleRow`. -/
theorem parseInstruction_eq (a k t s : Nat) (extras : List Nat)
    (ha : a < 2 ^ 63) (hk : k < 2 ^ 63) (ht : t < 2 ^ 63) (hs : s < 2 ^ 63)
    (hex : ∀ e ∈ extras, e < 2 ^ 63) :
    parseInstruction ([Itoa (Int.ofNat a), if s = 0 then "0" else "1", Itoa (Int.ofNat k),
          Itoa (Int.ofNat t), Itoa (Int.ofNat s)]
        ++ extras.map (fun (e : Nat) => Itoa (Int.ofNat e))) =
      Except.ok (a,
        { op := (if s = 0 then Operation.Get else Operation.Put), key := k,
          validTime := t, sequenceNumber := s, numberOfKeys := (extras.length : Int) + 1,
          additionalKeys := (if s = 0 then extras else []) }) := by
  have f0 : atoiField ([Itoa (Int.ofNat a), if s = 0 then "0" else "1", Itoa (Int.ofNat k),
      Itoa (Int.ofNat t), Itoa (Int.ofNat s)]
        ++ extras.map (fun (e : Nat) => Itoa (Int.ofNat e))) 0 = Except.ok (a : Int) := by
    simp only [atoiField, List.cons_append, List.getElem?_cons_zero]
    exact Atoi_Itoa a ha
  have f1 : atoiField ([Itoa (Int.ofNat a), if s = 0 then "0" else "1", Itoa (Int.ofNat k),
      Itoa (Int.ofNat t), Itoa (Int.ofNat s)]
        ++ extras.map (fun (e : Nat) => Itoa (Int.ofNat e))) 1
      = Except.ok (if s = 0 then 0 else 1) := by
    simp only [atoiField, List.cons_append, List.getElem?_cons_succ, List.getElem?_cons_zero]
    split_ifs
    · exact Atoi_zero
    · exact Atoi_one
  have f2 : atoiField ([Itoa (Int.ofNat a), if s = 0 then "0" else "1", Itoa (Int.ofNat k),
      Itoa (Int.ofNat t), Itoa (Int.ofNat s)]
        ++ extras.map (fun (e : Nat) => Itoa (Int.ofNat e))) 2 = Except.ok (k : Int) := by
    simp only [atoiField, List.cons_append, List.getElem?_cons_succ, List.getElem?_cons_zero]
    exact Atoi_Itoa k hk
  have f3 : atoiField ([Itoa (Int.ofNat a), if s = 0 then "0" else "1", Itoa (Int.ofNat k),
      Itoa (Int.ofNat t), Itoa (Int.ofNat s)]
        ++ extras.map (fun (e : Nat) => Itoa (Int.ofNat e))) 3 = Except.ok (t : Int) := by
    simp only [atoiField, List.cons_append, List.getElem?_cons_succ, List.getElem?_cons_zero]
    exact Atoi_Itoa t ht
  have f4 : atoiField ([Itoa (Int.ofNat a), if s = 0 then "0" else "1", Itoa (Int.ofNat k),
      Itoa (Int.ofNat t), Itoa (Int.ofNat s)]
        ++ extras.map (fun (e : Nat) => Itoa (Int.ofNat e))) 4 = Except.ok (s : Int) := by
    simp only [atoiField, List.cons_append, List.getElem?_cons_succ, List.getElem?_cons_zero]
    exact Atoi_Itoa s hs
  have hkeys := parseKeysFrom_map extras hex
    [Itoa (Int.ofNat a), if s = 0 then "0" else "1", Itoa (Int.ofNat k),
      Itoa (Int.ofNat t), Itoa (Int.ofNat s)]
  have hlen : ((([Itoa (Int.ofNat a), if s = 0 then "0" else "1", Itoa (Int.ofNat k),
      Itoa (Int.ofNat t), Itoa (Int.ofNat s)]
        ++ extras.map (fun (e : Nat) => Itoa (Int.ofNat e))).length : Nat) : Int) - 4
      = (extras.length : Int) + 1 := by
    simp only [List.length_append, List.length_cons, List.length_nil, List.length_map]
    push_cast
    omega
  unfold parseInstruction
  rw [f0, f1, f2, f3, f4]
  simp only [hlen, uint64OfInt_natCast a ha, uint64OfInt_natCast k hk,
    uint64OfInt_natCast t ht, uint64OfInt_natCast s hs]
  by_cases hs0 : s = 0
  · subst hs0
    have hop : uint8OfInt (0 : Int) = 0 := by decide
    simp only [if_true, hop, Operation.Get, true_and]
    cases extras with
    | nil => simp
    | cons e es =>
      have hgt : ((e :: es).length : Int) + 1 > 1 := by
        simp only [List.length_cons]
        push_cast
        omega
      have hcount : (((e :: es).length : Int) + 1 - 1).toNat = (e :: es).length := by
        omega
      simp only [hgt, if_true, hcount]
      have hkeys' : parseKeysFrom
          ([Itoa (Int.ofNat a), "0", Itoa (Int.ofNat k), Itoa (Int.ofNat t),
            Itoa (Int.ofNat 0)] ++ (e :: es).map (fun (e : Nat) => Itoa (Int.ofNat e)))
          5 (e :: es).length = Except.ok (e :: es) := by
        simpa using hkeys
      rw [hkeys']
  · have hop : uint8OfInt (1 : Int) = 1 := by decide
    have hne : ¬ ((1 : Nat) = 0) := by decide
    simp only [hs0, if_false, hop, Operation.Get, Operation.Put, hne, false_and]

/-- C23: for every non-empty list of slices of rows, every row with a first element and
every slice in ascending order of it, `mergeKSortedSlices` returns (the recursion ends
within a depth of the number of slices) a slice in ascending order of the first element that
is a permutation of the concatenation of the slices; `mergeTwoSortedSlices` returns such a
slice for two sorted inputs. -/
theorem C23_merge_sorted (arr : List (List (List Int))) (fuel : Nat) (hne : arr ≠ [])
    (hrows : ∀ s ∈ arr, ∀ r ∈ s, r ≠ []) (hsorted : ∀ s ∈ arr, SortedRows s)
    (hfuel : arr.length ≤ fuel) :
    (∃ out, mergeKSortedSlices fuel arr = some (Except.ok out) ∧ SortedRows out ∧
      out.Perm arr.flatten) ∧
    (∀ a b, (∀ r ∈ a, r ≠ []) → (∀ r ∈ b, r ≠ []) → SortedRows a → SortedRows b →
      ∃ out, mergeTwoSortedSlices a b = Except.ok out ∧ SortedRows out ∧
        out.Perm (a ++ b)) := by
  refine ⟨mergeKSortedSlices_spec fuel arr hne hfuel hrows hsorted, ?_⟩
  intro a b ha hb sa sb
  obtain ⟨out, h1, h2, h3⟩ := mergeTwoSortedSlices_spec a b ha hb
  exact ⟨out, h1, h3 sa sb, h2⟩

/-- C23 at three sample streams. -/
theorem C23_merge_sorted_witness :
    sampleStreams ≠ [] ∧ (∀ s ∈ sampleStreams, ∀ r ∈ s, r ≠ []) ∧
    (∀ s ∈ sampleStreams, SortedRows s) ∧ sampleStreams.length ≤ 3 ∧
    ∃ out, mergeKSortedSlices 3 sampleStreams = some (Except.ok out) ∧ SortedRows out ∧
      out.Perm sampleStreams.flatten :=
  ⟨by decide, by decide, by decide, by decide,
    (C23_merge_sorted sampleStreams 3 (by decide) (by decide) (by decide) (by decide)).1⟩

/-- The merge of the three sample streams. -/
theorem mergeKSortedSlices_example :
    mergeKSortedSlices 3 sampleStreams = some (Except.ok
      [[12, 0, 5, 1], [15, 1, 7, 1], [20, 3, 10, 0], [30, 0, 20, 2], [40, 2, 25, 0, 3]]) := by
  simp [mergeKSortedSlices, sampleStreams, mergeTwoSortedSlices, mergeLoop, sliceIndex]

/-- C24: for every generated row [arr, key, time, seq, extraKey1..extraKeyN] of non-negative
Go ints, `assembleRow` returns the columns arr, op, key, time, seq followed by the extra
keys, where op is "0" when seq = 0 and "1" otherwise, and `parseInstruction` on that row sets
the clock to arr and yields op Get when seq = 0 and Put otherwise, the key, validTime and
sequenceNumber of the row, numberOfKeys N + 1, and for a Get the extra keys as additionalKeys
(none for a Put). -/
theorem C24_row_roundtrip (a k t s : Nat) (extras : List Nat)
    (ha : a < 2 ^ 63) (hk : k < 2 ^ 63) (ht : t < 2 ^ 63) (hs : s < 2 ^ 63)
    (hex : ∀ e ∈ extras, e < 2 ^ 63) :
    ∃ row,
      assembleRow ([(a : Int), (k : Int), (t : Int), (s : Int)] ++ extras.map Int.ofNat)
        = Except.ok row ∧
      row = [Itoa (Int.ofNat a), if s = 0 then "0" else "1", Itoa (Int.ofNat k),
          Itoa (Int.ofNat t), Itoa (Int.ofNat s)]
        ++ extras.map (fun (e : Nat) => Itoa (Int.ofNat e)) ∧
      parseInstruction row =
        Except.ok (a,
          { op := (if s = 0 then Operation.Get else Operation.Put), key := k,
            validTime := t, sequenceNumber := s, numberOfKeys := (extras.length : Int) + 1,
            additionalKeys := (if s = 0 then extras else []) }) :=
  ⟨_, assembleRow_eq a k t s extras, rfl, parseInstruction_eq a k t s extras ha hk ht hs hex⟩

/-- C24 at the query row [15, 3, 10, 0, 7, 9]: a Get for the keys 3, 7 and 9. -/
theorem C24_row_roundtrip_witness :
    15 < 2 ^ 63 ∧ 3 < 2 ^ 63 ∧ 10 < 2 ^ 63 ∧ 0 < 2 ^ 63 ∧
    (∀ e ∈ ([7, 9] : List Nat), e < 2 ^ 63) ∧
    ∃ row,
      assembleRow ([((15 : Nat) : Int), ((3 : Nat) : Int), ((10 : Nat) : Int),
          ((0 : Nat) : Int)] ++ ([7, 9] : List Nat).map Int.ofNat) = Except.ok row ∧
      row = [Itoa (Int.ofNat 15), if 0 = 0 then "0" else "1", Itoa (Int.ofNat 3),
          Itoa (Int.ofNat 10), Itoa (Int.ofNat 0)]
        ++ ([7, 9] : List Nat).map (fun (e : Nat) => Itoa (Int.ofNat e)) ∧
      parseInstruction row =
        Except.ok (15,
          { op := (if 0 = 0 then Operation.Get else Operation.Put), key := 3,
            validTime := 10, sequenceNumber := 0,
            numberOfKeys := (([7, 9] : List Nat).length : Int) + 1,
            additionalKeys := (if 0 = 0 then [7, 9] else []) }) :=
  ⟨by decide, by decide, by decide, by decide, by decide,
    C24_row_roundtrip 15 3 10 0 [7, 9] (by decide) (by decide) (by decide) (by decide)
      (by decide)⟩

/-- The row written for the sample query and the one written for a message. -/
theorem assembleRow_example :
    assembleRow [15, 3, 10, 0, 7, 9] = Except.ok ["15", "0", "3", "10", "0", "7", "9"] ∧
    assembleRow [12, 0, 5, 1] = Except.ok ["12", "1", "0", "5", "1"] :=
  ⟨rfl, rfl⟩

/-! ## `updateKey` against `Get` on the store with the new message -/

theorem VersionStore.upTo_append_after (lo hi : List Message) (t : Nat)
    (hlo : ∀ x ∈ lo, x.creationTime ≤ t) (hhi : ∀ x ∈ hi, t < x.creationTime) :
    VersionStore.upTo (lo ++ hi) t = lo ∧ VersionStore.after (lo ++ hi) t = hi := by
  unfold VersionStore.upTo VersionStore.after
  rw [List.filter_append, List.filter_append]
  have h1 : lo.filter (fun x => decide (x.creationTime ≤ t)) = lo :=
    List.filter_eq_self.mpr (fun x hx => by simpa using hlo x hx)
  have h2 : hi.filter (fun x => decide (x.creationTime ≤ t)) = [] :=
    List.filter_eq_nil_iff.mpr (fun x hx => by
      have := hhi x hx
      simp only [decide_eq_true_eq]
      omega)
  have h3 : lo.filter (fun x => decide (t < x.creationTime)) = [] :=
    List.filter_eq_nil_iff.mpr (fun x hx => by
      have := hlo x hx
      simp only [decide_eq_true_eq]
      omega)
  have h4 : hi.filter (fun x => decide (t < x.creationTime)) = hi :=
    List.filter_eq_self.mpr (fun x hx => by simpa using hhi x hx)
  rw [h1, h2, h3, h4]
  simp

/-- The answer for a store split at `t`. -/
theorem Memtable.answer_split (lo hi : List Message) (t : Nat)
    (hlo : ∀ x ∈ lo, x.creationTime ≤ t) (hhi : ∀ x ∈ hi, t < x.creationTime) :
    Memtable.answer (lo ++ hi) t =
      match lo.getLast?, hi.head? with
      | none, none => (Message.empty, Status.NOTFOUND, 0, none)
      | none, some e => (Message.empty, Status.NOTFOUND, e.sequenceNumber, none)
      | some m, none => (m, Status.ODV, 0, none)
      | some m, some x => Memtable.classify m x := by
  unfold Memtable.answer
  rw [(VersionStore.upTo_append_after lo hi t hlo hhi).1,
    (VersionStore.upTo_append_after lo hi t hlo hhi).2]

/-- On a store with pairwise distinct creation times `Get` gives the answer told from the
stored messages. -/
theorem Memtable.Get_eq_answer (mem : Memtable) (k : Key) (t : Nat) (hwf : mem.WF k)
    (hct : DistinctCreationTimes (mem.stored k)) :
    mem.Get k t = some (Memtable.answer (mem.stored k) t) := by
  rcases Memtable.data_of_stored mem k hwf with ⟨hd, hs⟩ | ⟨l, hd, hs, hne, hord, hbl⟩
  · rw [hs]
    unfold Memtable.Get
    simp only [hd]
    rfl
  · rw [hs] at hct ⊢
    unfold VersionStore.Ordered at hord
    unfold DistinctCreationTimes at hct
    rcases Memtable.Get_cases mem k t l hne hd hbl with
      ⟨hall, hg⟩ | ⟨lo, e, hl, hlo, he, hg⟩ | ⟨lo, e, n, hi, hl, hlo, he, hg⟩ |
      ⟨e, hi, hl, he, hg⟩ | ⟨lo, p, e, hi, hl, hlo, hp, he, hg⟩
    · rw [hg]
      have h := Memtable.answer_split l [] t (fun x hx => le_of_lt (hall x hx))
        (fun x hx => by cases hx)
      rw [List.append_nil] at h
      rw [h, List.getLast?_eq_getLast l hne]
      rfl
    · rw [hg]
      have h := Memtable.answer_split l [] t
        (fun x hx => by
          rw [hl] at hx
          rcases List.mem_append.mp hx with h1 | h1
          · exact le_of_lt (hlo x h1)
          · have : x = e := List.mem_singleton.mp h1
            rw [this, he])
        (fun x hx => by cases hx)
      rw [List.append_nil] at h
      rw [h, hl]
      simp
    · rw [hg]
      subst hl
      have ho := List.pairwise_append.mp hord
      have ho2 := List.pairwise_cons.mp ho.2.1
      have hc := List.pairwise_append.mp hct
      have hc2 := List.pairwise_cons.mp hc.2.1
      have h := Memtable.answer_split (lo ++ [e]) (n :: hi) t
        (fun x hx => by
          rcases List.mem_append.mp hx with h1 | h1
          · exact le_of_lt (hlo x h1)
          · have : x = e := List.mem_singleton.mp h1
            rw [this, he])
        (fun x hx => by
          have h1 := ho2.1 x hx
          have h2 := hc2.1 x hx
          omega)
      have hl' : lo ++ e :: n :: hi = (lo ++ [e]) ++ (n :: hi) := by simp
      rw [hl', h]
      simp
    · rw [hg]
      subst hl
      have ho2 := List.pairwise_cons.mp hord
      have h := Memtable.answer_split [] (e :: hi) t (fun x hx => by cases hx)
        (fun x hx => by
          rcases List.mem_cons.mp hx with h1 | h1
          · rw [h1]
            exact he
          · have := ho2.1 x h1
            omega)
      rw [List.nil_append] at h
      rw [h]
      rfl
    · rw [hg]
      subst hl
      have ho := List.pairwise_append.mp hord
      have ho2 := List.pairwise_cons.mp ho.2.1
      have ho3 := List.pairwise_cons.mp ho2.2
      have h := Memtable.answer_split (lo ++ [p]) (e :: hi) t
        (fun x hx => by
          rcases List.mem_append.mp hx with h1 | h1
          · exact le_of_lt (hlo x h1)
          · have : x = p := List.mem_singleton.mp h1
            rw [this]
            omega)
        (fun x hx => by
          rcases List.mem_cons.mp hx with h1 | h1
          · rw [h1]
            exact he
          · have := ho3.1 x h1
            omega)
      have hl' : lo ++ p :: e :: hi = (lo ++ [p]) ++ (e :: hi) := by simp
      rw [hl', h]
      simp

theorem VersionStore.mem_upTo (l : List Message) (t : Nat) (x : Message) :
    x ∈ VersionStore.upTo l t ↔ x ∈ l ∧ x.creationTime ≤ t := by
  unfold VersionStore.upTo
  simp [List.mem_filter]

theorem VersionStore.mem_after (l : List Message) (t : Nat) (x : Message) :
    x ∈ VersionStore.after l t ↔ x ∈ l ∧ t < x.creationTime := by
  unfold VersionStore.after
  simp [List.mem_filter]

/-- The last message created no later than `t` has the largest creation time of these. -/
theorem VersionStore.upTo_getLast (l : List Message) (t : Nat) (hord : VersionStore.Ordered l)
    (m : Message) (h : (VersionStore.upTo l t).getLast? = some m) :
    m ∈ l ∧ m.creationTime ≤ t ∧
      ∀ x ∈ l, x.creationTime ≤ t → x.creationTime ≤ m.creationTime := by
  have hne : VersionStore.upTo l t ≠ [] := by
    intro e
    rw [e] at h
    cases h
  rw [List.getLast?_eq_getLast _ hne] at h
  have hm : m = (VersionStore.upTo l t).getLast hne := (Option.some.inj h).symm
  have hmem : m ∈ VersionStore.upTo l t := by
    rw [hm]
    exact List.getLast_mem hne
  have hord' : VersionStore.Ordered (VersionStore.upTo l t) := by
    unfold VersionStore.Ordered VersionStore.upTo
    exact List.Pairwise.filter _ hord
  refine ⟨((VersionStore.mem_upTo l t m).mp hmem).1, ((VersionStore.mem_upTo l t m).mp hmem).2,
    ?_⟩
  intro x hx hxt
  rw [hm]
  exact VersionStore.le_getLast _ hne hord' x ((VersionStore.mem_upTo l t x).mpr ⟨hx, hxt⟩)

/-- A stored message created no later than `t` with the largest creation time of these is
the last one. -/
theorem VersionStore.upTo_getLast_of_max (l : List Message) (t : Nat)
    (hord : VersionStore.Ordered l) (hct : DistinctCreationTimes l) (m : Message)
    (hm : m ∈ l) (hle : m.creationTime ≤ t)
    (hmax : ∀ x ∈ l, x.creationTime ≤ t → x.creationTime ≤ m.creationTime) :
    (VersionStore.upTo l t).getLast? = some m := by
  have hmem : m ∈ VersionStore.upTo l t := (VersionStore.mem_upTo l t m).mpr ⟨hm, hle⟩
  have hne : VersionStore.upTo l t ≠ [] := List.ne_nil_of_mem hmem
  have h := List.getLast?_eq_getLast _ hne
  obtain ⟨h1, h2, h3⟩ := VersionStore.upTo_getLast l t hord _ h
  have heq := DistinctCreationTimes.eq_of_ct l hct _ m h1 hm
    (le_antisymm (hmax _ h1 h2) (h3 m hm hle))
  rw [h, heq]

theorem VersionStore.upTo_eq_nil (l : List Message) (t : Nat) :
    VersionStore.upTo l t = [] ↔ ∀ x ∈ l, t < x.creationTime := by
  unfold VersionStore.upTo
  rw [List.filter_eq_nil_iff]
  constructor
  · intro h x hx
    have := h x hx
    simp only [decide_eq_true_eq] at this
    omega
  · intro h x hx
    have := h x hx
    simp only [decide_eq_true_eq]
    omega

/-- The first message created after `t` has the smallest creation time of these. -/
theorem VersionStore.after_head (l : List Message) (t : Nat) (hord : VersionStore.Ordered l)
    (x : Message) (h : (VersionStore.after l t).head? = some x) :
    x ∈ l ∧ t < x.creationTime ∧
      ∀ y ∈ l, t < y.creationTime → x.creationTime ≤ y.creationTime := by
  have hord' : VersionStore.Ordered (VersionStore.after l t) := by
    unfold VersionStore.Ordered VersionStore.after
    exact List.Pairwise.filter _ hord
  cases hl : VersionStore.after l t with
  | nil =>
    rw [hl] at h
    cases h
  | cons z zs =>
    rw [hl] at h hord'
    have hz : z = x := Option.some.inj h
    subst hz
    have hmem : z ∈ VersionStore.after l t := by
      rw [hl]
      exact List.mem_cons_self _ _
    refine ⟨((VersionStore.mem_after l t z).mp hmem).1,
      ((VersionStore.mem_after l t z).mp hmem).2, ?_⟩
    intro y hy hyt
    have hy' : y ∈ z :: zs := by
      rw [← hl]
      exact (VersionStore.mem_after l t y).mpr ⟨hy, hyt⟩
    rcases List.mem_cons.mp hy' with e | e
    · rw [e]
    · exact (List.pairwise_cons.mp hord').1 y e

/-- A stored message created after `t` with the smallest creation time of these is the
first one. -/
theorem VersionStore.after_head_of_min (l : List Message) (t : Nat)
    (hord : VersionStore.Ordered l) (hct : DistinctCreationTimes l) (x : Message)
    (hx : x ∈ l) (hlt : t < x.creationTime)
    (hmin : ∀ y ∈ l, t < y.creationTime → x.creationTime ≤ y.creationTime) :
    (VersionStore.after l t).head? = some x := by
  have hmem : x ∈ VersionStore.after l t := (VersionStore.mem_after l t x).mpr ⟨hx, hlt⟩
  cases hl : VersionStore.after l t with
  | nil =>
    rw [hl] at hmem
    cases hmem
  | cons z zs =>
    have hh : (VersionStore.after l t).head? = some z := by rw [hl]; rfl
    obtain ⟨h1, h2, h3⟩ := VersionStore.after_head l t hord z hh
    have heq := DistinctCreationTimes.eq_of_ct l hct z x h1 hx
      (le_antisymm (h3 x hx hlt) (hmin z h1 h2))
    rw [heq]
    rfl

theorem VersionStore.after_eq_nil (l : List Message) (t : Nat) :
    VersionStore.after l t = [] ↔ ∀ x ∈ l, x.creationTime ≤ t := by
  unfold VersionStore.after
  rw [List.filter_eq_nil_iff]
  constructor
  · intro h x hx
    have := h x hx
    simp only [decide_eq_true_eq] at this
    omega
  · intro h x hx
    have := h x hx
    simp only [decide_eq_true_eq]
    omega

/-- The store after an insertion is the store with the message put in at some place. -/
theorem VersionStore.Insert_split (l : List Message) (n : Message) :
    ∃ l1 l2, l = l1 ++ l2 ∧ VersionStore.Insert l n = l1 ++ n :: l2 := by
  induction l with
  | nil => exact ⟨[], [], rfl, rfl⟩
  | cons x xs ih =>
    unfold VersionStore.Insert
    by_cases h : n.ExtractKey < x.ExtractKey
    · exact ⟨[], x :: xs, rfl, by simp [h]⟩
    · obtain ⟨l1, l2, h1, h2⟩ := ih
      refine ⟨x :: l1, l2, by rw [h1]; rfl, ?_⟩
      simp only [h, if_false, h2]
      rfl

theorem VersionStore.Insert_sublist (l : List Message) (n : Message) :
    l.Sublist (VersionStore.Insert l n) := by
  obtain ⟨l1, l2, h1, h2⟩ := VersionStore.Insert_split l n
  subst h1
  rw [h2]
  exact List.Sublist.append (List.Sublist.refl l1) (List.sublist_cons_self n l2)

/-- A message created after `t` does not change the messages created no later than `t`. -/
theorem VersionStore.upTo_Insert_of_gt (l : List Message) (n : Message) (t : Nat)
    (h : t < n.creationTime) :
    VersionStore.upTo (VersionStore.Insert l n) t = VersionStore.upTo l t := by
  obtain ⟨l1, l2, h1, h2⟩ := VersionStore.Insert_split l n
  have hn : decide (n.creationTime ≤ t) = false := by
    simp only [decide_eq_false_iff_not]
    omega
  subst h1
  rw [h2]
  unfold VersionStore.upTo
  rw [List.filter_append, List.filter_append, List.filter_cons, hn]
  rfl

/-- A message created no later than `t` does not change the messages created after `t`. -/
theorem VersionStore.after_Insert_of_le (l : List Message) (n : Message) (t : Nat)
    (h : n.creationTime ≤ t) :
    VersionStore.after (VersionStore.Insert l n) t = VersionStore.after l t := by
  obtain ⟨l1, l2, h1, h2⟩ := VersionStore.Insert_split l n
  have hn : decide (t < n.creationTime) = false := by
    simp only [decide_eq_false_iff_not]
    omega
  subst h1
  rw [h2]
  unfold VersionStore.after
  rw [List.filter_append, List.filter_append, List.filter_cons, hn]
  rfl

theorem uint64_succ_mod (a b : Nat) (h1 : a < b) (h2 : b < uint64Mod) :
    (a + 1) % uint64Mod = a + 1 := by
  unfold uint64Mod at *
  omega

theorem uint64_pred_mod (s : Nat) (h1 : 1 ≤ s) (h2 : s < uint64Mod) :
    (s + uint64Mod - 1) % uint64Mod = s - 1 := by
  unfold uint64Mod at *
  omega

theorem Memtable.classify_ok (a b : Message)
    (h : b.sequenceNumber = (a.sequenceNumber + 1) % uint64Mod) :
    Memtable.classify a b = (a, Status.OK, b.sequenceNumber, none) := by
  unfold Memtable.classify
  simp only [h, if_true]

theorem Memtable.classify_hole (a b : Message)
    (h : b.sequenceNumber > (a.sequenceNumber + 1) % uint64Mod) :
    Memtable.classify a b = (a, Status.HOLE, b.sequenceNumber, none) := by
  unfold Memtable.classify
  have h1 : ¬ b.sequenceNumber = (a.sequenceNumber + 1) % uint64Mod := by omega
  simp only [h1, if_false, h, if_true]

/-- The branch of `updateKey` for a result that is NOTFOUND and a message created after the
requested time. -/
theorem Query.updateKey_later_notfound (env : Numerics) (q : Query) (key : Key) (r : Result)
    (n : Message) (h1 : n.creationTime > q.requestTime) (h2 : r.status = Status.NOTFOUND) :
    Query.updateKey env q key r n =
      Except.ok (if n.sequenceNumber < r.nextSequence ∨ r.nextSequence < 1
        then { r with nextSequence := n.sequenceNumber } else r,
        false, false, Reason.NotCompleted) := by
  unfold Query.updateKey
  simp only [h1, if_true, h2]
  split_ifs <;> rfl

/-- The branch of `updateKey` for the immediate successor of the current message. -/
theorem Query.updateKey_later_successor (env : Numerics) (q : Query) (key : Key) (r : Result)
    (n : Message) (h1 : n.creationTime > q.requestTime) (h2 : r.status ≠ Status.NOTFOUND)
    (h3 : n.sequenceNumber = (r.message.sequenceNumber + 1) % uint64Mod) :
    Query.updateKey env q key r n =
      Except.ok ({ r with nextSequence := n.sequenceNumber, status := Status.OK },
        true, false, Reason.nonODV) := by
  unfold Query.updateKey
  simp only [h1, if_true, h2, if_false, h3]

/-- The branch of `updateKey` for a message beyond the successor of the current message. -/
theorem Query.updateKey_later_gap (env : Numerics) (q : Query) (key : Key) (r : Result)
    (n : Message) (h1 : n.creationTime > q.requestTime) (h2 : r.status ≠ Status.NOTFOUND)
    (h3 : n.sequenceNumber > (r.message.sequenceNumber + 1) % uint64Mod) :
    Query.updateKey env q key r n =
      Except.ok ({ r with
          nextSequence := if r.status = Status.ODV then n.sequenceNumber
            else env.minFloat r.nextSequence n.sequenceNumber,
          status := Status.HOLE },
        false, false, Reason.NotCompleted) := by
  unfold Query.updateKey
  have h4 : ¬ n.sequenceNumber = (r.message.sequenceNumber + 1) % uint64Mod := by omega
  simp only [h1, if_true, h2, if_false, h4, h3]
  split_ifs <;> rfl

/-- The branch of `updateKey` that replaces the current message. -/
theorem Query.updateKey_replace (env : Numerics) (q : Query) (key : Key) (r : Result)
    (n : Message) (sensors : Int → List Int) (mean std : Int) (rest : List Int)
    (h1 : n.creationTime ≤ q.requestTime)
    (h2 : ¬ n.sequenceNumber < r.message.sequenceNumber)
    (hpool : q.pool = some sensors) (hs : sensors (intOfKey key) = mean :: std :: rest) :
    Query.updateKey env q key r n =
      Except.ok ({ r with
          message := n,
          probTemporalCorrect :=
            ProbTemporalCorrect env mean std r.message.creationTime q.requestTime,
          status := if r.status = Status.ODV then Status.ODV
            else if n.sequenceNumber = (r.nextSequence + uint64Mod - 1) % uint64Mod
              then Status.OK else Status.HOLE },
        decide (r.status ≠ Status.ODV ∧
          n.sequenceNumber = (r.nextSequence + uint64Mod - 1) % uint64Mod),
        true,
        if r.status ≠ Status.ODV ∧
            n.sequenceNumber = (r.nextSequence + uint64Mod - 1) % uint64Mod
          then Reason.nonODV else Reason.NotCompleted) := by
  unfold Query.updateKey
  have h1' : ¬ n.creationTime > q.requestTime := by omega
  have hi0 : sliceIndex (mean :: std :: rest) 0 = Except.ok mean := by simp [sliceIndex]
  have hi1 : sliceIndex (mean :: std :: rest) 1 = Except.ok std := by simp [sliceIndex]
  simp only [h1', if_false, h2, hpool, hs, hi0, hi1]
  by_cases ho : r.status = Status.ODV
  · simp [ho]
  · by_cases he : n.sequenceNumber = (r.nextSequence + uint64Mod - 1) % uint64Mod
    · simp [ho, he]
    · simp [ho, he]

/-- What a returning `updateKey` leaves as the message of the result. -/
theorem Query.updateKey_message (env : Numerics) (q : Query) (key : Key) (r : Result)
    (n : Message) (r' : Result) (c u : Bool) (reason : Reason)
    (h : Query.updateKey env q key r n = Except.ok (r', c, u, reason)) :
    (n.creationTime > q.requestTime →
      r'.message = r.message ∧ (r.status = Status.NOTFOUND → r'.status = Status.NOTFOUND)) ∧
    (n.creationTime ≤ q.requestTime → n.sequenceNumber < r.message.sequenceNumber →
      r' = r) ∧
    (n.creationTime ≤ q.requestTime → ¬ n.sequenceNumber < r.message.sequenceNumber →
      r'.message = n) := by
  unfold Query.updateKey at h
  refine ⟨?_, ?_, ?_⟩
  · intro h1
    simp only [h1, if_true] at h
    repeat' split at h
    all_goals (cases h <;> simp_all)
  · intro h1 h2
    have h1' : ¬ n.creationTime > q.requestTime := by omega
    simp only [h1', if_false, h2, if_true, Except.ok.injEq, Prod.mk.injEq] at h
    exact h.1.symm
  · intro h1 h2
    have h1' : ¬ n.creationTime > q.requestTime := by omega
    simp only [h1', if_false, h2] at h
    repeat' split at h
    all_goals (cases h <;> simp_all)

/-- What the invariants of a store with one more message say of the new message. -/
theorem VersionStore.Insert_distinct (l : List Message) (n : Message)
    (hct : DistinctCreationTimes (VersionStore.Insert l n))
    (hseq : DistinctSequenceNumbers (VersionStore.Insert l n)) :
    (∀ x ∈ l, n.creationTime ≠ x.creationTime) ∧
    (∀ x ∈ l, n.sequenceNumber ≠ x.sequenceNumber) ∧
    DistinctCreationTimes l ∧ DistinctSequenceNumbers l := by
  unfold DistinctCreationTimes DistinctSequenceNumbers at *
  have hp := VersionStore.Insert_perm l n
  have h1 := (hp.pairwise_iff (fun {a b} (h : a.creationTime ≠ b.creationTime) => h.symm)).mp hct
  have h2 := (hp.pairwise_iff
    (fun {a b} (h : a.sequenceNumber ≠ b.sequenceNumber) => h.symm)).mp hseq
  rw [List.pairwise_cons] at h1 h2
  exact ⟨h1.1, h2.1, h1.2, h2.2⟩

theorem Memtable.answer_of_none (l : List Message) (t : Nat) (m : Message)
    (h1 : (VersionStore.upTo l t).getLast? = some m)
    (h2 : (VersionStore.after l t).head? = none) :
    Memtable.answer l t = (m, Status.ODV, 0, none) := by
  unfold Memtable.answer
  rw [h1, h2]

theorem Memtable.answer_of_some (l : List Message) (t : Nat) (m x : Message)
    (h1 : (VersionStore.upTo l t).getLast? = some m)
    (h2 : (VersionStore.after l t).head? = some x) :
    Memtable.answer l t = Memtable.classify m x := by
  unfold Memtable.answer
  rw [h1, h2]

/-- An answer that is ODV or HOLE read back: the floor message, and for HOLE the first
message after the requested time. -/
theorem Memtable.answer_odv_hole (l : List Message) (t : Nat) (m : Message) (st : Status)
    (s : Nat) (hans : Memtable.answer l t = (m, st, s, none))
    (hst : st = Status.ODV ∨ st = Status.HOLE) :
    (VersionStore.upTo l t).getLast? = some m ∧
    ((st = Status.ODV ∧ s = 0 ∧ (VersionStore.after l t).head? = none) ∨
     (st = Status.HOLE ∧ ∃ x, (VersionStore.after l t).head? = some x ∧
        s = x.sequenceNumber ∧ x.sequenceNumber > (m.sequenceNumber + 1) % uint64Mod)) := by
  unfold Memtable.answer at hans
  cases hl : (VersionStore.upTo l t).getLast? with
  | none =>
    rw [hl] at hans
    cases hh : (VersionStore.after l t).head? with
    | none =>
      rw [hh] at hans
      simp only [Prod.mk.injEq] at hans
      rcases hst with e | e <;> rw [e] at hans <;> simp at hans
    | some x =>
      rw [hh] at hans
      simp only [Prod.mk.injEq] at hans
      rcases hst with e | e <;> rw [e] at hans <;> simp at hans
  | some m0 =>
    rw [hl] at hans
    cases hh : (VersionStore.after l t).head? with
    | none =>
      rw [hh] at hans
      simp only [Prod.mk.injEq] at hans
      obtain ⟨h1, h2, h3, -⟩ := hans
      subst h1
      exact ⟨rfl, Or.inl ⟨h2.symm, h3.symm, rfl⟩⟩
    | some x =>
      rw [hh] at hans
      simp only at hans
      rcases Memtable.classify_cases m0 x with ⟨-, hc⟩ | ⟨hg, hc⟩ | ⟨-, hc⟩
      · rw [hc] at hans
        simp only [Prod.mk.injEq] at hans
        rcases hst with e | e <;> rw [e] at hans <;> simp at hans
      · rw [hc] at hans
        simp only [Prod.mk.injEq] at hans
        obtain ⟨h1, h2, h3, -⟩ := hans
        subst h1
        exact ⟨rfl, Or.inr ⟨h2.symm, x, rfl, h3.symm, hg⟩⟩
      · rw [hc] at hans
        simp only [Prod.mk.injEq] at hans
        rcases hst with e | e <;> rw [e] at hans <;> simp at hans

/-- One message folded into a result that is ODV or HOLE: `updateKey` returns, and the
result is the answer of the store with the message. -/
theorem Query.updateKey_refines (env : Numerics) (q : Query) (key : Key) (l : List Message)
    (n : Message) (t : Nat) (m : Message) (st : Status) (s : Nat) (p : ℚ)
    (sensors : Int → List Int) (mean std : Int) (rest : List Int)
    (hord : VersionStore.Ordered l)
    (hbd : VersionStore.Bounded (VersionStore.Insert l n))
    (hct : DistinctCreationTimes (VersionStore.Insert l n))
    (hseq : DistinctSequenceNumbers (VersionStore.Insert l n))
    (hmono : MonotoneAgreement (VersionStore.Insert l n))
    (hseqb : ∀ y ∈ VersionStore.Insert l n, y.sequenceNumber < float64Bound)
    (hq : q.requestTime = t) (hpool : q.pool = some sensors)
    (hs : sensors (intOfKey key) = mean :: std :: rest)
    (hmin : ∀ a b, a < float64Bound → b < float64Bound → env.minFloat a b = min a b)
    (hans : Memtable.answer l t = (m, st, s, none))
    (hst : st = Status.ODV ∨ st = Status.HOLE) :
    ∃ r' c u reason,
      Query.updateKey env q key ⟨m, st, s, p⟩ n = Except.ok (r', c, u, reason) ∧
      Memtable.answer (VersionStore.Insert l n) t
        = (r'.message, r'.status, r'.nextSequence, none) := by
  have hn' : n ∈ VersionStore.Insert l n := (VersionStore.mem_Insert l n n).mpr (Or.inl rfl)
  have hl' : ∀ x ∈ l, x ∈ VersionStore.Insert l n :=
    fun x hx => (VersionStore.mem_Insert l n x).mpr (Or.inr hx)
  have hord' := VersionStore.Insert_ordered l n hord (fun x hx => hbd x (hl' x hx))
    (hbd n hn')
  have hrange : SequenceNumbersInRange (VersionStore.Insert l n) :=
    fun y hy => Nat.lt_trans (hseqb y hy) (by decide)
  have hcases : ∀ y ∈ VersionStore.Insert l n, y = n ∨ y ∈ l :=
    fun y hy => (VersionStore.mem_Insert l n y).mp hy
  obtain ⟨hnct, -, -, -⟩ := VersionStore.Insert_distinct l n hct hseq
  obtain ⟨hlast, hform⟩ := Memtable.answer_odv_hole l t m st s hans hst
  obtain ⟨hm, hmt, hmax⟩ := VersionStore.upTo_getLast l t hord m hlast
  have hnr : n.sequenceNumber < uint64Mod := hrange n hn'
  by_cases hnt : t < n.creationTime
  · -- the message was created after the requested time
    have h1 : n.creationTime > q.requestTime := by rw [hq]; exact hnt
    have hlast' : (VersionStore.upTo (VersionStore.Insert l n) t).getLast? = some m := by
      rw [VersionStore.upTo_Insert_of_gt l n t hnt]
      exact hlast
    have hmn : m.sequenceNumber < n.sequenceNumber :=
      hmono m (hl' m hm) n hn' (by omega)
    have hsucc : (m.sequenceNumber + 1) % uint64Mod = m.sequenceNumber + 1 :=
      uint64_succ_mod _ _ hmn hnr
    rcases hform with ⟨hodv, hs0, hhead⟩ | ⟨hhole, x, hhead, hsx, hgap⟩
    · -- ODV: the message is the only one after the requested time
      subst hodv hs0
      have hall : ∀ y ∈ l, y.creationTime ≤ t := by
        apply (VersionStore.after_eq_nil l t).mp
        exact List.head?_eq_none_iff.mp hhead
      have hhead' : (VersionStore.after (VersionStore.Insert l n) t).head? = some n := by
        apply VersionStore.after_head_of_min _ t hord' hct n hn' hnt
        intro y hy hyt
        rcases hcases y hy with e | e
        · rw [e]
        · have := hall y e
          omega
      rw [Memtable.answer_of_some _ t m n hlast' hhead']
      by_cases heq : n.sequenceNumber = m.sequenceNumber + 1
      · refine ⟨_, _, _, _, Query.updateKey_later_successor env q key _ n h1 (by simp)
          (by rw [hsucc]; exact heq), ?_⟩
        exact Memtable.classify_ok m n (by rw [hsucc]; exact heq)
      · have hgt : n.sequenceNumber > (m.sequenceNumber + 1) % uint64Mod := by
          rw [hsucc]
          omega
        refine ⟨_, _, _, _, Query.updateKey_later_gap env q key _ n h1 (by simp) hgt, ?_⟩
        rw [Memtable.classify_hole m n hgt]
        simp
    · -- HOLE: the message comes before or behind the known successor
      subst hhole hsx
      obtain ⟨hx, hxt, hxmin⟩ := VersionStore.after_head l t hord x hhead
      have hxr : x.sequenceNumber < uint64Mod := hrange x (hl' x hx)
      have hne := hnct x hx
      by_cases hnx : n.creationTime < x.creationTime
      · have hnxs : n.sequenceNumber < x.sequenceNumber := hmono n hn' x (hl' x hx) hnx
        have hhead' : (VersionStore.after (VersionStore.Insert l n) t).head? = some n := by
          apply VersionStore.after_head_of_min _ t hord' hct n hn' hnt
          intro y hy hyt
          rcases hcases y hy with e | e
          · rw [e]
          · have := hxmin y e hyt
            omega
        rw [Memtable.answer_of_some _ t m n hlast' hhead']
        by_cases heq : n.sequenceNumber = m.sequenceNumber + 1
        · refine ⟨_, _, _, _, Query.updateKey_later_successor env q key _ n h1 (by simp)
            (by rw [hsucc]; exact heq), ?_⟩
          exact Memtable.classify_ok m n (by rw [hsucc]; exact heq)
        · have hgt : n.sequenceNumber > (m.sequenceNumber + 1) % uint64Mod := by
            rw [hsucc]
            omega
          refine ⟨_, _, _, _, Query.updateKey_later_gap env q key _ n h1 (by simp) hgt, ?_⟩
          rw [Memtable.classify_hole m n hgt]
          have hmn' : min x.sequenceNumber n.sequenceNumber = n.sequenceNumber := by omega
          have hm1 := hmin x.sequenceNumber n.sequenceNumber (hseqb x (hl' x hx)) (hseqb n hn')
          simp [hm1, hmn']
      · have hxn : x.creationTime < n.creationTime := by omega
        have hxns : x.sequenceNumber < n.sequenceNumber := hmono x (hl' x hx) n hn' hxn
        have hhead' : (VersionStore.after (VersionStore.Insert l n) t).head? = some x := by
          apply VersionStore.after_head_of_min _ t hord' hct x (hl' x hx) hxt
          intro y hy hyt
          rcases hcases y hy with e | e
          · rw [e]
            omega
          · exact hxmin y e hyt
        rw [Memtable.answer_of_some _ t m x hlast' hhead']
        have hgt : n.sequenceNumber > (m.sequenceNumber + 1) % uint64Mod := by omega
        refine ⟨_, _, _, _, Query.updateKey_later_gap env q key _ n h1 (by simp) hgt, ?_⟩
        rw [Memtable.classify_hole m x hgap]
        have hmn' : min x.sequenceNumber n.sequenceNumber = x.sequenceNumber := by omega
        have hm1 := hmin x.sequenceNumber n.sequenceNumber (hseqb x (hl' x hx)) (hseqb n hn')
        simp [hm1, hmn']
  · -- the message was created no later than the requested time
    have hnt' : n.creationTime ≤ t := by omega
    have h1 : n.creationTime ≤ q.requestTime := by rw [hq]; exact hnt'
    have haft : VersionStore.after (VersionStore.Insert l n) t = VersionStore.after l t :=
      VersionStore.after_Insert_of_le l n t hnt'
    have hne := hnct m hm
    by_cases hlt : n.creationTime < m.creationTime
    · -- older than the current message: ignored
      have hnms : n.sequenceNumber < m.sequenceNumber := hmono n hn' m (hl' m hm) hlt
      have hlast' : (VersionStore.upTo (VersionStore.Insert l n) t).getLast? = some m := by
        apply VersionStore.upTo_getLast_of_max _ t hord' hct m (hl' m hm) hmt
        intro y hy hyt
        rcases hcases y hy with e | e
        · rw [e]
          omega
        · exact hmax y e hyt
      refine ⟨_, _, _, _, Query.updateKey_older env q key _ n h1 hnms, ?_⟩
      rw [← hans]
      unfold Memtable.answer
      rw [hlast', haft, hlast]
    · -- newer: it replaces the current message
      have hmn : m.creationTime < n.creationTime := by omega
      have hmns : m.sequenceNumber < n.sequenceNumber := hmono m (hl' m hm) n hn' hmn
      have h2 : ¬ n.sequenceNumber < m.sequenceNumber := by omega
      have hlast' : (VersionStore.upTo (VersionStore.Insert l n) t).getLast? = some n := by
        apply VersionStore.upTo_getLast_of_max _ t hord' hct n hn' hnt'
        intro y hy hyt
        rcases hcases y hy with e | e
        · rw [e]
        · have := hmax y e hyt
          omega
      refine ⟨_, _, _, _, Query.updateKey_replace env q key _ n sensors mean std rest h1 h2
        hpool hs, ?_⟩
      rcases hform with ⟨hodv, hs0, hhead⟩ | ⟨hhole, x, hhead, hsx, hgap⟩
      · subst hodv hs0
        rw [Memtable.answer_of_none _ t n hlast' (by rw [haft]; exact hhead)]
        simp
      · subst hhole hsx
        obtain ⟨hx, hxt, hxmin⟩ := VersionStore.after_head l t hord x hhead
        have hxr : x.sequenceNumber < uint64Mod := hrange x (hl' x hx)
        have hnxs : n.sequenceNumber < x.sequenceNumber :=
          hmono n hn' x (hl' x hx) (by omega)
        have hsucc : (n.sequenceNumber + 1) % uint64Mod = n.sequenceNumber + 1 :=
          uint64_succ_mod _ _ hnxs hxr
        have hpred : (x.sequenceNumber + uint64Mod - 1) % uint64Mod = x.sequenceNumber - 1 :=
          uint64_pred_mod _ (by omega) hxr
        rw [Memtable.answer_of_some _ t n x hlast' (by rw [haft]; exact hhead)]
        by_cases heq : x.sequenceNumber = n.sequenceNumber + 1
        · have hc : n.sequenceNumber = (x.sequenceNumber + uint64Mod - 1) % uint64Mod := by
            rw [hpred]
            omega
          rw [Memtable.classify_ok n x (by rw [hsucc]; exact heq)]
          simp [← hc]
        · have hc : ¬ n.sequenceNumber = (x.sequenceNumber + uint64Mod - 1) % uint64Mod := by
            rw [hpred]
            omega
          rw [Memtable.classify_hole n x (by rw [hsucc]; omega)]
          simp [hc]

theorem Memtable.stored_ordered (mem : Memtable) (k : Key) (hwf : mem.WF k) :
    VersionStore.Ordered (mem.stored k) := by
  rcases Memtable.data_of_stored mem k hwf with ⟨-, hs⟩ | ⟨l, -, hs, -, hord, -⟩
  · rw [hs]
    exact List.Pairwise.nil
  · rw [hs]
    exact hord

theorem Memtable.stored_Put_self (mem : Memtable) (k : Key) (n : Message) :
    (mem.Put k n.sequenceNumber n.creationTime n.value).1.stored k =
      VersionStore.Insert (mem.stored k) n := by
  rw [Memtable.stored_Put]
  simp

theorem Memtable.stored_sublist_PutAll (calls : List PutCall) (k : Key) :
    ∀ mem : Memtable, (mem.stored k).Sublist ((mem.PutAll calls).stored k) := by
  induction calls with
  | nil => intro mem; exact List.Sublist.refl _
  | cons c cs ih =>
    intro mem
    have h1 : (mem.stored k).Sublist
        ((mem.Put c.key c.sequenceNumber c.creationTime c.value).1.stored k) := by
      rw [Memtable.stored_Put]
      by_cases hk : k = c.key
      · simp only [hk, if_true]
        exact VersionStore.Insert_sublist _ _
      · simp only [hk, if_false]
        exact List.Sublist.refl _
    exact h1.trans (ih _)

/-- The answer has the floor message, and is NOTFOUND when there is none. -/
theorem Memtable.answer_floor (l : List Message) (t : Nat) (hord : VersionStore.Ordered l)
    (hmono : MonotoneAgreement l) :
    ∃ st s, Memtable.answer l t = (VersionStore.floorAt l t, st, s, none) ∧
      (VersionStore.upTo l t = [] → st = Status.NOTFOUND) := by
  unfold Memtable.answer VersionStore.floorAt
  cases hl : (VersionStore.upTo l t).getLast? with
  | none =>
    cases hh : (VersionStore.after l t).head? with
    | none => exact ⟨_, _, rfl, fun _ => rfl⟩
    | some x => exact ⟨_, _, rfl, fun _ => rfl⟩
  | some m =>
    have hne : VersionStore.upTo l t ≠ [] := by
      intro e
      rw [e] at hl
      cases hl
    cases hh : (VersionStore.after l t).head? with
    | none => exact ⟨_, _, rfl, fun e => absurd e hne⟩
    | some x =>
      obtain ⟨hm, hmt, -⟩ := VersionStore.upTo_getLast l t hord m hl
      obtain ⟨hx, hxt, -⟩ := VersionStore.after_head l t hord x hh
      have hlt : m.sequenceNumber < x.sequenceNumber := hmono m hm x hx (by omega)
      rcases Memtable.classify_of_lt m x hlt with hc | hc
      · exact ⟨_, _, hc, fun e => absurd e hne⟩
      · exact ⟨_, _, hc, fun e => absurd e hne⟩

/-- One message folded into a result that holds the floor message: the result holds the
floor message of the store with the message, and `updateKey` returns when the sensor
parameters of the key are present. -/
theorem Query.updateKey_floor (env : Numerics) (q : Query) (key : Key) (l : List Message)
    (n : Message) (t : Nat) (r : Result)
    (hord : VersionStore.Ordered l)
    (hbd : VersionStore.Bounded (VersionStore.Insert l n))
    (hct : DistinctCreationTimes (VersionStore.Insert l n))
    (hseq : DistinctSequenceNumbers (VersionStore.Insert l n))
    (hmono : MonotoneAgreement (VersionStore.Insert l n))
    (hq : q.requestTime = t)
    (hmsg : r.message = VersionStore.floorAt l t)
    (hnf : VersionStore.upTo l t = [] → r.status = Status.NOTFOUND) :
    (∀ r' c u reason, Query.updateKey env q key r n = Except.ok (r', c, u, reason) →
      r'.message = VersionStore.floorAt (VersionStore.Insert l n) t ∧
      (VersionStore.upTo (VersionStore.Insert l n) t = [] → r'.status = Status.NOTFOUND)) ∧
    (∀ sensors mean std rest, q.pool = some sensors →
      sensors (intOfKey key) = mean :: std :: rest →
      ∃ x, Query.updateKey env q key r n = Except.ok x) := by
  have hn' : n ∈ VersionStore.Insert l n := (VersionStore.mem_Insert l n n).mpr (Or.inl rfl)
  have hl' : ∀ x ∈ l, x ∈ VersionStore.Insert l n :=
    fun x hx => (VersionStore.mem_Insert l n x).mpr (Or.inr hx)
  have hord' := VersionStore.Insert_ordered l n hord (fun x hx => hbd x (hl' x hx))
    (hbd n hn')
  have hcases : ∀ y ∈ VersionStore.Insert l n, y = n ∨ y ∈ l :=
    fun y hy => (VersionStore.mem_Insert l n y).mp hy
  obtain ⟨hnct, -, -, -⟩ := VersionStore.Insert_distinct l n hct hseq
  by_cases hnt : t < n.creationTime
  · have h1 : n.creationTime > q.requestTime := by rw [hq]; exact hnt
    have hup := VersionStore.upTo_Insert_of_gt l n t hnt
    constructor
    · intro r' c u reason h
      obtain ⟨h2, h3⟩ := (Query.updateKey_message env q key r n r' c u reason h).1 h1
      unfold VersionStore.floorAt
      rw [hup]
      exact ⟨h2.trans hmsg, fun e => h3 (hnf e)⟩
    · intro sensors mean std rest hpool hs
      apply (Query.updateKey_failure env q key r n sensors mean std rest hpool hs).2
      rintro ⟨-, hst, hlt⟩
      have hne : VersionStore.upTo l t ≠ [] := fun e => hst (hnf e)
      have hlast := List.getLast?_eq_getLast _ hne
      obtain ⟨hm, hmt, -⟩ := VersionStore.upTo_getLast l t hord _ hlast
      have hrm : r.message = (VersionStore.upTo l t).getLast hne := by
        rw [hmsg]
        unfold VersionStore.floorAt
        rw [hlast]
        rfl
      have hmn := hmono _ (hl' _ hm) n hn' (by omega)
      rw [← hrm] at hmn
      have := Nat.mod_le (r.message.sequenceNumber + 1) uint64Mod
      omega
  · have hnt' : n.creationTime ≤ t := by omega
    have h1 : n.creationTime ≤ q.requestTime := by rw [hq]; exact hnt'
    have hne' : VersionStore.upTo (VersionStore.Insert l n) t ≠ [] :=
      List.ne_nil_of_mem ((VersionStore.mem_upTo _ t n).mpr ⟨hn', hnt'⟩)
    constructor
    · intro r' c u reason h
      refine ⟨?_, fun e => absurd e hne'⟩
      obtain ⟨-, hold, hnew⟩ := Query.updateKey_message env q key r n r' c u reason h
      by_cases hemp : VersionStore.upTo l t = []
      · have hr0 : r.message = Message.empty := by
          rw [hmsg]
          unfold VersionStore.floorAt
          rw [hemp]
          rfl
        have h2 : ¬ n.sequenceNumber < r.message.sequenceNumber := by
          rw [hr0]
          exact Nat.not_lt_zero _
        have hall := (VersionStore.upTo_eq_nil l t).mp hemp
        have hlast' : (VersionStore.upTo (VersionStore.Insert l n) t).getLast? = some n := by
          apply VersionStore.upTo_getLast_of_max _ t hord' hct n hn' hnt'
          intro y hy hyt
          rcases hcases y hy with e | e
          · rw [e]
          · have := hall y e
            omega
        rw [hnew h1 h2]
        unfold VersionStore.floorAt
        rw [hlast']
        rfl
      · have hlast := List.getLast?_eq_getLast _ hemp
        obtain ⟨hm, hmt, hmax⟩ := VersionStore.upTo_getLast l t hord _ hlast
        have hrm : r.message = (VersionStore.upTo l t).getLast hemp := by
          rw [hmsg]
          unfold VersionStore.floorAt
          rw [hlast]
          rfl
        have hne := hnct _ hm
        by_cases hlt : n.creationTime < ((VersionStore.upTo l t).getLast hemp).creationTime
        · have hs := hmono n hn' _ (hl' _ hm) hlt
          rw [← hrm] at hs
          have hlast' : (VersionStore.upTo (VersionStore.Insert l n) t).getLast?
              = some ((VersionStore.upTo l t).getLast hemp) := by
            apply VersionStore.upTo_getLast_of_max _ t hord' hct _ (hl' _ hm) hmt
            intro y hy hyt
            rcases hcases y hy with e | e
            · rw [e]
              omega
            · exact hmax y e hyt
          rw [hold h1 hs, hrm]
          unfold VersionStore.floorAt
          rw [hlast']
          rfl
        · have hs := hmono _ (hl' _ hm) n hn' (by omega)
          rw [← hrm] at hs
          have h2 : ¬ n.sequenceNumber < r.message.sequenceNumber := by omega
          have hlast' : (VersionStore.upTo (VersionStore.Insert l n) t).getLast? = some n := by
            apply VersionStore.upTo_getLast_of_max _ t hord' hct n hn' hnt'
            intro y hy hyt
            rcases hcases y hy with e | e
            · rw [e]
            · have := hmax y e hyt
              omega
          rw [hnew h1 h2]
          unfold VersionStore.floorAt
          rw [hlast']
          rfl
    · intro sensors mean std rest hpool hs
      apply (Query.updateKey_failure env q key r n sensors mean std rest hpool hs).2
      rintro ⟨h, -, -⟩
      omega

/-- The messages of a key folded into a result that holds the floor message: the final
result holds the floor message of the final store, and the fold returns when the sensor
parameters of the key are present. -/
theorem Query.foldKey_floor (env : Numerics) (q : Query) (k : Key) (t : Nat)
    (hq : q.requestTime = t) (msgs : List Message) :
    ∀ (mem : Memtable) (r : Result), mem.WF k →
      VersionStore.Bounded ((mem.PutAll (msgs.map (PutCall.ofMessage k))).stored k) →
      DistinctCreationTimes ((mem.PutAll (msgs.map (PutCall.ofMessage k))).stored k) →
      DistinctSequenceNumbers ((mem.PutAll (msgs.map (PutCall.ofMessage k))).stored k) →
      MonotoneAgreement ((mem.PutAll (msgs.map (PutCall.ofMessage k))).stored k) →
      r.message = VersionStore.floorAt (mem.stored k) t →
      (VersionStore.upTo (mem.stored k) t = [] → r.status = Status.NOTFOUND) →
      (∀ r', Query.foldKey env q k r msgs = Except.ok r' →
        r'.message = VersionStore.floorAt
          ((mem.PutAll (msgs.map (PutCall.ofMessage k))).stored k) t) ∧
      (∀ sensors mean std rest, q.pool = some sensors →
        sensors (intOfKey k) = mean :: std :: rest →
        ∃ r', Query.foldKey env q k r msgs = Except.ok r') := by
  induction msgs with
  | nil =>
    intro mem r _ _ _ _ _ hmsg _
    refine ⟨?_, fun _ _ _ _ _ _ => ⟨r, rfl⟩⟩
    intro r' h
    simp only [Query.foldKey, Except.ok.injEq] at h
    rw [← h]
    exact hmsg
  | cons n ns ih =>
    intro mem r hwf hb hct hseq hmono hmsg hnf
    have hfinal : mem.PutAll ((n :: ns).map (PutCall.ofMessage k)) =
        ((mem.Put k n.sequenceNumber n.creationTime n.value).1).PutAll
          (ns.map (PutCall.ofMessage k)) := rfl
    rw [hfinal] at hb hct hseq hmono ⊢
    have hsub := Memtable.stored_sublist_PutAll (ns.map (PutCall.ofMessage k)) k
      (mem.Put k n.sequenceNumber n.creationTime n.value).1
    have hst1 := Memtable.stored_Put_self mem k n
    rw [hst1] at hsub
    have hb1 : VersionStore.Bounded (VersionStore.Insert (mem.stored k) n) :=
      fun x hx => hb x (hsub.subset hx)
    have hwf1 := Memtable.Put_WF mem k n.sequenceNumber n.creationTime n.value k hwf
      (fun _ => hb1 n ((VersionStore.mem_Insert _ n n).mpr (Or.inl rfl)))
    have hct1 : DistinctCreationTimes (VersionStore.Insert (mem.stored k) n) :=
      List.Pairwise.sublist hsub hct
    have hseq1 : DistinctSequenceNumbers (VersionStore.Insert (mem.stored k) n) :=
      List.Pairwise.sublist hsub hseq
    have hmono1 : MonotoneAgreement (VersionStore.Insert (mem.stored k) n) :=
      fun a ha b hb => hmono a (hsub.subset ha) b (hsub.subset hb)
    obtain ⟨hstep1, hstep2⟩ := Query.updateKey_floor env q k (mem.stored k) n t r
      (Memtable.stored_ordered mem k hwf) hb1 hct1 hseq1 hmono1 hq hmsg hnf
    constructor
    · intro r' h
      unfold Query.foldKey at h
      cases hu : Query.updateKey env q k r n with
      | error e => simp [hu] at h
      | ok x =>
        obtain ⟨r1, c, u, reason⟩ := x
        simp only [hu] at h
        obtain ⟨h1, h2⟩ := hstep1 r1 c u reason hu
        rw [← hst1] at h1 h2
        exact (ih _ r1 hwf1 hb hct hseq hmono h1 h2).1 r' h
    · intro sensors mean std rest hpool hs
      obtain ⟨x, hu⟩ := hstep2 sensors mean std rest hpool hs
      obtain ⟨r1, c, u, reason⟩ := x
      obtain ⟨h1, h2⟩ := hstep1 r1 c u reason hu
      rw [← hst1] at h1 h2
      obtain ⟨r', hr'⟩ :=
        (ih _ r1 hwf1 hb hct hseq hmono h1 h2).2 sensors mean std rest hpool hs
      refine ⟨r', ?_⟩
      unfold Query.foldKey
      simp only [hu]
      exact hr'

/-- Reachability is kept by further `Put` calls. -/
theorem Memtable.Reachable_PutAll (mem : Memtable) (calls : List PutCall)
    (hr : mem.Reachable) : (mem.PutAll calls).Reachable := by
  obtain ⟨c, calls0, rfl⟩ := hr
  refine ⟨c, calls0 ++ calls, ?_⟩
  unfold Memtable.PutAll
  rw [List.foldl_append]

/-- Below 2^53, for a key whose messages, stored and arriving, have pairwise distinct
creation times and sequence numbers and agree in their order: when a result is initialised
from `Get(k, T)` on the store S and the newly Put messages are folded in by `updateKey` in
arrival order, the message of the result is the message `Get(k, T)` returns on the final
store; with sensor parameters present for the key every `updateKey` call of the fold
returns. -/
theorem Query.foldKey_message (env : Numerics) (mem : Memtable) (k : Key) (t : Nat)
    (q : Query) (msgs : List Message) (m0 : Message) (st0 : Status) (s0 : Nat)
    (err0 : Option SequenceOutOfOrder) (p0 : ℚ)
    (hr : mem.Reachable) (hq : q.requestTime = t)
    (hb : VersionStore.Bounded ((mem.PutAll (msgs.map (PutCall.ofMessage k))).stored k))
    (hct : DistinctCreationTimes ((mem.PutAll (msgs.map (PutCall.ofMessage k))).stored k))
    (hseq : DistinctSequenceNumbers ((mem.PutAll (msgs.map (PutCall.ofMessage k))).stored k))
    (hmono : MonotoneAgreement ((mem.PutAll (msgs.map (PutCall.ofMessage k))).stored k))
    (hget : mem.Get k t = some (m0, st0, s0, err0)) :
    (∀ r, Query.foldKey env q k ⟨m0, st0, s0, p0⟩ msgs = Except.ok r →
      ∃ m st s, (mem.PutAll (msgs.map (PutCall.ofMessage k))).Get k t = some (m, st, s, none) ∧
        r.message = m ∧ r.message.sequenceNumber = m.sequenceNumber) ∧
    (∀ sensors mean std rest, q.pool = some sensors →
      sensors (intOfKey k) = mean :: std :: rest →
      ∃ r, Query.foldKey env q k ⟨m0, st0, s0, p0⟩ msgs = Except.ok r) := by
  have hsub := Memtable.stored_sublist_PutAll (msgs.map (PutCall.ofMessage k)) k mem
  have hb0 : VersionStore.Bounded (mem.stored k) := fun x hx => hb x (hsub.subset hx)
  have hwf := Memtable.Reachable_WF mem hr k hb0
  have hwf' := Memtable.Reachable_WF _
    (Memtable.Reachable_PutAll mem (msgs.map (PutCall.ofMessage k)) hr) k hb
  have hct0 : DistinctCreationTimes (mem.stored k) := List.Pairwise.sublist hsub hct
  have hmono0 : MonotoneAgreement (mem.stored k) :=
    fun a ha b hb' => hmono a (hsub.subset ha) b (hsub.subset hb')
  obtain ⟨st, s, hans, hnf⟩ := Memtable.answer_floor (mem.stored k) t
    (Memtable.stored_ordered mem k hwf) hmono0
  have hg := Memtable.Get_eq_answer mem k t hwf hct0
  rw [hget, hans] at hg
  simp only [Option.some.injEq, Prod.mk.injEq] at hg
  obtain ⟨hm0, hst0, -, -⟩ := hg
  obtain ⟨h1, h2⟩ := Query.foldKey_floor env q k t hq msgs mem ⟨m0, st0, s0, p0⟩ hwf hb hct
    hseq hmono hm0 (fun e => hst0.trans (hnf e))
  refine ⟨?_, h2⟩
  intro r hfold
  obtain ⟨st', s', hans', -⟩ := Memtable.answer_floor
    ((mem.PutAll (msgs.map (PutCall.ofMessage k))).stored k) t
    (Memtable.stored_ordered _ k hwf') hmono
  have hg' := Memtable.Get_eq_answer (mem.PutAll (msgs.map (PutCall.ofMessage k))) k t hwf' hct
  rw [hans'] at hg'
  exact ⟨_, st', s', hg', h1 r hfold, by rw [h1 r hfold]⟩

/-- C22 fails on the code: on the store with the single message (creationTime 10, seq 1)
`Get(1, 2^53 + 1)` returns ((10, seq 1), ODV, 0). The message n = (creationTime 2^53, seq 2)
keeps the invariants and `updateKey` takes it as the message of the result (sequence
number 2), n being created before the requested time; but `Get(1, 2^53 + 1)` on the store
with n still returns the message of sequence number 1, because the key of the time is
`float64(2^53 + 1)` = 2^53, the key of n. -/
theorem C22_rounded_store :
    (lateMem 2).stored 1
      = (((NewMemtable 0).PutAll [⟨1, 1, 10, "a"⟩]).PutAll
          ([⟨2 ^ 53, 2, "b"⟩].map (PutCall.ofMessage 1))).stored 1 ∧
    (lateMem 2).stored 1 = [⟨10, 1, "a"⟩, ⟨2 ^ 53, 2, "b"⟩] ∧
    DistinctCreationTimes ((lateMem 2).stored 1) ∧
    DistinctSequenceNumbers ((lateMem 2).stored 1) ∧
    MonotoneAgreement ((lateMem 2).stored 1) ∧
    ((NewMemtable 0).PutAll [⟨1, 1, 10, "a"⟩]).Get 1 (2 ^ 53 + 1)
      = some (⟨10, 1, "a"⟩, Status.ODV, 0, none) ∧
    Query.foldKey sampleEnv ((NewQuery 30 (2 ^ 53 + 1) 1).SetPool sampleSensors) 1
        ⟨⟨10, 1, "a"⟩, Status.ODV, 0, 1 / 2⟩ [⟨2 ^ 53, 2, "b"⟩]
      = Except.ok ⟨⟨2 ^ 53, 2, "b"⟩, Status.ODV, 0,
          ProbTemporalCorrect sampleEnv 1000 400 10 (2 ^ 53 + 1)⟩ ∧
    (lateMem 2).Get 1 (2 ^ 53 + 1) = some (⟨10, 1, "a"⟩, Status.OK, 2, none) :=
  ⟨by decide, by decide, by decide, by decide, by decide, by decide, rfl, by decide⟩

/-- C25 (as amended): for a key whose messages have creation times and sequence numbers
below 2^53, pairwise distinct, and agree in their order, a query with sensor parameters
present for the key, every request time T and every store S on which `Get(k, T)` returns
status ODV or HOLE: when a result is initialised with the message, status and nextSequence
of `Get` and one newly Put message n that keeps the invariants is folded in by `updateKey`,
the minimum of two sequence numbers below 2^53 being exact, then `updateKey` returns, the
(message, status, nextSequence) of the result is what `Get(k, T)` returns on S with n, and
`updateKey` reports completed exactly when the new status is OK. -/
theorem C25_refines_get (env : Numerics) (mem : Memtable) (k : Key) (t : Nat) (q : Query)
    (n m : Message) (st : Status) (s : Nat) (p : ℚ)
    (sensors : Int → List Int) (mean std : Int) (rest : List Int)
    (hr : mem.Reachable)
    (hb : VersionStore.Bounded
      ((mem.Put k n.sequenceNumber n.creationTime n.value).1.stored k))
    (hseqb : ∀ y ∈ (mem.Put k n.sequenceNumber n.creationTime n.value).1.stored k,
      y.sequenceNumber < float64Bound)
    (hct : DistinctCreationTimes
      ((mem.Put k n.sequenceNumber n.creationTime n.value).1.stored k))
    (hseq : DistinctSequenceNumbers
      ((mem.Put k n.sequenceNumber n.creationTime n.value).1.stored k))
    (hmono : MonotoneAgreement
      ((mem.Put k n.sequenceNumber n.creationTime n.value).1.stored k))
    (hq : q.requestTime = t) (hpool : q.pool = some sensors)
    (hs : sensors (intOfKey k) = mean :: std :: rest)
    (hmin : ∀ a b, a < float64Bound → b < float64Bound → env.minFloat a b = min a b)
    (hget : mem.Get k t = some (m, st, s, none))
    (hst : st = Status.ODV ∨ st = Status.HOLE) :
    ∃ r' c u reason,
      Query.updateKey env q k ⟨m, st, s, p⟩ n = Except.ok (r', c, u, reason) ∧
      (mem.Put k n.sequenceNumber n.creationTime n.value).1.Get k t
        = some (r'.message, r'.status, r'.nextSequence, none) ∧
      (c = true ↔ r'.status = Status.OK) := by
  have hr1 : (mem.Put k n.sequenceNumber n.creationTime n.value).1.Reachable :=
    Memtable.Reachable_PutAll mem [PutCall.ofMessage k n] hr
  have hwf1 := Memtable.Reachable_WF _ hr1 k hb
  have hg1 := Memtable.Get_eq_answer _ k t hwf1 hct
  rw [Memtable.stored_Put_self] at hb hseqb hct hseq hmono hg1
  have hb0 : VersionStore.Bounded (mem.stored k) :=
    fun x hx => hb x ((VersionStore.mem_Insert _ n x).mpr (Or.inr hx))
  have hwf := Memtable.Reachable_WF mem hr k hb0
  obtain ⟨-, -, hct0, -⟩ := VersionStore.Insert_distinct (mem.stored k) n hct hseq
  have hg := Memtable.Get_eq_answer mem k t hwf hct0
  rw [hget] at hg
  have hans : Memtable.answer (mem.stored k) t = (m, st, s, none) := (Option.some.inj hg).symm
  obtain ⟨r', c, u, reason, hu, ha⟩ := Query.updateKey_refines env q k (mem.stored k) n t m st
    s p sensors mean std rest (Memtable.stored_ordered mem k hwf) hb hct hseq hmono hseqb hq
    hpool hs hmin hans hst
  refine ⟨r', c, u, reason, hu, ?_, ?_⟩
  · rw [hg1, ha]
  · apply Query.updateKey_completed env q k ⟨m, st, s, p⟩ n r' c u reason hu
    rcases hst with e | e <;> rw [e] <;> simp

/-- C25 at the first scenario, with the minimum taken in `float64` as in the source: the
result (seq 2, HOLE, 4) of key 1 at the requested time 25 and the new message
(creationTime 22, seq 3). -/
theorem C25_refines_get_witness :
    scenarioMem.Reachable ∧
    VersionStore.Bounded ((scenarioMem.Put 1 3 22 "value: 3").1.stored 1) ∧
    (∀ y ∈ (scenarioMem.Put 1 3 22 "value: 3").1.stored 1, y.sequenceNumber < float64Bound) ∧
    DistinctCreationTimes ((scenarioMem.Put 1 3 22 "value: 3").1.stored 1) ∧
    DistinctSequenceNumbers ((scenarioMem.Put 1 3 22 "value: 3").1.stored 1) ∧
    MonotoneAgreement ((scenarioMem.Put 1 3 22 "value: 3").1.stored 1) ∧
    sampleSensors (intOfKey 1) = [1000, 400] ∧
    (∀ a b, a < float64Bound → b < float64Bound → float64Env.minFloat a b = min a b) ∧
    scenarioMem.Get 1 25 = some (⟨20, 2, "value: 2"⟩, Status.HOLE, 4, none) ∧
    ∃ r' c u reason,
      Query.updateKey float64Env
        (parkedQuery ⟨20, 2, "value: 2"⟩ (1 / 2) (1 / 2) sampleSensors)
        1 ⟨⟨20, 2, "value: 2"⟩, Status.HOLE, 4, 1 / 2⟩ ⟨22, 3, "value: 3"⟩
        = Except.ok (r', c, u, reason) ∧
      (scenarioMem.Put 1 3 22 "value: 3").1.Get 1 25
        = some (r'.message, r'.status, r'.nextSequence, none) ∧
      (c = true ↔ r'.status = Status.OK) :=
  ⟨⟨0, scenarioCalls, rfl⟩, by decide, by decide, by decide, by decide, by decide, by decide,
    minFloat64_of_lt, by decide,
    C25_refines_get float64Env scenarioMem 1 25
      (parkedQuery ⟨20, 2, "value: 2"⟩ (1 / 2) (1 / 2) sampleSensors)
      ⟨22, 3, "value: 3"⟩ ⟨20, 2, "value: 2"⟩ Status.HOLE 4 (1 / 2) sampleSensors 1000 400 []
      ⟨0, scenarioCalls, rfl⟩ (by decide) (by decide) (by decide) (by decide) (by decide)
      rfl rfl (by decide) minFloat64_of_lt (by decide) (Or.inr rfl)⟩

/-- C25, the claim as worded fails: on the store of the first scenario `Get(1, 25)` returns
(seq 2, HOLE, 4) and the message (creationTime 22, seq 3) keeps the invariants, but for a
query whose pool holds no sensor parameters for key 1 `updateKey` fails with an index out of
range when it recomputes the probability. And from 2^53 on the two sides part: on the store
with the single message (creationTime 10, seq 1), where `Get(1, 2^53 + 1)` returns
(seq 1, ODV, 0), `updateKey` takes the new message (2^53, seq 2) as the message of the
result while `Get(1, 2^53 + 1)` on the store with it returns ((10, seq 1), OK, 2); and the
minimum taken in `float64` of the sequence numbers 2^53 + 1 and 2^53 + 3 is 2^53. -/
theorem C25_counterexample :
    (scenarioMem.Get 1 25 = some (⟨20, 2, "value: 2"⟩, Status.HOLE, 4, none) ∧
      (⟨22, 3, "value: 3"⟩ : Message) ∉ scenarioMem.stored 1 ∧
      DistinctCreationTimes ((scenarioMem.Put 1 3 22 "value: 3").1.stored 1) ∧
      DistinctSequenceNumbers ((scenarioMem.Put 1 3 22 "value: 3").1.stored 1) ∧
      MonotoneAgreement ((scenarioMem.Put 1 3 22 "value: 3").1.stored 1) ∧
      (scenarioMem.Put 1 3 22 "value: 3").1.Get 1 25
        = some (⟨22, 3, "value: 3"⟩, Status.OK, 4, none) ∧
      Query.updateKey sampleEnv
          (parkedQuery ⟨20, 2, "value: 2"⟩ (1 / 2) (1 / 2) (fun _ => []))
          1 ⟨⟨20, 2, "value: 2"⟩, Status.HOLE, 4, 1 / 2⟩ ⟨22, 3, "value: 3"⟩
        = Except.error Failure.indexOutOfRange) ∧
    (((NewMemtable 0).PutAll [⟨1, 1, 10, "a"⟩]).Get 1 (2 ^ 53 + 1)
        = some (⟨10, 1, "a"⟩, Status.ODV, 0, none) ∧
      DistinctCreationTimes ((lateMem 2).stored 1) ∧
      DistinctSequenceNumbers ((lateMem 2).stored 1) ∧
      MonotoneAgreement ((lateMem 2).stored 1) ∧
      Query.updateKey float64Env ((NewQuery 30 (2 ^ 53 + 1) 1).SetPool sampleSensors) 1
          ⟨⟨10, 1, "a"⟩, Status.ODV, 0, 1 / 2⟩ ⟨2 ^ 53, 2, "b"⟩
        = Except.ok (⟨⟨2 ^ 53, 2, "b"⟩, Status.ODV, 0,
            ProbTemporalCorrect float64Env 1000 400 10 (2 ^ 53 + 1)⟩, false, true,
            Reason.NotCompleted) ∧
      (lateMem 2).Get 1 (2 ^ 53 + 1) = some (⟨10, 1, "a"⟩, Status.OK, 2, none)) ∧
    (minFloat64 (2 ^ 53 + 1) (2 ^ 53 + 3) = 2 ^ 53 ∧
      min (2 ^ 53 + 1) (2 ^ 53 + 3) = 2 ^ 53 + 1) :=
  ⟨⟨by decide, by decide, by decide, by decide, by decide, by decide, rfl⟩,
    ⟨by decide, by decide, by decide, by decide, rfl, by decide⟩,
    ⟨by decide, by decide⟩⟩

/-- A fold evaluated on the first scenario, with the two later messages
(creationTime 22, seq 3) and (50, seq 5): the message is the one `Get` returns on the final
store (seq 3), while the status is the HOLE the second message leaves behind. -/
theorem Query.foldKey_example :
    Query.foldKey sampleEnv (parkedQuery ⟨20, 2, "value: 2"⟩ (1 / 2) (1 / 2) sampleSensors)
      1 ⟨⟨20, 2, "value: 2"⟩, Status.HOLE, 4, 1 / 2⟩ laterMessages
      = Except.ok ⟨⟨22, 3, "value: 3"⟩, Status.HOLE, 4,
          ProbTemporalCorrect sampleEnv 1000 400 20 25⟩ :=
  rfl
